import Mathlib

/-!
Formal model of the aidot reconciliation engine (scan/apply protocol,
merge engines, conflict-resolution state machine), shallowly embedded
from the Rust sources:

  src/adapters/helpers.rs    (normalize_content)
  src/adapters/conflict.rs   (ConflictMode, resolve_conflict, ask_user,
                              write_with_conflict)
  src/adapters/traits.rs     (PendingChange, ScanResult, ApplyResult)
  src/adapters/common.rs     (apply_json_merge, scan_merged_section)
  src/adapters/claude_code.rs (ClaudeCodeAdapter apply_* sections)
  src/commands/pull.rs       (pull_preset scan phase, conflict-mode
                              decision, apply phase)

Rust strings are modeled as Lean Strings; the interactive input stream
is a list of read results (none models a failed read_line); the
filesystem is an association list from path to file content.  Values of
serde_json are modeled by the inductive Json below, with objects as
association lists.
-/

namespace Aidot


/-! ## Character-level string helpers, modeling the Rust std functions
used by normalize_content: str::lines, str::trim_end, str::trim,
slice::join.  All work on List Char; String wrappers follow. -/

/-- Model of Rust char::is_whitespace restricted to the ASCII
whitespace characters that occur in configuration text. -/
def isWS (c : Char) : Bool :=
  c = ' ' || c = '\t' || c = '\r' || c = '\n'

/-- Model of str::trim_start. -/
def trimStartL (l : List Char) : List Char :=
  l.dropWhile isWS

/-- Model of str::trim_end. -/
def trimEndL (l : List Char) : List Char :=
  (l.reverse.dropWhile isWS).reverse

/-- Model of str::trim. -/
def trimL (l : List Char) : List Char :=
  trimStartL (trimEndL l)

/-- Model of str::trim as a String function. -/
def rust_trim (s : String) : String :=
  String.mk (trimL s.data)

/-- Model of str::to_lowercase (the answers matched here are ASCII). -/
def rust_to_lower (s : String) : String :=
  String.mk (s.data.map Char.toLower)

/-- Does pat occur at the head of s? -/
def isPrefixL : List Char → List Char → Bool
  | [], _ => true
  | _ :: _, [] => false
  | p :: ps, c :: cs => p = c && isPrefixL ps cs

/-- Worker for rust_replace: scan left to right, replacing each
non-overlapping occurrence of pat.  The fuel starts at the input
length and bounds the recursion; it never runs out on that input. -/
def replaceGo (pat repl : List Char) : Nat → List Char → List Char
  | _, [] => []
  | 0, s => s
  | fuel + 1, c :: rest =>
    if isPrefixL pat (c :: rest) then
      repl ++ replaceGo pat repl fuel (List.drop (pat.length - 1) rest)
    else c :: replaceGo pat repl fuel rest

/-- Model of str::replace: replace every non-overlapping occurrence of
pat, scanning left to right.  The patterns used in this code base are
nonempty literals; an empty pattern is returned unchanged here. -/
def rust_replace (s pat repl : String) : String :=
  if pat.data.isEmpty then s
  else String.mk (replaceGo pat.data repl.data s.data.length s.data)

/-- Split a character list at every line feed.  Always returns at least
one (possibly empty) component. -/
def splitNL : List Char → List (List Char)
  | [] => [[]]
  | c :: rest =>
    if c = '\n' then [] :: splitNL rest
    else
      match splitNL rest with
      | [] => [[c]]
      | l :: ls => (c :: l) :: ls

/-- Concatenate components with a line feed between them; inverse of
splitNL. -/
def joinNL : List (List Char) → List Char
  | [] => []
  | [l] => l
  | l :: ls => l ++ '\n' :: joinNL ls

/-- Strip one trailing carriage return, as Rust str::lines does for a
line terminated by a carriage return and line feed. -/
def stripCR (l : List Char) : List Char :=
  if l.getLast? = some '\r' then l.dropLast else l

/-- Apply a function to every element except the last one. -/
def mapButLast (f : List Char → List Char) : List (List Char) → List (List Char)
  | [] => []
  | [x] => [x]
  | x :: xs => f x :: mapButLast f xs

/-- Drop the final component when it is empty: a final line ending
produces no extra line in Rust str::lines. -/
def dropLastEmpty (ls : List (List Char)) : List (List Char) :=
  if ls.getLast? = some [] then ls.dropLast else ls

/-- Model of Rust str::lines: split at line feeds, strip the carriage
return of each carriage-return-line-feed terminator, and do not produce
a final empty line for a trailing terminator. -/
def rustLines (l : List Char) : List (List Char) :=
  dropLastEmpty (mapButLast stripCR (splitNL l))

/-- Character-list form of normalize_content. -/
def normalizeL (l : List Char) : List Char :=
  trimL (joinNL ((rustLines l).map trimEndL))

/-- Model of adapters::helpers::normalize_content: split into lines,
right-trim each line, rejoin with a line feed, trim the whole result. -/
def normalize_content (s : String) : String :=
  String.mk (normalizeL s.data)

/-! ## Conflict decision state machine (src/adapters/conflict.rs) -/

/-- The interactive input stream: each element is the outcome of one
read_line call, with none modeling a failed read. -/
abbrev Stdin := List (Option String)

/-- User decision for a single conflict (enum ConflictDecision). -/
inductive ConflictDecision where
  | overwrite
  | skip
  | overwriteAll
  | skipAll
  | showDiff
deriving DecidableEq, Repr

/-- How to handle file conflicts during apply (enum ConflictMode).  The
HashMap of pre-resolved decisions is modeled as an association list. -/
inductive ConflictMode where
  | force
  | skip
  | ask
  | preResolved (decisions : List (String × Bool)) (fallback_all : Option Bool)
deriving DecidableEq, Repr

/-- Interpretation of one trimmed input line inside ask_user; none means
the input is invalid and the user is asked again.  The diff option is
accepted only when a diff is available, as in the source's guarded
match arm. -/
def interpret_answer (input : String) (diff_available : Bool) : Option ConflictDecision :=
  match rust_trim input with
  | "o" | "y" | "yes" => some .overwrite
  | "s" | "n" | "no" => some .skip
  | "d" => if diff_available then some .showDiff else none
  | "O" | "a" | "all" => some .overwriteAll
  | "S" | "N" => some .skipAll
  | "" => some .skip
  | _ => none

/-- Model of ConflictMode::ask_user: read lines until one parses as a
decision.  A failed read returns Skip; an exhausted stream models
end-of-file, where read_line yields an empty line, which also maps to
Skip. -/
def ask_user (diff_available : Bool) : Stdin → ConflictDecision × Stdin
  | [] => (.skip, [])
  | none :: rest => (.skip, rest)
  | some input :: rest =>
    match interpret_answer input diff_available with
    | some d => (d, rest)
    | none => ask_user diff_available rest

/-- Model of the prompting loop inside resolve_conflict: ask_user is
repeated until the decision is not show-diff (showing the diff only
prints and loops).  The invalid-input retry inside ask_user and the
show-diff retry around it are fused into one recursion on the input
stream; the returned decision is never show-diff. -/
def ask_phase (diff_available : Bool) : Stdin → ConflictDecision × Stdin
  | [] => (.skip, [])
  | none :: rest => (.skip, rest)
  | some input :: rest =>
    match interpret_answer input diff_available with
    | some .showDiff => ask_phase diff_available rest
    | some .overwrite => (.overwrite, rest)
    | some .skip => (.skip, rest)
    | some .overwriteAll => (.overwriteAll, rest)
    | some .skipAll => (.skipAll, rest)
    | none => ask_phase diff_available rest

/-- Model of ConflictMode::resolve_conflict.  Returns whether the file
should be written, the (possibly mutated) mode, and the remaining input
stream.  The existing and new contents are used only to decide whether
a diff can be shown; printing the diff is console output with no state.
The show-diff arms below are unreachable because ask_phase never
returns show-diff (lemma ask_phase_ne_showDiff). -/
def resolve_conflict (mode : ConflictMode) (file_path : String)
    (existing_content new_content : Option String) (stdin : Stdin) :
    Bool × ConflictMode × Stdin :=
  match mode with
  | .force => (true, .force, stdin)
  | .skip => (false, .skip, stdin)
  | .preResolved decisions fallback_all =>
    match decisions.lookup file_path with
    | some should_write => (should_write, .preResolved decisions fallback_all, stdin)
    | none =>
      match fallback_all with
      | some should_write => (should_write, .preResolved decisions fallback_all, stdin)
      | none =>
        let diff_available := existing_content.isSome && new_content.isSome
        match ask_phase diff_available stdin with
        | (.overwrite, rest) => (true, .preResolved decisions none, rest)
        | (.skip, rest) => (false, .preResolved decisions none, rest)
        | (.overwriteAll, rest) => (true, .preResolved decisions (some true), rest)
        | (.skipAll, rest) => (false, .preResolved decisions (some false), rest)
        | (.showDiff, rest) => (false, .preResolved decisions none, rest)
  | .ask =>
    let diff_available := existing_content.isSome && new_content.isSome
    match ask_phase diff_available stdin with
    | (.overwrite, rest) => (true, .ask, rest)
    | (.skip, rest) => (false, .ask, rest)
    | (.overwriteAll, rest) => (true, .force, rest)
    | (.skipAll, rest) => (false, .skip, rest)
    | (.showDiff, rest) => (false, .ask, rest)

/-! ## JSON values (model of serde_json::Value)

Numbers are restricted to integers, which covers the configuration
data handled here.  Objects are association lists; serde_json maps
hold each key once, which appears below as explicit no-duplicate
hypotheses where a theorem needs them. -/

inductive Json where
  | null
  | bool (b : Bool)
  | num (n : Int)
  | str (s : String)
  | arrNil
  | arrCons (hd tl : Json)
  | objNil
  | objCons (key : String) (val tl : Json)
deriving DecidableEq, Repr

/-- An object value is a field spine built from objNil and objCons. -/
def Json.isObj : Json → Bool
  | .objNil => true
  | .objCons _ _ _ => true
  | _ => false

/-- Field lookup on an object spine. -/
def Json.lookupField : Json → String → Option Json
  | .objCons k v tl, key => if k = key then some v else tl.lookupField key
  | _, _ => none

/-- Insert into an object spine: replace the value at the first
occurrence of the key, or append a new field at the end (model of map
insertion, which keeps the key set and per-key value semantics of
serde_json's map).  Non-object values are returned unchanged; callers
establish isObj first. -/
def Json.insertField : Json → String → Json → Json
  | .objNil, k, v => .objCons k v .objNil
  | .objCons k' v' tl, k, v =>
    if k' = k then .objCons k' v tl else .objCons k' v' (tl.insertField k v)
  | j, _, _ => j

/-- Model of serde_json::Value::get: field lookup on objects, none on
every other value. -/
def Json.get (j : Json) (k : String) : Option Json :=
  j.lookupField k

/-- Model of the index assignment value[k] = v: objects get the field
inserted, null is replaced by a fresh object (as serde's index_mut
does), and any other value is a panic, modeled as none. -/
def json_set (config : Json) (k : String) (v : Json) : Option Json :=
  if config.isObj then some (config.insertField k v)
  else if config = .null then some (.objCons k v .objNil)
  else none

/-- The value serde's index_mut finds at the wrapper key: the stored
field value, or null for a missing key (which it inserts as null). -/
def wrapper_value (config : Json) (w : String) : Json :=
  match config.lookupField w with
  | some x => x
  | none => .null

/-- Model of the nested index assignment value[w][name] = v.  The null
found or produced at the wrapper key is replaced by a fresh object;
indexing a non-object non-null value is a panic, modeled as none. -/
def json_set2 (config : Json) (w name : String) (v : Json) : Option Json :=
  if config.isObj then
    if (wrapper_value config w).isObj then
      some (config.insertField w ((wrapper_value config w).insertField name v))
    else if wrapper_value config w = .null then
      some (config.insertField w (.objCons name v .objNil))
    else none
  else if config = .null then
    some (.objCons w (.objCons name v .objNil) .objNil)
  else none

/-- The guarded initialisation `if config.get(w).is_none() then
config[w] = json!({})` shared by apply_json_merge and apply_mcp. -/
def ensure_key (config : Json) (w : String) : Option Json :=
  match config.get w with
  | some _ => some config
  | none => json_set config w .objNil

/-- The merge loop `for file in files { config[w][name] = parsed }`. -/
def insert_entries (config : Json) (w : String) : List (String × Json) → Option Json
  | [] => some config
  | (name, v) :: rest =>
    match json_set2 config w name v with
    | some c => insert_entries c w rest
    | none => none

/-! ## Filesystem and result records (src/adapters/traits.rs)

A file's content is either plain text or a serde_json value v standing
for its pretty-printed serialization to_string_pretty(v).  The pretty
printer emits no trailing whitespace and is injective, so comparing
two such serializations after normalize_content is comparing the
values; norm_fc below encodes exactly that. -/

inductive FileContent where
  | text (s : String)
  | json (v : Json)
deriving DecidableEq, Repr

/-- The filesystem: association list from path to content.  Paths are
written in display form (slash-separated, relative to the target
directory), which is in bijection with the real target paths of one
run. -/
abbrev FS := List (String × FileContent)

/-- Write a file: replace the content at an existing path or add the
file. -/
def fs_write : FS → String → FileContent → FS
  | [], p, c => [(p, c)]
  | (p', c') :: rest, p, c =>
    if p' = p then (p', c) :: rest else (p', c') :: fs_write rest p c

/-- Content comparison key used by write_with_conflict and the scan:
text is compared after normalize_content, serialized JSON values are
compared as values. -/
def norm_fc : FileContent → FileContent
  | .text s => .text (normalize_content s)
  | .json v => .json v

/-- Stand-in string for the diff display of a content (only the
presence of the two contents influences the state; the diff itself is
console output). -/
def FileContent.diffText : FileContent → String
  | .text s => s
  | .json _ => ""

/-- Result of applying a preset (struct ApplyResult). -/
structure ApplyResult where
  created : List String
  updated : List String
  skipped : List String
  unchanged : List String
deriving DecidableEq, Repr

def ApplyResult.new : ApplyResult := ⟨[], [], [], []⟩

def ApplyResult.add_created (r : ApplyResult) (p : String) : ApplyResult :=
  { r with created := r.created ++ [p] }

def ApplyResult.add_updated (r : ApplyResult) (p : String) : ApplyResult :=
  { r with updated := r.updated ++ [p] }

def ApplyResult.add_skipped (r : ApplyResult) (p : String) : ApplyResult :=
  { r with skipped := r.skipped ++ [p] }

def ApplyResult.add_unchanged (r : ApplyResult) (p : String) : ApplyResult :=
  { r with unchanged := r.unchanged ++ [p] }

/-- A pending change detected during scan (struct PendingChange).  The
field named section in the source is sectionName here. -/
structure PendingChange where
  path : String
  sectionName : String
  is_conflict : Bool
  is_identical : Bool
  preset_content : Option String
deriving DecidableEq, Repr

/-- Result of scanning for changes (struct ScanResult). -/
structure ScanResult where
  changes : List PendingChange
deriving DecidableEq, Repr

def ScanResult.new : ScanResult := ⟨[]⟩

/-- Model of ScanResult::add_change (used for merged files: conflict
information is existence only). -/
def ScanResult.add_change (r : ScanResult) (path sectionName : String)
    (is_conflict : Bool) : ScanResult :=
  ⟨r.changes ++ [{ path := path, sectionName := sectionName,
                   is_conflict := is_conflict, is_identical := false,
                   preset_content := none }]⟩

/-- Model of ScanResult::add_change_with_content: one-to-one mappings
compare the would-be content with the existing file after
normalization. -/
def ScanResult.add_change_with_content (r : ScanResult) (path sectionName : String)
    (fs : FS) (target_path : String) (preset_content : String) : ScanResult :=
  match fs.lookup target_path with
  | some existing =>
    ⟨r.changes ++ [{ path := path, sectionName := sectionName,
                     is_conflict := true,
                     is_identical := norm_fc existing = norm_fc (.text preset_content),
                     preset_content := some preset_content }]⟩
  | none =>
    ⟨r.changes ++ [{ path := path, sectionName := sectionName,
                     is_conflict := false, is_identical := false,
                     preset_content := some preset_content }]⟩

/-- Model of adapters::conflict::write_with_conflict: auto-skip when the
target does not differ after normalization, otherwise consult the
conflict mode; a missing target is written unconditionally and
reported as created. -/
def write_with_conflict (fs : FS) (target_path : String) (content : FileContent)
    (mode : ConflictMode) (result : ApplyResult) (display_path : String)
    (stdin : Stdin) : FS × ConflictMode × ApplyResult × Stdin :=
  match fs.lookup target_path with
  | some existing =>
    if norm_fc existing = norm_fc content then
      (fs, mode, result.add_unchanged display_path, stdin)
    else
      match resolve_conflict mode display_path (some existing.diffText)
          (some content.diffText) stdin with
      | (true, mode', stdin') =>
        (fs_write fs target_path content, mode', result.add_updated display_path, stdin')
      | (false, mode', stdin') =>
        (fs, mode', result.add_skipped display_path, stdin')
  | none =>
    (fs_write fs target_path content, mode, result.add_created display_path, stdin)

/-! ## Preset data model (src/adapters/traits.rs, src/preset/config.rs) -/

/-- Per-section merge strategy (enum MergeStrategy in preset/config.rs
and template/config.rs; the spec calls concat Accumulate). -/
inductive MergeStrategy where
  | concat
  | replace
deriving DecidableEq, Repr

/-- A preset file (struct PresetFile). -/
structure PresetFile where
  relative_path : String
  content : String
deriving DecidableEq, Repr

/-- A preset file of a JSON-bearing section, carrying the result of
serde_json::from_str on its text; a file whose text does not parse
aborts the run before any merge and is outside this model. -/
structure JsonPresetFile where
  relative_path : String
  content : Json
deriving DecidableEq, Repr

/-- Preset files organized by section (struct PresetFiles, together
with the per-section strategies the adapter receives). -/
structure Preset where
  rules : List PresetFile
  memory : List PresetFile
  commands : List PresetFile
  mcp : List JsonPresetFile
  hooks : List JsonPresetFile
  agents : List PresetFile
  skills : List PresetFile
  settings : List JsonPresetFile
  root : List PresetFile
  memory_strategy : MergeStrategy
  mcp_strategy : MergeStrategy
  settings_strategy : MergeStrategy
deriving DecidableEq, Repr

/-- The state threaded through one adapter's apply: filesystem, result
record, conflict mode, remaining input stream. -/
structure ApplyState where
  fs : FS
  result : ApplyResult
  mode : ConflictMode
  stdin : Stdin
deriving DecidableEq, Repr

/-- One write_with_conflict call on the threaded state. -/
def write_st (st : ApplyState) (target_path : String) (content : FileContent)
    (display_path : String) : ApplyState :=
  match write_with_conflict st.fs target_path content st.mode st.result
      display_path st.stdin with
  | (fs', mode', result', stdin') => ⟨fs', result', mode', stdin'⟩

/-! ## ClaudeCodeAdapter sections (src/adapters/claude_code.rs)

Target paths are written in display form; the target directory prefix
is fixed for a run, so the two are in bijection and a single path
string plays both roles. -/

/-- Shared shape of apply_rules, apply_commands, apply_agents and
apply_skills: strip the section prefix from each relative path with
str::replace and write the file into the section directory.  Directory
creation has no observable effect in this model. -/
def apply_section_files (strip_pat : String) (dir : String)
    (files : List PresetFile) (st : ApplyState) : ApplyState :=
  files.foldl (fun st file =>
    let filename := rust_replace file.relative_path strip_pat ""
    let display := dir ++ filename
    write_st st display (.text file.content) display) st

/-- Model of ClaudeCodeAdapter::apply_rules. -/
def apply_rules (files : List PresetFile) (st : ApplyState) : ApplyState :=
  apply_section_files "rules/" ".claude/rules/" files st

/-- Model of ClaudeCodeAdapter::apply_commands. -/
def apply_commands (files : List PresetFile) (st : ApplyState) : ApplyState :=
  apply_section_files "commands/" ".claude/commands/" files st

/-- Model of ClaudeCodeAdapter::apply_agents. -/
def apply_agents (files : List PresetFile) (st : ApplyState) : ApplyState :=
  apply_section_files "agents/" ".claude/agents/" files st

/-- Model of ClaudeCodeAdapter::apply_skills. -/
def apply_skills (files : List PresetFile) (st : ApplyState) : ApplyState :=
  apply_section_files "skills/" ".claude/skills/" files st

/-- The fixed separator between merged memory files. -/
def memory_separator : String := "\n\n---\n\n"

/-- Join the memory files' contents with the separator, as the
accumulation loop in apply_memory does. -/
def join_memory : List String → String
  | [] => ""
  | [c] => c
  | c :: rest => c ++ memory_separator ++ join_memory rest

/-- Model of ClaudeCodeAdapter::apply_memory: the joined content is
appended after the existing content under concat (reported updated
with no conflict check), written through write_with_conflict under
replace, and written directly (reported created) when the destination
is absent.  A destination whose content is a modeled JSON
serialization cannot arise on this path and yields none. -/
def apply_memory (files : List PresetFile) (strategy : MergeStrategy)
    (st : ApplyState) : Option ApplyState :=
  if files.isEmpty then some st else
  match st.fs.lookup ".claude/CLAUDE.md" with
  | some existing =>
    match strategy with
    | .concat =>
      match existing with
      | .text e => some { st with
          fs := fs_write st.fs ".claude/CLAUDE.md"
            (.text (e ++ memory_separator ++ join_memory (files.map (·.content)))),
          result := st.result.add_updated ".claude/CLAUDE.md" }
      | .json _ => none
    | .replace => some (write_st st ".claude/CLAUDE.md"
        (.text (join_memory (files.map (·.content)))) ".claude/CLAUDE.md")
  | none => some { st with
      fs := fs_write st.fs ".claude/CLAUDE.md"
        (.text (join_memory (files.map (·.content)))),
      result := st.result.add_created ".claude/CLAUDE.md" }

/-- Reading the existing settings file or starting fresh, per strategy
(the shared head of apply_mcp and apply_settings).  An existing file
that is not a modeled JSON serialization has an unmodeled parse and
yields none; a missing file yields the empty object. -/
def read_settings (fs : FS) (path : String) (strategy : MergeStrategy) : Option Json :=
  match strategy with
  | .concat =>
    match fs.lookup path with
    | some (.json v) => some v
    | some (.text _) => none
    | none => some .objNil
  | .replace => some .objNil

/-- Model of ClaudeCodeAdapter::apply_mcp: ensure the mcpServers
object, insert one entry per file keyed by its filename stem, then
write the serialized result through write_with_conflict. -/
def apply_mcp (files : List JsonPresetFile) (strategy : MergeStrategy)
    (st : ApplyState) : Option ApplyState :=
  if files.isEmpty then some st else
  match read_settings st.fs ".claude/settings.local.json" strategy with
  | none => none
  | some settings0 =>
    match ensure_key settings0 "mcpServers" with
    | none => none
    | some s1 =>
      match insert_entries s1 "mcpServers" (files.map fun f =>
          (rust_replace (rust_replace f.relative_path "mcp/" "") ".json" "", f.content)) with
      | none => none
      | some s2 => some (write_st st ".claude/settings.local.json" (.json s2)
          ".claude/settings.local.json")

/-- The hooks object built fresh from the section files (a
serde_json::Map keyed by filename stem). -/
def build_hooks (files : List JsonPresetFile) : Json :=
  files.foldl (fun acc f =>
    acc.insertField (rust_replace (rust_replace f.relative_path "hooks/" "") ".json" "")
      f.content) .objNil

/-- Model of ClaudeCodeAdapter::apply_hooks. -/
def apply_hooks (files : List JsonPresetFile) (st : ApplyState) : ApplyState :=
  if files.isEmpty then st else
  write_st st ".claude/hooks.json" (.json (build_hooks files)) ".claude/hooks.json"

/-- Insert every field of an object spine into settings (the inner
loop of apply_settings). -/
def insert_all_fields (settings : Json) : Json → Json
  | .objCons k v tl => insert_all_fields (settings.insertField k v) tl
  | _ => settings

/-- One file's contribution in apply_settings: top-level keys are
merged when both the file content and the settings are objects,
otherwise nothing happens (the source's nested if-let). -/
def merge_flat (settings : Json) (v : Json) : Json :=
  if v.isObj then
    if settings.isObj then insert_all_fields settings v else settings
  else settings

/-- Model of ClaudeCodeAdapter::apply_settings. -/
def apply_settings (files : List JsonPresetFile) (strategy : MergeStrategy)
    (st : ApplyState) : Option ApplyState :=
  if files.isEmpty then some st else
  match read_settings st.fs ".claude/settings.local.json" strategy with
  | none => none
  | some settings0 =>
    some (write_st st ".claude/settings.local.json"
      (.json (files.foldl (fun s f => merge_flat s f.content) settings0))
      ".claude/settings.local.json")

/-- Model of ClaudeCodeAdapter::apply: the eight sections in their
fixed order, threading one state (hence one mode value) through all of
them. -/
def claude_apply (p : Preset) (fs : FS) (mode : ConflictMode) (stdin : Stdin) :
    Option ApplyState := do
  let st := apply_rules p.rules ⟨fs, ApplyResult.new, mode, stdin⟩
  let st ← apply_memory p.memory p.memory_strategy st
  let st := apply_commands p.commands st
  let st ← apply_mcp p.mcp p.mcp_strategy st
  let st := apply_hooks p.hooks st
  let st := apply_agents p.agents st
  let st := apply_skills p.skills st
  apply_settings p.settings p.settings_strategy st

/-! ## Scan (src/commands/pull.rs, src/adapters/common.rs) -/

/-- Scan of a one-to-one section: same destination paths as
apply_section_files, classified by content comparison (the
scan_one_to_one helper of common.rs specialized to the adapter's path
mapping). -/
def scan_section_files (strip_pat dir sectionName : String)
    (files : List PresetFile) (fs : FS) (r : ScanResult) : ScanResult :=
  files.foldl (fun r file =>
    let filename := rust_replace file.relative_path strip_pat ""
    let display := dir ++ filename
    r.add_change_with_content display sectionName fs display file.content) r

/-- Model of common::scan_merged_section: a nonempty merged section
contributes one change whose conflict flag is the existence of the
destination. -/
def scan_merged_section (nonempty : Bool) (display sectionName : String)
    (fs : FS) (r : ScanResult) : ScanResult :=
  if nonempty then r.add_change display sectionName (fs.lookup display).isSome
  else r

/-- Modelled from the spec: the ClaudeCodeAdapter scan implementation
is absent from the source snapshot (the ToolAdapter trait declares it
and pull_preset calls it; common.rs carries its helpers).  Per the
spec, scan visits the sections the adapter recognizes in the fixed
apply order, computes the same destination paths as apply, and
classifies one-to-one files by normalized content comparison and
merged files by existence. -/
def claude_scan (p : Preset) (fs : FS) : ScanResult :=
  let r := ScanResult.new
  let r := scan_section_files "rules/" ".claude/rules/" "rules" p.rules fs r
  let r := scan_merged_section (!p.memory.isEmpty) ".claude/CLAUDE.md" "memory" fs r
  let r := scan_section_files "commands/" ".claude/commands/" "commands" p.commands fs r
  let r := scan_merged_section (!p.mcp.isEmpty) ".claude/settings.local.json" "mcp" fs r
  let r := scan_merged_section (!p.hooks.isEmpty) ".claude/hooks.json" "hooks" fs r
  let r := scan_section_files "agents/" ".claude/agents/" "agents" p.agents fs r
  let r := scan_section_files "skills/" ".claude/skills/" "skills" p.skills fs r
  scan_merged_section (!p.settings.isEmpty) ".claude/settings.local.json" "settings" fs r

/-- Model of the root-file scan in pull_preset (phase 1): existence
plus normalized comparison, read errors aside. -/
def scan_root (files : List PresetFile) (fs : FS) : List PendingChange :=
  files.map fun f =>
    match fs.lookup f.relative_path with
    | some existing =>
      { path := f.relative_path, sectionName := "root", is_conflict := true,
        is_identical := norm_fc existing = norm_fc (.text f.content),
        preset_content := none }
    | none =>
      { path := f.relative_path, sectionName := "root", is_conflict := false,
        is_identical := false, preset_content := none }

/-- The scan phase of pull_preset: root files first, then the detected
tools; the snapshot carries the Claude Code adapter (the cursor and
copilot modules are declared but absent). -/
def pull_scan (p : Preset) (fs : FS) : List PendingChange :=
  scan_root p.root fs ++ (claude_scan p fs).changes

/-! ## Apply phase and conflict-mode decision (src/commands/pull.rs) -/

/-- Model of pull::apply_root_files: thread a local mode through the
root files; the caller receives the result and drops the final
mode. -/
def apply_root_files (root_files : List PresetFile) (fs : FS)
    (conflict_mode : ConflictMode) (stdin : Stdin) : ApplyState :=
  root_files.foldl (fun st file =>
    write_st st file.relative_path (.text file.content) file.relative_path)
    ⟨fs, ApplyResult.new, conflict_mode, stdin⟩

/-- The apply phase of pull_preset (phase 5): apply_root_files receives
the decided mode by value, then each tool's apply receives the same
decided mode by value; mode mutations inside one call are not passed
to the next call.  Returns the final filesystem, the root result, the
adapter result, and the remaining input stream. -/
def pull_apply (p : Preset) (fs : FS) (conflict_mode : ConflictMode)
    (stdin : Stdin) : Option (FS × ApplyResult × ApplyResult × Stdin) := do
  let rootSt := apply_root_files p.root fs conflict_mode stdin
  let st ← claude_apply p rootSt.fs conflict_mode rootSt.stdin
  some (st.fs, rootSt.result, st.result, st.stdin)

/-- Model of pull::ask_conflict_resolution: one line is read and mapped
to a mode; cancel, an invalid answer and a failed read all terminate
the run (none). -/
def ask_conflict_resolution : Stdin → Option (ConflictMode × Stdin)
  | [] => none
  | none :: _ => none
  | some input :: rest =>
    match rust_to_lower (rust_trim input) with
    | "f" | "force" => some (.force, rest)
    | "s" | "skip" => some (.skip, rest)
    | "i" | "interact" | "interactive" => some (.ask, rest)
    | _ => none

/-- The conflicting changes displayed and counted by pull_preset. -/
def conflicts_of (changes : List PendingChange) : List PendingChange :=
  changes.filter fun c => c.is_conflict && !c.is_identical

/-- Model of phase 4 of pull_preset: the force flag, then the skip
flag, then the no-conflict shortcut, then the single whole-run
prompt. -/
def determine_conflict_mode (force skip : Bool) (changes : List PendingChange)
    (stdin : Stdin) : Option (ConflictMode × Stdin) :=
  if force then some (.force, stdin)
  else if skip then some (.skip, stdin)
  else if (conflicts_of changes).isEmpty then some (.force, stdin)
  else ask_conflict_resolution stdin

/-! ## Destination paths of one run (derived path bookkeeping) -/

/-- The destination paths of a one-to-one section, in file order. -/
def section_paths (strip_pat dir : String) (files : List PresetFile) :
    List String :=
  files.map fun f => dir ++ rust_replace f.relative_path strip_pat ""

/-- Every destination path of the Claude Code adapter's run, in the
fixed section order; a merged section contributes its single
destination exactly when it has files. -/
def claude_paths (p : Preset) : List String :=
  section_paths "rules/" ".claude/rules/" p.rules
    ++ ((if p.memory.isEmpty then [] else [".claude/CLAUDE.md"])
    ++ (section_paths "commands/" ".claude/commands/" p.commands
    ++ ((if p.mcp.isEmpty then [] else [".claude/settings.local.json"])
    ++ ((if p.hooks.isEmpty then [] else [".claude/hooks.json"])
    ++ (section_paths "agents/" ".claude/agents/" p.agents
    ++ (section_paths "skills/" ".claude/skills/" p.skills
    ++ (if p.settings.isEmpty then [] else [".claude/settings.local.json"])))))))

/-- Every destination path of one pull run: root files first, then the
adapter's paths. -/
def pull_paths (p : Preset) : List String :=
  p.root.map (fun f => f.relative_path) ++ claude_paths p

/-- The paths of a batch absent from a filesystem, in batch order. -/
def missing_of (paths : List String) (fs : FS) : List String :=
  paths.filter fun q => (fs.lookup q).isNone

/-- The paths of a batch present in a filesystem, in batch order. -/
def existing_of (paths : List String) (fs : FS) : List String :=
  paths.filter fun q => (fs.lookup q).isSome

/-- The buckets of an ApplyResult that record a visit to an existing
destination: updated, skipped and unchanged combined. -/
def ApplyResult.touched (r : ApplyResult) : List String :=
  r.updated ++ r.skipped ++ r.unchanged

/-- Existence-level behaviour of one step of the apply phase over the
path batch it owns: created grows by exactly the missing paths of the
batch (in order), the touched buckets grow by exactly the existing
paths of the batch, and the filesystem is changed only at the batch's
paths. -/
def StepSpec (A : ApplyState → Option ApplyState) (L : List String) : Prop :=
  ∀ st st', A st = some st' →
    (st'.result.created = st.result.created ++ missing_of L st.fs ∧
     ∀ q, q ∈ st'.result.touched
       ↔ q ∈ st.result.touched ∨ q ∈ existing_of L st.fs) ∧
    ∀ q, q ∉ L → st'.fs.lookup q = st.fs.lookup q

/-- Model of helpers::strip_section_prefix: remove every occurrence of
the section name followed by a slash or a backslash. -/
def strip_section_prefix (relative_path : String) (sectionName : String) : String :=
  rust_replace (rust_replace relative_path (sectionName ++ "/") "")
    (sectionName ++ "\\") ""

/-- The generated key of one preset file in apply_json_merge: section
prefix stripped, ".json" removed. -/
def json_entry_name (sectionName relative_path : String) : String :=
  rust_replace ( strip_section_prefix relative_path sectionName) ".json" ""

/-- The configuration object built by common::apply_json_merge before
it is serialized and handed to write_with_conflict: read the existing
destination (already parsed; a file that fails to parse aborts
earlier) or the default, ensure the wrapper key, then run the merge
loop. -/
def build_json_merge (files : List JsonPresetFile) (sectionName : String)
    (existing : Option Json) (default_json : Json) (wrapper_key : String) :
    Option Json :=
  (ensure_key (existing.getD default_json) wrapper_key).bind fun c =>
    insert_entries c wrapper_key (files.map fun f =>
      (json_entry_name sectionName f.relative_path, f.content))

/-- A well-formed object spine (what a serde_json map denotes). -/
def Json.objWF : Json → Bool
  | .objNil => true
  | .objCons _ _ tl => tl.objWF
  | _ => false

/-- Well-formedness of a configuration at a wrapper key: the
configuration is an object spine (or null), and the wrapper value, if
an object, is a spine.  Arbitrary serde values satisfy this; it rules
out only spines not denotable by serde maps. -/
def config_wf (config : Json) (w : String) : Bool :=
  (config.objWF || config == .null) &&
    (match config.lookupField w with
     | some j => !j.isObj || j.objWF
     | none => true)

/-- The value the merge loop leaves at key k: the content of the last
entry with that key, if any. -/
def last_value (entries : List (String × Json)) (k : String) : Option Json :=
  match entries with
  | [] => none
  | (n, v) :: rest =>
    match last_value rest k with
    | some r => some r
    | none => if n = k then some v else none

/-- Lookup of key k under the wrapper key of a configuration. -/
def wrapper_get (config : Json) (w k : String) : Option Json :=
  match config.lookupField w with
  | some j => j.lookupField k
  | none => none

/-- The top-level field spine of a value: the fields of an object, read
off in order; non-objects have none. -/
def Json.fields : Json → List (String × Json)
  | .objCons k v tl => (k, v) :: tl.fields
  | _ => []

/-- The top-level keys contributed by the settings files, in merge
order (the keys insert_all_fields walks). -/
def flat_keys : List JsonPresetFile → List String
  | [] => []
  | f :: rest => (f.content.fields.map Prod.fst) ++ flat_keys rest

/-- Well-formedness of the settings file of a filesystem: if present
and a modeled JSON serialization, its value is a serde-denotable spine
with a serde-denotable mcpServers wrapper.  Every value serde_json can
produce satisfies this. -/
def settings_wf (fs : FS) : Bool :=
  match fs.lookup ".claude/settings.local.json" with
  | some (.json v) => config_wf v "mcpServers"
  | _ => true

/-- Trailing-free: no whitespace at the end. -/
def TF (l : List Char) : Prop := trimEndL l = l

/-- Remove all trailing empty components. -/
def dropTrailEmpty : List (List Char) → List (List Char)
  | [] => []
  | m :: ms =>
    match dropTrailEmpty ms with
    | [] => if m = [] then [] else [m]
    | ms' => m :: ms'

/-- Drop leading empty components and left-trim the first remaining
one. -/
def trimHeadComps : List (List Char) → List (List Char)
  | [] => []
  | m :: ms => if m = [] then trimHeadComps ms else trimStartL m :: ms

/-- Normal form of a component list: components are free of line feeds
and trailing whitespace, the first component is nonempty and
left-trimmed, the last is nonempty. -/
def NF (ms : List (List Char)) : Prop :=
  (∀ m ∈ ms, '\n' ∉ m ∧ TF m) ∧
  (∀ h, ms.head? = some h → h ≠ [] ∧ trimStartL h = h) ∧
  (∀ lc, ms.getLast? = some lc → lc ≠ [])

/-- Rewrite every line-feed line ending as a carriage-return
line-feed pair: the same text in the other line-ending style. -/
def expandCRLF : List Char → List Char
  | [] => []
  | c :: rest =>
    if c = '\n' then '\r' :: '\n' :: expandCRLF rest else c :: expandCRLF rest

/-- Append a carriage return to every component except the last (the
effect of expandCRLF on the split components). -/
def addCR : List (List Char) → List (List Char)
  | [] => []
  | [x] => [x]
  | x :: xs => (x ++ ['\r']) :: addCR xs

/-- C3 counterexample setup: one conflicting root file and one
conflicting rules file. -/
def c3_preset : Preset :=
  { rules := [PresetFile.mk "rules/a.md" "new-rule"],
    memory := [], commands := [], mcp := [], hooks := [], agents := [],
    skills := [], settings := [],
    root := [PresetFile.mk "note.md" "new-root"],
    memory_strategy := .concat, mcp_strategy := .concat,
    settings_strategy := .concat }

def c3_fs : FS :=
  [("note.md", .text "old-root"), (".claude/rules/a.md", .text "old-rule")]

/-- A piece of one ClaudeCodeAdapter apply invocation, as a function on
the threaded state: a single section step (apply_rules, apply_commands,
apply_agents and apply_skills are apply_section_files instances, and a
section resumed after some of its files is apply_section_files on the
remaining files), or two pieces run in sequence.  The remainder of an
invocation from any of its writes has this shape, and the whole
invocation is the composite of its eight sections
(claude_apply_is_claudeStep below). -/
inductive ClaudeStep : (ApplyState → Option ApplyState) → Prop where
  | one_to_one (sp dir : String) (files : List PresetFile) :
      ClaudeStep (fun st => some (apply_section_files sp dir files st))
  | memory (files : List PresetFile) (strategy : MergeStrategy) :
      ClaudeStep (fun st => apply_memory files strategy st)
  | mcp (files : List JsonPresetFile) (strategy : MergeStrategy) :
      ClaudeStep (fun st => apply_mcp files strategy st)
  | hooks (files : List JsonPresetFile) :
      ClaudeStep (fun st => some (apply_hooks files st))
  | settings (files : List JsonPresetFile) (strategy : MergeStrategy) :
      ClaudeStep (fun st => apply_settings files strategy st)
  | comp {A B : ApplyState → Option ApplyState} :
      ClaudeStep A → ClaudeStep B → ClaudeStep (fun st => (A st).bind B)

theorem ask_phase_ne_showDiff (d : Bool) (stdin : Stdin) :
    (ask_phase d stdin).1 ≠ .showDiff := by
  induction stdin with
  | nil => simp [ask_phase]
  | cons x rest ih =>
    match x with
    | none => simp [ask_phase]
    | some input =>
      simp only [ask_phase]
      rcases h : interpret_answer input d with _ | d'
      · simpa using ih
      · cases d' <;> simp_all

/-! ## Basic filesystem lemmas -/

theorem lookup_fs_write_self (fs : FS) (p : String) (c : FileContent) :
    (fs_write fs p c).lookup p = some c := by
  induction fs with
  | nil => simp [fs_write, List.lookup]
  | cons hd tl ih =>
    obtain ⟨q, d⟩ := hd
    by_cases h : q = p
    · subst h
      simp [fs_write, List.lookup]
    · have hq : (p == q) = false := beq_eq_false_iff_ne.mpr fun hh => h hh.symm
      simp [fs_write, h, List.lookup, hq, ih]

theorem lookup_fs_write_ne (fs : FS) (p q : String) (c : FileContent)
    (h : q ≠ p) : (fs_write fs p c).lookup q = fs.lookup q := by
  have hq : (q == p) = false := beq_eq_false_iff_ne.mpr h
  induction fs with
  | nil => simp [fs_write, List.lookup, hq]
  | cons hd tl ih =>
    obtain ⟨r, d⟩ := hd
    by_cases hr : r = p
    · subst hr
      simp [fs_write, List.lookup, hq]
    · simp only [fs_write, if_neg hr, List.lookup]
      rw [ih]

/-! ## Claim C5: Force and Skip are absorbing states of resolve_conflict -/

/-- C5: resolve_conflict on mode Force always returns true and leaves
the mode Force; on mode Skip it always returns false and leaves the
mode Skip; neither consults the input stream, so a run whose mode has
become Force or Skip never moves back to Ask or PreResolved. -/
theorem resolve_conflict_force_skip_absorbing (file_path : String)
    (existing_content new_content : Option String) (stdin : Stdin) :
    resolve_conflict .force file_path existing_content new_content stdin
      = (true, .force, stdin) ∧
    resolve_conflict .skip file_path existing_content new_content stdin
      = (false, .skip, stdin) :=
  ⟨rfl, rfl⟩

/-! ## Claim C9: a failed read of the input stream degrades to skip -/

/-- C9: when the read of the interactive stream fails at a conflict
prompt, ask_user returns the Skip decision, and a write_with_conflict
call that reached the prompt (existing target with differing
normalized content) records the file under skipped, leaves the
filesystem untouched, keeps the mode (no escalation), and returns
normally so the run continues.  This covers the Ask mode and the
PreResolved mode that fell through to the inline prompt. -/
theorem read_error_defaults_to_skip (fs : FS) (target display : String)
    (content existing : FileContent) (result : ApplyResult) (rest : Stdin)
    (hlook : fs.lookup target = some existing)
    (hdiff : norm_fc existing ≠ norm_fc content) :
    (∀ d : Bool, ask_user d (none :: rest) = (.skip, rest)) ∧
    write_with_conflict fs target content .ask result display (none :: rest)
      = (fs, .ask, result.add_skipped display, rest) ∧
    ∀ decisions, decisions.lookup display = none →
      write_with_conflict fs target content (.preResolved decisions none) result
          display (none :: rest)
        = (fs, .preResolved decisions none, result.add_skipped display, rest) := by
  refine ⟨fun d => rfl, ?_, ?_⟩
  · simp [write_with_conflict, hlook, hdiff, resolve_conflict, ask_phase]
  · intro decisions hdec
    simp [write_with_conflict, hlook, hdiff, resolve_conflict, hdec, ask_phase]

theorem read_error_defaults_to_skip_witness :
    ([(("a.md" : String), FileContent.text "old")] : FS).lookup "a.md"
        = some (.text "old") ∧
    norm_fc (.text "old") ≠ norm_fc (.text "new") ∧
    write_with_conflict [("a.md", .text "old")] "a.md" (.text "new") .ask
        ApplyResult.new "a.md" [none]
      = ([("a.md", .text "old")], .ask, ApplyResult.new.add_skipped "a.md", []) :=
  ⟨rfl, by decide,
    (read_error_defaults_to_skip [("a.md", .text "old")] "a.md" "a.md"
      (.text "new") (.text "old") ApplyResult.new [] rfl (by decide)).2.1⟩

/-! ## Claim C10: a missing destination is written for every mode -/

/-- C10: for every conflict mode, including Skip, write_with_conflict
on a target that does not exist writes the content and records the
display path under created, consuming no input and leaving the mode
unchanged; and when the target exists with content equal after
normalization it records unchanged, again with no consultation of the
mode or the input stream.  The conflict machinery therefore runs only
for an existing, differing destination. -/
theorem write_with_conflict_missing_target_creates (fs : FS)
    (target display : String) (content : FileContent) (mode : ConflictMode)
    (result : ApplyResult) (stdin : Stdin) :
    (fs.lookup target = none →
      write_with_conflict fs target content mode result display stdin
        = (fs_write fs target content, mode, result.add_created display, stdin)) ∧
    (∀ existing, fs.lookup target = some existing →
      norm_fc existing = norm_fc content →
      write_with_conflict fs target content mode result display stdin
        = (fs, mode, result.add_unchanged display, stdin)) := by
  constructor
  · intro h
    simp [write_with_conflict, h]
  · intro existing h heq
    simp [write_with_conflict, h, heq]

theorem write_with_conflict_missing_target_creates_witness :
    ([] : FS).lookup "new.md" = none ∧
    write_with_conflict [] "new.md" (.text "fresh") .skip ApplyResult.new
        "new.md" []
      = ([("new.md", .text "fresh")], .skip, ApplyResult.new.add_created "new.md",
         []) :=
  ⟨rfl, (write_with_conflict_missing_target_creates [] "new.md" "new.md"
    (.text "fresh") .skip ApplyResult.new []).1 rfl⟩

/-! ## Claim C4: concat-merge growth for the memory section -/

/-- C4: with a nonempty memory section, joined content N and an
existing destination with content E, the concat strategy writes
E ++ separator ++ N and reports updated; the replace strategy, when
the destination differs after normalization and the conflict mode
allows the write, writes exactly N and reports updated. -/
theorem apply_memory_concat_growth (files : List PresetFile) (st : ApplyState)
    (E : String) (hne : files ≠ [])
    (hlook : st.fs.lookup ".claude/CLAUDE.md" = some (.text E)) :
    (apply_memory files .concat st = some { st with
        fs := fs_write st.fs ".claude/CLAUDE.md"
          (.text (E ++ memory_separator ++ join_memory (files.map (·.content)))),
        result := st.result.add_updated ".claude/CLAUDE.md" } ∧
      (fs_write st.fs ".claude/CLAUDE.md"
          (.text (E ++ memory_separator ++ join_memory (files.map (·.content))))).lookup
          ".claude/CLAUDE.md"
        = some (.text (E ++ memory_separator ++ join_memory (files.map (·.content))))) ∧
    (norm_fc (.text E) ≠ norm_fc (.text (join_memory (files.map (·.content)))) →
      ∀ mode' stdin',
        resolve_conflict st.mode ".claude/CLAUDE.md" (some E)
            (some (join_memory (files.map (·.content)))) st.stdin
          = (true, mode', stdin') →
        ∃ st', apply_memory files .replace st = some st' ∧
          st'.fs.lookup ".claude/CLAUDE.md"
            = some (.text (join_memory (files.map (·.content)))) ∧
          st'.result = st.result.add_updated ".claude/CLAUDE.md") := by
  have hfe : files.isEmpty = false := by
    cases files with
    | nil => exact absurd rfl hne
    | cons a l => rfl
  constructor
  · constructor
    · simp [apply_memory, hfe, hlook]
    · exact lookup_fs_write_self _ _ _
  · intro hdiff mode' stdin' hres
    have hw : write_st st ".claude/CLAUDE.md"
        (.text (join_memory (files.map (·.content)))) ".claude/CLAUDE.md"
        = ⟨fs_write st.fs ".claude/CLAUDE.md"
            (.text (join_memory (files.map (·.content)))),
           st.result.add_updated ".claude/CLAUDE.md", mode', stdin'⟩ := by
      simp only [write_st, write_with_conflict, hlook]
      rw [if_neg hdiff]
      simp only [FileContent.diffText]
      rw [hres]
    refine ⟨write_st st ".claude/CLAUDE.md"
        (.text (join_memory (files.map (·.content)))) ".claude/CLAUDE.md",
      by simp [apply_memory, hfe, hlook], ?_, ?_⟩
    · rw [hw]
      exact lookup_fs_write_self _ _ _
    · rw [hw]

theorem apply_memory_concat_growth_witness :
    [PresetFile.mk "memory/b.md" "# B"] ≠ [] ∧
    ([(".claude/CLAUDE.md", FileContent.text "# A")] : FS).lookup ".claude/CLAUDE.md"
      = some (.text "# A") ∧
    apply_memory [PresetFile.mk "memory/b.md" "# B"] .concat
        ⟨[(".claude/CLAUDE.md", .text "# A")], ApplyResult.new, .force, []⟩
      = some ⟨[(".claude/CLAUDE.md", .text ("# A" ++ memory_separator ++ "# B"))],
          ApplyResult.new.add_updated ".claude/CLAUDE.md", .force, []⟩ := by
  refine ⟨by simp, rfl, ?_⟩
  have h := (apply_memory_concat_growth [PresetFile.mk "memory/b.md" "# B"]
    ⟨[(".claude/CLAUDE.md", .text "# A")], ApplyResult.new, .force, []⟩
    "# A" (by simp) rfl).1.1
  simpa [fs_write, join_memory] using h

/-! ## Keyed JSON merge (src/adapters/common.rs apply_json_merge) -/

theorem insertField_objWF (j : Json) (k : String) (v : Json)
    (h : j.objWF = true) : (j.insertField k v).objWF = true := by
  induction j with
  | objNil => simp [Json.insertField, Json.objWF]
  | objCons k' v' tl ih =>
    by_cases hk : k' = k <;>
      simp_all [Json.insertField, Json.objWF]
  | _ => simp_all [Json.objWF]

theorem lookupField_insertField_self (j : Json) (k : String) (v : Json)
    (h : j.objWF = true) : (j.insertField k v).lookupField k = some v := by
  induction j with
  | objNil => simp [Json.insertField, Json.lookupField]
  | objCons k' v' tl ih =>
    by_cases hk : k' = k <;>
      simp_all [Json.insertField, Json.lookupField, Json.objWF]
  | _ => simp_all [Json.objWF]

theorem lookupField_insertField_ne (j : Json) (k k' : String) (v : Json)
    (h : j.objWF = true) (hne : k' ≠ k) :
    (j.insertField k v).lookupField k' = j.lookupField k' := by
  induction j with
  | objNil =>
    have hk : ¬k = k' := fun hk => hne hk.symm
    simp [Json.insertField, Json.lookupField, hk]
  | objCons a b tl ihv ihtl =>
    have htl : tl.objWF = true := by simpa [Json.objWF] using h
    by_cases ha : a = k
    · have ha' : ¬a = k' := fun hh => hne (hh.symm.trans ha)
      simp [Json.insertField, if_pos ha, Json.lookupField, ha']
    · simp only [Json.insertField, if_neg ha, Json.lookupField]
      by_cases ha' : a = k'
      · rw [if_pos ha', if_pos ha']
      · rw [if_neg ha', if_neg ha', ihtl htl]
  | _ => simp_all [Json.objWF]

theorem isObj_objWF (config : Json) (w : String)
    (hwf : config_wf config w = true) (hobj : config.isObj = true) :
    config.objWF = true := by
  cases config <;> simp_all [Json.isObj, Json.objWF, config_wf]

theorem wrapper_value_none {config : Json} {w : String}
    (hl : config.lookupField w = none) : wrapper_value config w = .null := by
  simp [wrapper_value, hl]

theorem wrapper_value_some {config : Json} {w : String} {j : Json}
    (hl : config.lookupField w = some j) : wrapper_value config w = j := by
  simp [wrapper_value, hl]

theorem json_set2_spec (config : Json) (w n : String) (v c' : Json)
    (hwf : config_wf config w = true)
    (h : json_set2 config w n v = some c') :
    config_wf c' w = true ∧ wrapper_get c' w n = some v ∧
      ∀ k, k ≠ n → wrapper_get c' w k = wrapper_get config w k := by
  by_cases hobj : config.isObj = true
  · have hcwf : config.objWF = true := isObj_objWF config w hwf hobj
    rw [json_set2, if_pos hobj] at h
    have main : ∀ Y : Json, Y.objWF = true → c' = config.insertField w Y →
        config_wf c' w = true ∧ ∀ k, wrapper_get c' w k = Y.lookupField k := by
      intro Y hYwf hc'
      subst hc'
      have hlw : (config.insertField w Y).lookupField w = some Y :=
        lookupField_insertField_self config w Y hcwf
      constructor
      · simp only [config_wf, hlw]
        rw [insertField_objWF config w Y hcwf]
        simp [hYwf]
      · intro k
        simp [wrapper_get, hlw]
    by_cases hin : (wrapper_value config w).isObj = true
    · rw [if_pos hin] at h
      injection h with h
      have hinwf : (wrapper_value config w).objWF = true := by
        cases hl : config.lookupField w with
        | none =>
          rw [wrapper_value_none hl] at hin
          simp [Json.isObj] at hin
        | some j =>
          rw [wrapper_value_some hl] at hin ⊢
          have h2 : (!j.isObj || j.objWF) = true := by
            have := hwf
            simp only [config_wf, hl, Bool.and_eq_true] at this
            exact this.2
          simpa [hin] using h2
      obtain ⟨h1, h2⟩ := main _ (insertField_objWF _ n v hinwf) h.symm
      refine ⟨h1, ?_, ?_⟩
      · rw [h2 n, lookupField_insertField_self _ n v hinwf]
      · intro k hk
        rw [h2 k, lookupField_insertField_ne _ n k v hinwf hk]
        cases hl : config.lookupField w with
        | none =>
          rw [wrapper_value_none hl]
          simp [wrapper_get, hl, Json.lookupField]
        | some j =>
          rw [wrapper_value_some hl]
          simp [wrapper_get, hl]
    · rw [if_neg hin] at h
      by_cases hnull : wrapper_value config w = .null
      · rw [if_pos hnull] at h
        injection h with h
        obtain ⟨h1, h2⟩ := main (.objCons n v .objNil) (by simp [Json.objWF])
          h.symm
        have hnk : ∀ k, k ≠ n → ¬n = k := fun k hk hh => hk hh.symm
        refine ⟨h1, ?_, ?_⟩
        · rw [h2 n]
          simp [Json.lookupField]
        · intro k hk
          rw [h2 k]
          cases hl : config.lookupField w with
          | none => simp [wrapper_get, hl, Json.lookupField, hnk k hk]
          | some j =>
            rw [wrapper_value_some hl] at hnull
            subst hnull
            simp [wrapper_get, hl, Json.lookupField, hnk k hk]
      · rw [if_neg hnull] at h
        cases h
  · rw [json_set2, if_neg hobj] at h
    by_cases hnc : config = .null
    · rw [if_pos hnc] at h
      injection h with h
      subst hnc
      subst h
      refine ⟨by simp [config_wf, Json.objWF, Json.lookupField, Json.isObj], ?_, ?_⟩
      · simp [wrapper_get, Json.lookupField]
      · intro k hk
        have hnk : ¬n = k := fun hh => hk hh.symm
        simp [wrapper_get, Json.lookupField, hnk]
    · rw [if_neg hnc] at h
      cases h

theorem ensure_key_spec (config : Json) (w : String) (c : Json)
    (hwf : config_wf config w = true) (h : ensure_key config w = some c) :
    config_wf c w = true ∧ ∀ k, wrapper_get c w k = wrapper_get config w k := by
  rw [ensure_key] at h
  cases hg : config.get w with
  | some j =>
    rw [hg] at h
    simp only at h
    injection h with h
    subst h
    exact ⟨hwf, fun k => rfl⟩
  | none =>
    rw [hg] at h
    simp only [json_set] at h
    by_cases hobj : config.isObj = true
    · rw [if_pos hobj] at h
      injection h with h
      subst h
      have hcwf : config.objWF = true := isObj_objWF config w hwf hobj
      have hlw : (config.insertField w .objNil).lookupField w = some .objNil :=
        lookupField_insertField_self config w _ hcwf
      refine ⟨?_, fun k => ?_⟩
      · simp only [config_wf, hlw]
        rw [insertField_objWF config w _ hcwf]
        simp [Json.objWF]
      · have hg' : config.lookupField w = none := hg
        simp [wrapper_get, hlw, Json.lookupField, hg']
    · rw [if_neg hobj] at h
      by_cases hnc : config = .null
      · rw [if_pos hnc] at h
        injection h with h
        subst hnc
        subst h
        refine ⟨by simp [config_wf, Json.objWF, Json.lookupField, Json.isObj],
          fun k => ?_⟩
        simp [wrapper_get, Json.lookupField]
      · rw [if_neg hnc] at h
        cases h

theorem insert_entries_spec (entries : List (String × Json)) (config out : Json)
    (w : String) (hwf : config_wf config w = true)
    (h : insert_entries config w entries = some out) :
    config_wf out w = true ∧
    ∀ k, wrapper_get out w k =
      (match last_value entries k with
       | some r => some r
       | none => wrapper_get config w k) := by
  induction entries generalizing config with
  | nil =>
    simp only [insert_entries] at h
    injection h with h
    subst h
    exact ⟨hwf, fun k => by simp [last_value]⟩
  | cons e rest ih =>
    obtain ⟨n, v⟩ := e
    rw [insert_entries] at h
    cases hs : json_set2 config w n v with
    | none => rw [hs] at h; cases h
    | some c' =>
      rw [hs] at h
      obtain ⟨hwf', hself, hother⟩ := json_set2_spec config w n v c' hwf hs
      obtain ⟨hwfout, hform⟩ := ih c' hwf' h
      refine ⟨hwfout, fun k => ?_⟩
      rw [hform k]
      simp only [last_value]
      cases hlv : last_value rest k with
      | some r => rfl
      | none =>
        by_cases hk : n = k
        · subst hk
          rw [if_pos rfl, hself]
        · rw [if_neg hk, hother k (fun hh => hk hh.symm)]

/-! ## Claim C7: keyed-JSON merge is last-file-wins -/

/-- C7: in apply_json_merge, the value stored under the wrapper key at
a generated key k is the parsed content of the last input file whose
generated key is k; files earlier in the list with the same key are
overwritten, and keys no file generates keep the existing
configuration's value. -/
theorem apply_json_merge_last_wins (files : List JsonPresetFile)
    (sectionName w : String) (existing : Option Json) (default_json : Json)
    (out : Json)
    (hwf : config_wf (existing.getD default_json) w = true)
    (hbuild : build_json_merge files sectionName existing default_json w
      = some out) :
    ∀ k, wrapper_get out w k =
      (match last_value (files.map fun f =>
          (json_entry_name sectionName f.relative_path, f.content)) k with
       | some r => some r
       | none => wrapper_get (existing.getD default_json) w k) := by
  rw [build_json_merge] at hbuild
  cases he : ensure_key (existing.getD default_json) w with
  | none => rw [he] at hbuild; cases hbuild
  | some c =>
    rw [he] at hbuild
    obtain ⟨hcwf, hsame⟩ := ensure_key_spec _ w c hwf he
    obtain ⟨_, hform⟩ := insert_entries_spec _ c out w hcwf hbuild
    intro k
    rw [hform k]
    cases last_value (files.map fun f =>
        (json_entry_name sectionName f.relative_path, f.content)) k with
    | some r => rfl
    | none => exact hsame k

theorem apply_json_merge_last_wins_witness :
    config_wf .objNil "mcpServers" = true ∧
    build_json_merge
        [JsonPresetFile.mk "mcp/a.json" (.num 1),
         JsonPresetFile.mk "mcp\\a.json" (.num 2)]
        "mcp" none .objNil "mcpServers"
      = some (.objCons "mcpServers" (.objCons "a" (.num 2) .objNil) .objNil) ∧
    wrapper_get (.objCons "mcpServers" (.objCons "a" (.num 2) .objNil) .objNil)
        "mcpServers" "a"
      = some (.num 2) := by
  refine ⟨by decide, by decide, ?_⟩
  have h := apply_json_merge_last_wins
    [JsonPresetFile.mk "mcp/a.json" (.num 1),
     JsonPresetFile.mk "mcp\\a.json" (.num 2)]
    "mcp" "mcpServers" none .objNil
    (.objCons "mcpServers" (.objCons "a" (.num 2) .objNil) .objNil)
    (by decide) (by decide) "a"
  rw [h]
  decide

/-! ## Claim C6: the conflict-mode decision of pull_preset -/

/-- C6 counterexample: with the skip flag set and a scan with no
conflicting change, the run proceeds with Skip, not Force: the flag
checks come before the no-conflict shortcut, so the first half of the
claim fails as stated. -/
theorem determine_conflict_mode_skip_flag_counterexample :
    conflicts_of [] = [] ∧
    determine_conflict_mode false true [] [] = some (.skip, []) ∧
    ConflictMode.skip ≠ ConflictMode.force :=
  ⟨rfl, rfl, by decide⟩

/-- C6 amended: when neither unconditional flag is given and the scan
produced no conflicting change, the apply phase proceeds with Force
without consuming any input; and in every invocation the whole-run
prompt reads at most one line, whose outcome is the single mode handed
to the apply phase. -/
theorem determine_conflict_mode_spec (force skip : Bool)
    (changes : List PendingChange) (stdin : Stdin) :
    (force = false → skip = false → conflicts_of changes = [] →
      determine_conflict_mode force skip changes stdin = some (.force, stdin)) ∧
    ∀ m s', determine_conflict_mode force skip changes stdin = some (m, s') →
      s' = stdin ∨ s' = stdin.drop 1 := by
  constructor
  · intro hf hs hc
    simp [determine_conflict_mode, hf, hs, hc]
  · intro m s' h
    cases force with
    | true =>
      simp [determine_conflict_mode] at h
      exact Or.inl (by simp_all)
    | false =>
    cases skip with
    | true =>
      simp [determine_conflict_mode] at h
      exact Or.inl (by simp_all)
    | false =>
    have h' : (if (conflicts_of changes).isEmpty then
          some (ConflictMode.force, stdin)
        else ask_conflict_resolution stdin) = some (m, s') := by
      simpa [determine_conflict_mode] using h
    by_cases hc : (conflicts_of changes).isEmpty = true
    · rw [if_pos hc] at h'
      injection h' with h'
      injection h' with _ h'
      exact Or.inl h'.symm
    · rw [if_neg hc] at h'
      cases stdin with
      | nil => rw [ask_conflict_resolution] at h'; cases h'
      | cons x rest =>
        cases x with
        | none => rw [ask_conflict_resolution] at h'; cases h'
        | some input =>
          right
          rw [ask_conflict_resolution] at h'
          split at h' <;>
            first
            | (injection h' with h'; injection h' with _ h'; simp [h'.symm])
            | cases h'

theorem determine_conflict_mode_spec_witness :
    conflicts_of [] = [] ∧
    determine_conflict_mode false false [] [some "f"] = some (.force, [some "f"]) :=
  ⟨rfl, (determine_conflict_mode_spec false false [] [some "f"]).1 rfl rfl rfl⟩

/-! ## Properties of the content normalizer (claim C8)

The development below characterises normalize_content through the
strings joinNL ms for component lists ms in normal form, and derives
idempotence and invariance under line-ending style and per-line
trailing whitespace. -/

theorem trimEndL_eq_rdropWhile (l : List Char) :
    trimEndL l = l.rdropWhile isWS := rfl

theorem trimEndL_idem (l : List Char) :
    trimEndL (trimEndL l) = trimEndL l := by
  simp [trimEndL_eq_rdropWhile, List.rdropWhile_idempotent]

theorem trimStartL_idem (l : List Char) :
    trimStartL (trimStartL l) = trimStartL l := by
  simp [trimStartL, List.dropWhile_idempotent]

theorem dropWhile_append_model (p : Char → Bool) (a b : List Char) :
    (a ++ b).dropWhile p =
      if a.dropWhile p = [] then b.dropWhile p else a.dropWhile p ++ b := by
  induction a with
  | nil => simp
  | cons c a ih =>
    by_cases hc : p c
    · simpa [List.dropWhile_cons, hc] using ih
    · simp [List.dropWhile_cons, hc]

theorem trimStartL_append (a b : List Char) :
    trimStartL (a ++ b) =
      if trimStartL a = [] then trimStartL b else trimStartL a ++ b :=
  dropWhile_append_model isWS a b

theorem trimEndL_append (a b : List Char) :
    trimEndL (a ++ b) =
      if trimEndL b = [] then trimEndL a else a ++ trimEndL b := by
  simp only [trimEndL]
  rw [List.reverse_append, dropWhile_append_model]
  by_cases hb : b.reverse.dropWhile isWS = []
  · simp [hb]
  · rw [if_neg hb, if_neg (by simpa using hb)]
    simp

theorem TF_nil : TF [] := rfl

theorem TF_trimEndL (l : List Char) : TF (trimEndL l) := trimEndL_idem l

theorem TF_iff_last (l : List Char) :
    TF l ↔ ∀ c, l.getLast? = some c → isWS c = false := by
  rw [TF, trimEndL_eq_rdropWhile, List.rdropWhile_eq_self_iff]
  constructor
  · intro h c hc
    have hl : l ≠ [] := by rintro rfl; simp at hc
    have := h hl
    rw [List.getLast?_eq_getLast l hl] at hc
    injection hc with hc
    subst hc
    simpa using this
  · intro h hl
    have := h (l.getLast hl) (List.getLast?_eq_getLast l hl)
    simp [this]

theorem TF_of_suffix {s l : List Char} (hs : s <:+ l) (h : TF l) : TF s := by
  rw [TF_iff_last] at h ⊢
  intro c hc
  obtain ⟨t, rfl⟩ := hs
  have hsne : s ≠ [] := by rintro rfl; simp at hc
  exact h c (by rw [List.getLast?_append_of_ne_nil _ hsne]; exact hc)

theorem TF_trimStartL {l : List Char} (h : TF l) : TF (trimStartL l) :=
  TF_of_suffix (List.dropWhile_suffix isWS) h

theorem trimStartL_ne_nil {l : List Char} (h : TF l) (hne : l ≠ []) :
    trimStartL l ≠ [] := by
  intro hcon
  have hall : ∀ x ∈ l, isWS x = true := by
    simpa [trimStartL, List.dropWhile_eq_nil_iff] using hcon
  have hlast := (TF_iff_last l).mp h (l.getLast hne) (List.getLast?_eq_getLast l hne)
  have := hall (l.getLast hne) (List.getLast_mem hne)
  rw [hlast] at this
  cases this

theorem trimStartL_head_not_ws (l : List Char) :
    ∀ c, (trimStartL l).head? = some c → isWS c = false := by
  intro c hc
  induction l with
  | nil => simp [trimStartL] at hc
  | cons x xs ih =>
    by_cases hx : isWS x
    · exact ih (by simpa [trimStartL, List.dropWhile_cons, hx] using hc)
    · have : x = c := by
        simpa [trimStartL, List.dropWhile_cons, hx] using hc
      subst this
      simpa using hx

theorem splitNL_ne_nil (l : List Char) : splitNL l ≠ [] := by
  cases l with
  | nil => simp [splitNL]
  | cons c rest =>
    by_cases hc : c = '\n'
    · simp [splitNL, hc]
    · simp only [splitNL, if_neg hc]
      cases splitNL rest <;> simp

theorem joinNL_splitNL (l : List Char) : joinNL (splitNL l) = l := by
  induction l with
  | nil => rfl
  | cons c rest ih =>
    by_cases hc : c = '\n'
    · subst hc
      rw [splitNL]
      simp only [if_pos rfl]
      have hne := splitNL_ne_nil rest
      cases hs : splitNL rest with
      | nil => exact absurd hs hne
      | cons m ms =>
        rw [hs] at ih
        simpa [joinNL] using ih
    · rw [splitNL]
      simp only [if_neg hc]
      have hne := splitNL_ne_nil rest
      cases hs : splitNL rest with
      | nil => exact absurd hs hne
      | cons m ms =>
        rw [hs] at ih
        cases ms with
        | nil => simpa [joinNL] using ih
        | cons m' ms' => simpa [joinNL] using ih

theorem splitNL_no_nl (m : List Char) (hm : '\n' ∉ m) : splitNL m = [m] := by
  revert hm
  induction m with
  | nil => intro _; rfl
  | cons c cs ih =>
    intro hm
    have hc : ¬c = '\n' := fun hh => hm (by rw [hh]; exact List.mem_cons_self _ _)
    have hcs : '\n' ∉ cs := fun hh => hm (List.mem_cons_of_mem c hh)
    rw [splitNL, if_neg hc, ih hcs]

theorem splitNL_append_nl (m rest : List Char) (hm : '\n' ∉ m) :
    splitNL (m ++ '\n' :: rest) = m :: splitNL rest := by
  revert hm
  induction m with
  | nil =>
    intro _
    rw [List.nil_append, splitNL, if_pos rfl]
  | cons c cs ih =>
    intro hm
    have hc : ¬c = '\n' := fun hh => hm (by rw [hh]; exact List.mem_cons_self _ _)
    have hcs : '\n' ∉ cs := fun hh => hm (List.mem_cons_of_mem c hh)
    rw [List.cons_append, splitNL, if_neg hc, ih hcs]

theorem splitNL_joinNL (ms : List (List Char)) (hne : ms ≠ [])
    (h : ∀ m ∈ ms, '\n' ∉ m) : splitNL (joinNL ms) = ms := by
  induction ms with
  | nil => exact absurd rfl hne
  | cons m ms ih =>
    have hm : '\n' ∉ m := h m (by simp)
    cases ms with
    | nil => exact splitNL_no_nl m hm
    | cons m' ms' =>
      have hrest : splitNL (joinNL (m' :: ms')) = m' :: ms' :=
        ih (by simp) (fun x hx => h x (List.mem_cons_of_mem m hx))
      have hjoin : joinNL (m :: m' :: ms') = m ++ '\n' :: joinNL (m' :: ms') := rfl
      rw [hjoin, splitNL_append_nl m _ hm, hrest]

theorem mem_dropTrailEmpty {x : List Char} {ms : List (List Char)}
    (h : x ∈ dropTrailEmpty ms) : x ∈ ms := by
  induction ms with
  | nil => simp [dropTrailEmpty] at h
  | cons m ms ih =>
    rw [dropTrailEmpty] at h
    cases hd : dropTrailEmpty ms with
    | nil =>
      rw [hd] at h
      by_cases hm : m = []
      · simp [hm] at h
      · rw [if_neg hm] at h
        simp at h
        simp [h]
    | cons y ys =>
      rw [hd] at h
      rcases List.mem_cons.mp h with h | h
      · simp [h]
      · exact List.mem_cons_of_mem m (ih (by rw [hd]; exact h))

theorem dropTrailEmpty_getLast {ms : List (List Char)} :
    ∀ lc, (dropTrailEmpty ms).getLast? = some lc → lc ≠ [] := by
  induction ms with
  | nil => intro lc h; simp [dropTrailEmpty] at h
  | cons m ms ih =>
    intro lc h
    rw [dropTrailEmpty] at h
    cases hd : dropTrailEmpty ms with
    | nil =>
      rw [hd] at h
      by_cases hm : m = []
      · simp [hm] at h
      · rw [if_neg hm] at h
        simp at h
        subst h
        exact hm
    | cons y ys =>
      rw [hd] at h
      rw [List.getLast?_cons_cons] at h
      exact ih lc (hd ▸ h)

theorem dropTrailEmpty_noop {ms : List (List Char)}
    (h : ∀ lc, ms.getLast? = some lc → lc ≠ []) : dropTrailEmpty ms = ms := by
  induction ms with
  | nil => rfl
  | cons m ms ih =>
    rw [dropTrailEmpty]
    cases ms with
    | nil =>
      have hm : m ≠ [] := h m (by simp)
      simp [dropTrailEmpty, hm]
    | cons y ys =>
      have hys : dropTrailEmpty (y :: ys) = y :: ys :=
        ih (fun lc hlc => h lc (by rwa [List.getLast?_cons_cons]))
      rw [hys]

theorem joinNL_dropTrailEmpty_nil {ms : List (List Char)}
    (h : joinNL (dropTrailEmpty ms) = []) : dropTrailEmpty ms = [] := by
  cases hd : dropTrailEmpty ms with
  | nil => rfl
  | cons x xs =>
    rw [hd] at h
    cases xs with
    | nil =>
      simp only [joinNL] at h
      exact absurd h (@dropTrailEmpty_getLast ms x (by simp [hd]))
    | cons y ys =>
      simp only [joinNL] at h
      exact absurd h (by simp)

theorem isWS_nl : isWS '\n' = true := by decide

theorem trimEndL_cons_nl (l : List Char) :
    trimEndL ('\n' :: l) = if trimEndL l = [] then [] else '\n' :: trimEndL l := by
  have h := trimEndL_append ['\n'] l
  simp only [List.singleton_append] at h
  rw [h]
  by_cases hl : trimEndL l = []
  · simp [hl]
    decide
  · simp [hl]

theorem trimEndL_joinNL (ms : List (List Char)) (h : ∀ m ∈ ms, TF m) :
    trimEndL (joinNL ms) = joinNL (dropTrailEmpty ms) := by
  induction ms with
  | nil => rfl
  | cons m ms ih =>
    have hm : TF m := h m (by simp)
    cases ms with
    | nil =>
      simp only [joinNL, dropTrailEmpty]
      by_cases hmn : m = []
      · subst hmn
        rw [if_pos rfl]
        exact TF_nil
      · rw [if_neg hmn]
        exact hm
    | cons m' ms' =>
      have hih := ih (fun x hx => h x (List.mem_cons_of_mem m hx))
      have hjoin : joinNL (m :: m' :: ms') = m ++ '\n' :: joinNL (m' :: ms') := rfl
      rw [hjoin, trimEndL_append, trimEndL_cons_nl, hih]
      by_cases hz : joinNL (dropTrailEmpty (m' :: ms')) = []
      · have hnil : dropTrailEmpty (m' :: ms') = [] := joinNL_dropTrailEmpty_nil hz
        rw [hz]
        simp only [if_pos rfl]
        rw [dropTrailEmpty, hnil]
        show trimEndL m = joinNL (if m = [] then [] else [m])
        by_cases hmn : m = []
        · subst hmn
          rw [if_pos rfl]
          exact TF_nil
        · rw [if_neg hmn]
          exact hm
      · have hnil : dropTrailEmpty (m' :: ms') ≠ [] := by
          intro hcon
          exact hz (by rw [hcon]; rfl)
        rw [if_neg hz,
          if_neg (show ¬('\n' :: joinNL (dropTrailEmpty (m' :: ms')) = []) by simp)]
        cases hd : dropTrailEmpty (m' :: ms') with
        | nil => exact absurd hd hnil
        | cons y ys =>
          rw [dropTrailEmpty, hd]
          show m ++ '\n' :: joinNL (y :: ys) = joinNL (m :: y :: ys)
          cases ys <;> rfl

theorem trimStartL_cons_nl (l : List Char) :
    trimStartL ('\n' :: l) = trimStartL l := by
  simp [trimStartL, List.dropWhile_cons, isWS_nl]

theorem trimStartL_joinNL (ms : List (List Char)) (h : ∀ m ∈ ms, TF m) :
    trimStartL (joinNL ms) = joinNL (trimHeadComps ms) := by
  induction ms with
  | nil => rfl
  | cons m ms ih =>
    have hm : TF m := h m (by simp)
    have hih := ih (fun x hx => h x (List.mem_cons_of_mem m hx))
    by_cases hmn : m = []
    · subst hmn
      rw [trimHeadComps, if_pos rfl]
      cases ms with
      | nil => rfl
      | cons m' ms' =>
        have : joinNL ([] :: m' :: ms') = '\n' :: joinNL (m' :: ms') := rfl
        rw [this, trimStartL_cons_nl, hih]
    · rw [trimHeadComps, if_neg hmn]
      cases ms with
      | nil => rfl
      | cons m' ms' =>
        have hj : joinNL (m :: m' :: ms') = m ++ '\n' :: joinNL (m' :: ms') := rfl
        have hj2 : joinNL (trimStartL m :: m' :: ms')
            = trimStartL m ++ '\n' :: joinNL (m' :: ms') := rfl
        rw [hj, hj2, trimStartL_append, if_neg (trimStartL_ne_nil hm hmn)]

theorem splitNL_mem_no_nl (l : List Char) : ∀ m ∈ splitNL l, '\n' ∉ m := by
  induction l with
  | nil =>
    intro m hm
    simp [splitNL] at hm
    simp [hm]
  | cons c rest ih =>
    intro m hm
    by_cases hc : c = '\n'
    · rw [splitNL, if_pos hc] at hm
      rcases List.mem_cons.mp hm with h | h
      · simp [h]
      · exact ih m h
    · rw [splitNL, if_neg hc] at hm
      cases hs : splitNL rest with
      | nil => exact absurd hs (splitNL_ne_nil rest)
      | cons h t =>
        rw [hs] at hm
        rcases List.mem_cons.mp hm with hmm | hmm
        · subst hmm
          intro hin
          rcases List.mem_cons.mp hin with hin | hin
          · exact hc hin.symm
          · exact ih h (by rw [hs]; simp) hin
        · exact ih m (by rw [hs]; exact List.mem_cons_of_mem h hmm)

theorem stripCR_sublist (l : List Char) : List.Sublist (stripCR l) l := by
  rw [stripCR]
  by_cases h : l.getLast? = some '\r'
  · rw [if_pos h]
    exact List.dropLast_sublist l
  · rw [if_neg h]

theorem stripCR_TF {l : List Char} (h : TF l) : stripCR l = l := by
  rw [stripCR]
  by_cases h' : l.getLast? = some '\r'
  · have := (TF_iff_last l).mp h '\r' h'
    have hws : isWS '\r' = true := by decide
    rw [hws] at this
    cases this
  · rw [if_neg h']

theorem mem_mapButLast {f : List Char → List Char} {x : List Char}
    {ms : List (List Char)} (h : x ∈ mapButLast f ms) :
    x ∈ ms ∨ ∃ y ∈ ms, x = f y := by
  induction ms with
  | nil => simp [mapButLast] at h
  | cons m ms ih =>
    cases ms with
    | nil =>
      simp [mapButLast] at h
      exact Or.inl (by simp [h])
    | cons m' ms' =>
      have h' : x ∈ f m :: mapButLast f (m' :: ms') := h
      rcases List.mem_cons.mp h' with h2 | h2
      · exact Or.inr ⟨m, by simp, h2⟩
      · rcases ih h2 with h3 | ⟨y, hy, hxy⟩
        · exact Or.inl (List.mem_cons_of_mem m h3)
        · exact Or.inr ⟨y, List.mem_cons_of_mem m hy, hxy⟩

theorem mem_dropLastEmpty {x : List Char} {ms : List (List Char)}
    (h : x ∈ dropLastEmpty ms) : x ∈ ms := by
  rw [dropLastEmpty] at h
  by_cases hc : ms.getLast? = some []
  · rw [if_pos hc] at h
    exact (List.dropLast_sublist ms).subset h
  · rwa [if_neg hc] at h

theorem rustLines_no_nl (l : List Char) : ∀ m ∈ rustLines l, '\n' ∉ m := by
  intro m hm
  have h1 : m ∈ mapButLast stripCR (splitNL l) := mem_dropLastEmpty hm
  rcases mem_mapButLast h1 with h | ⟨y, hy, rfl⟩
  · exact splitNL_mem_no_nl l m h
  · intro hin
    exact splitNL_mem_no_nl l y hy ((stripCR_sublist y).subset hin)

theorem mapButLast_TF_noop {ms : List (List Char)} (h : ∀ m ∈ ms, TF m) :
    mapButLast stripCR ms = ms := by
  induction ms with
  | nil => rfl
  | cons m ms ih =>
    cases ms with
    | nil => rfl
    | cons m' ms' =>
      show stripCR m :: mapButLast stripCR (m' :: ms') = m :: m' :: ms'
      rw [stripCR_TF (h m (by simp)),
        ih (fun x hx => h x (List.mem_cons_of_mem m hx))]

theorem map_TF_noop {ms : List (List Char)} (h : ∀ m ∈ ms, TF m) :
    ms.map trimEndL = ms := by
  induction ms with
  | nil => rfl
  | cons m ms ih =>
    rw [List.map_cons, h m (by simp), ih (fun x hx => h x (List.mem_cons_of_mem m hx))]

theorem mem_trimHeadComps {x : List Char} {ms : List (List Char)}
    (h : x ∈ trimHeadComps ms) : x ∈ ms ∨ ∃ y ∈ ms, x = trimStartL y := by
  induction ms with
  | nil => simp [trimHeadComps] at h
  | cons m ms ih =>
    rw [trimHeadComps] at h
    by_cases hm : m = []
    · rw [if_pos hm] at h
      rcases ih h with h | ⟨y, hy, hxy⟩
      · exact Or.inl (List.mem_cons_of_mem m h)
      · exact Or.inr ⟨y, List.mem_cons_of_mem m hy, hxy⟩
    · rw [if_neg hm] at h
      rcases List.mem_cons.mp h with h | h
      · exact Or.inr ⟨m, by simp, h⟩
      · exact Or.inl (List.mem_cons_of_mem m h)

theorem trimHeadComps_head {ms : List (List Char)} :
    ∀ h, (trimHeadComps ms).head? = some h → ∃ y ∈ ms, y ≠ [] ∧ h = trimStartL y := by
  induction ms with
  | nil => intro h hh; simp [trimHeadComps] at hh
  | cons m ms ih =>
    intro h hh
    rw [trimHeadComps] at hh
    by_cases hm : m = []
    · rw [if_pos hm] at hh
      obtain ⟨y, hy, hy2, hy3⟩ := ih h hh
      exact ⟨y, List.mem_cons_of_mem m hy, hy2, hy3⟩
    · rw [if_neg hm] at hh
      simp only [List.head?_cons, Option.some.injEq] at hh
      exact ⟨m, by simp, hm, hh.symm⟩

theorem trimHeadComps_getLast {ms : List (List Char)}
    (hTF : ∀ m ∈ ms, TF m)
    (hlast : ∀ lc, ms.getLast? = some lc → lc ≠ []) :
    ∀ lc, (trimHeadComps ms).getLast? = some lc → lc ≠ [] := by
  induction ms with
  | nil => intro lc h; simp [trimHeadComps] at h
  | cons m ms ih =>
    intro lc h
    rw [trimHeadComps] at h
    by_cases hm : m = []
    · rw [if_pos hm] at h
      cases ms with
      | nil => simp [trimHeadComps] at h
      | cons y ys =>
        exact ih (fun x hx => hTF x (List.mem_cons_of_mem m hx))
          (fun x hx => hlast x (by rwa [List.getLast?_cons_cons])) lc h
    · rw [if_neg hm] at h
      cases ms with
      | nil =>
        simp only [List.getLast?_singleton, Option.some.injEq] at h
        subst h
        exact trimStartL_ne_nil (hTF m (by simp)) hm
      | cons y ys =>
        rw [List.getLast?_cons_cons] at h
        exact hlast lc (by rwa [List.getLast?_cons_cons])

/-- A string in normal form is a fixed point of the normalizer. -/
theorem normalizeL_joinNL_NF (ms : List (List Char)) (h : NF ms) :
    normalizeL (joinNL ms) = joinNL ms := by
  obtain ⟨hcomp, hhead, hlast⟩ := h
  cases ms with
  | nil => rfl
  | cons m rest =>
    have hsplit : splitNL (joinNL (m :: rest)) = m :: rest :=
      splitNL_joinNL _ (by simp) (fun x hx => (hcomp x hx).1)
    have hTF : ∀ x ∈ m :: rest, TF x := fun x hx => (hcomp x hx).2
    have hmbl : mapButLast stripCR (m :: rest) = m :: rest := mapButLast_TF_noop hTF
    have hdle : dropLastEmpty (m :: rest) = m :: rest := by
      rw [dropLastEmpty, if_neg]
      intro hcon
      exact (hlast [] hcon) rfl
    have hmap : (m :: rest).map trimEndL = m :: rest := map_TF_noop hTF
    show trimL (joinNL ((rustLines (joinNL (m :: rest))).map trimEndL))
      = joinNL (m :: rest)
    rw [rustLines, hsplit, hmbl, hdle, hmap]
    show trimStartL (trimEndL (joinNL (m :: rest))) = joinNL (m :: rest)
    rw [trimEndL_joinNL _ hTF, dropTrailEmpty_noop hlast, trimStartL_joinNL _ hTF]
    obtain ⟨hm1, hm2⟩ := hhead m rfl
    rw [trimHeadComps, if_neg hm1, hm2]

/-- The normalizer always produces a string in normal form. -/
theorem normalizeL_NF (l : List Char) :
    ∃ ms, NF ms ∧ normalizeL l = joinNL ms := by
  have hTF0 : ∀ m ∈ (rustLines l).map trimEndL, TF m := by
    intro m hm
    obtain ⟨y, _, rfl⟩ := List.mem_map.mp hm
    exact TF_trimEndL y
  have hnl0 : ∀ m ∈ (rustLines l).map trimEndL, '\n' ∉ m := by
    intro m hm hin
    obtain ⟨y, hy, rfl⟩ := List.mem_map.mp hm
    exact rustLines_no_nl l y hy
      (((List.rdropWhile_prefix isWS y).sublist).subset hin)
  have hTF1 : ∀ m ∈ dropTrailEmpty ((rustLines l).map trimEndL), TF m :=
    fun m hm => hTF0 m (mem_dropTrailEmpty hm)
  have hnl1 : ∀ m ∈ dropTrailEmpty ((rustLines l).map trimEndL), '\n' ∉ m :=
    fun m hm => hnl0 m (mem_dropTrailEmpty hm)
  have hlast1 : ∀ lc, (dropTrailEmpty ((rustLines l).map trimEndL)).getLast? = some lc
      → lc ≠ [] := fun lc h => dropTrailEmpty_getLast lc h
  refine ⟨trimHeadComps (dropTrailEmpty ((rustLines l).map trimEndL)),
    ⟨?_, ?_, ?_⟩, ?_⟩
  · intro m hm
    rcases mem_trimHeadComps hm with h | ⟨y, hy, rfl⟩
    · exact ⟨hnl1 m h, hTF1 m h⟩
    · constructor
      · intro hin
        exact hnl1 y hy ((List.dropWhile_suffix isWS).sublist.subset hin)
      · exact TF_trimStartL (hTF1 y hy)
  · intro h hh
    obtain ⟨y, hy, hyne, rfl⟩ := trimHeadComps_head h hh
    exact ⟨trimStartL_ne_nil (hTF1 y hy) hyne, trimStartL_idem y⟩
  · exact trimHeadComps_getLast hTF1 hlast1
  · show trimL (joinNL ((rustLines l).map trimEndL)) = _
    show trimStartL (trimEndL (joinNL ((rustLines l).map trimEndL))) = _
    rw [trimEndL_joinNL _ hTF0, trimStartL_joinNL _ hTF1]

/-- Idempotence of the normalizer at the character-list level. -/
theorem normalizeL_idem (l : List Char) :
    normalizeL (normalizeL l) = normalizeL l := by
  obtain ⟨ms, hNF, heq⟩ := normalizeL_NF l
  rw [heq, normalizeL_joinNL_NF ms hNF]

theorem splitNL_expandCRLF (l : List Char) :
    splitNL (expandCRLF l) = addCR (splitNL l) := by
  induction l with
  | nil => rfl
  | cons c rest ih =>
    by_cases hc : c = '\n'
    · subst hc
      show splitNL ('\r' :: '\n' :: expandCRLF rest) = addCR ([] :: splitNL rest)
      cases hs : splitNL rest with
      | nil => exact absurd hs (splitNL_ne_nil rest)
      | cons h t =>
        rw [splitNL, if_neg (by decide), splitNL, if_pos rfl, ih, hs]
        rfl
    · rw [expandCRLF, if_neg hc]
      cases hs : splitNL rest with
      | nil => exact absurd hs (splitNL_ne_nil rest)
      | cons h' t' =>
        rw [splitNL, if_neg hc, splitNL, if_neg hc, ih, hs]
        cases t' with
        | nil => rfl
        | cons y ys => rfl

theorem stripCR_concat_cr (x : List Char) : stripCR (x ++ ['\r']) = x := by
  rw [stripCR, if_pos (by simp), List.dropLast_concat]

theorem trimEndL_stripCR (x : List Char) : trimEndL (stripCR x) = trimEndL x := by
  rw [stripCR]
  by_cases h : x.getLast? = some '\r'
  · rw [if_pos h]
    have hxne : x ≠ [] := by rintro rfl; simp at h
    have hx : x.dropLast ++ [x.getLast hxne] = x := List.dropLast_append_getLast hxne
    have hlast : x.getLast hxne = '\r' := by
      have := List.getLast?_eq_getLast x hxne
      rw [h] at this
      injection this with this
      exact this.symm
    rw [hlast] at hx
    conv_rhs => rw [← hx]
    rw [trimEndL_append, if_pos (by decide)]
  · rw [if_neg h]

theorem map_trimEndL_mapButLast (xs : List (List Char)) :
    (mapButLast stripCR xs).map trimEndL = xs.map trimEndL := by
  induction xs with
  | nil => rfl
  | cons x xs ih =>
    cases xs with
    | nil => rfl
    | cons y ys =>
      show trimEndL (stripCR x) :: (mapButLast stripCR (y :: ys)).map trimEndL
        = trimEndL x :: (y :: ys).map trimEndL
      rw [trimEndL_stripCR, ih]

theorem mapButLast_getLast? (f : List Char → List Char) (xs : List (List Char)) :
    (mapButLast f xs).getLast? = xs.getLast? := by
  induction xs with
  | nil => rfl
  | cons x xs ih =>
    cases xs with
    | nil => rfl
    | cons y ys =>
      show (f x :: mapButLast f (y :: ys)).getLast? = (x :: y :: ys).getLast?
      cases ys with
      | nil => rfl
      | cons z zs =>
        rw [List.getLast?_cons_cons, List.getLast?_cons_cons]
        show (mapButLast f (y :: z :: zs)).getLast? = _
        exact ih

theorem mapButLast_stripCR_addCR (cs : List (List Char)) :
    mapButLast stripCR (addCR cs) = cs := by
  induction cs with
  | nil => rfl
  | cons x xs ih =>
    cases xs with
    | nil => rfl
    | cons y ys =>
      show mapButLast stripCR ((x ++ ['\r']) :: addCR (y :: ys)) = x :: y :: ys
      cases ys with
      | nil =>
        show [stripCR (x ++ ['\r']), y] = [x, y]
        rw [stripCR_concat_cr]
      | cons z zs =>
        show stripCR (x ++ ['\r']) :: mapButLast stripCR (addCR (y :: z :: zs))
          = x :: y :: z :: zs
        rw [stripCR_concat_cr, ih]

theorem dropLast_mapButLast (f : List Char → List Char) (xs : List (List Char)) :
    (mapButLast f xs).dropLast = (xs.dropLast).map f := by
  induction xs with
  | nil => rfl
  | cons x xs ih =>
    cases xs with
    | nil => rfl
    | cons y ys =>
      show (f x :: mapButLast f (y :: ys)).dropLast = (x :: (y :: ys).dropLast).map f
      cases ys with
      | nil => rfl
      | cons z zs =>
        show f x :: (mapButLast f (y :: z :: zs)).dropLast
          = f x :: ((y :: z :: zs).dropLast).map f
        rw [ih]

theorem rustLines_expandCRLF_map (l : List Char) :
    (rustLines (expandCRLF l)).map trimEndL = (rustLines l).map trimEndL := by
  rw [rustLines, rustLines, splitNL_expandCRLF, mapButLast_stripCR_addCR]
  rw [dropLastEmpty, dropLastEmpty, mapButLast_getLast? stripCR (splitNL l)]
  by_cases hc : (splitNL l).getLast? = some []
  · rw [if_pos hc, if_pos hc, dropLast_mapButLast]
    rw [List.map_map]
    refine List.map_congr_left ?_
    intro x _
    exact (trimEndL_stripCR x).symm
  · rw [if_neg hc, if_neg hc, map_trimEndL_mapButLast]

/-! ## Claim C8: the normalizer is idempotent and identifies
line-ending and trailing-whitespace variants -/

/-- C8: normalize_content is idempotent; rewriting every line ending in
carriage-return line-feed style does not change the normalized result;
two strings whose right-trimmed line lists coincide normalize equally;
and the two concrete equivalences of the claim hold. -/
theorem normalize_content_idem_and_equiv :
    (∀ s : String, normalize_content (normalize_content s) = normalize_content s) ∧
    (∀ l : List Char, normalizeL (expandCRLF l) = normalizeL l) ∧
    (∀ s t : String,
      (rustLines s.data).map trimEndL = (rustLines t.data).map trimEndL →
      normalize_content s = normalize_content t) ∧
    normalize_content "a \nb\n" = normalize_content "a\nb" ∧
    normalize_content "a\r\nb" = normalize_content "a\nb" := by
  refine ⟨?_, ?_, ?_, by decide, by decide⟩
  · intro s
    show String.mk (normalizeL (String.mk (normalizeL s.data)).data)
      = String.mk (normalizeL s.data)
    rw [show (String.mk (normalizeL s.data)).data = normalizeL s.data from rfl,
      normalizeL_idem]
  · intro l
    rw [normalizeL, normalizeL, rustLines_expandCRLF_map]
  · intro s t h
    rw [normalize_content, normalize_content, normalizeL, normalizeL, h]

theorem normalize_content_idem_and_equiv_witness :
    (rustLines ("x \ny" : String).data).map trimEndL
      = (rustLines ("x\ny" : String).data).map trimEndL ∧
    normalize_content "x \ny" = normalize_content "x\ny" :=
  ⟨by decide, normalize_content_idem_and_equiv.2.2.1 "x \ny" "x\ny" (by decide)⟩

/-! ## Dispatch lemmas for write_with_conflict and write_st -/

theorem write_st_none {st : ApplyState} {t : String} {c : FileContent}
    {d : String} (hl : st.fs.lookup t = none) :
    write_st st t c d
      = ⟨fs_write st.fs t c, st.result.add_created d, st.mode, st.stdin⟩ := by
  rw [write_st, write_with_conflict]
  simp only [hl]

theorem write_st_same {st : ApplyState} {t : String} {c e : FileContent}
    {d : String} (hl : st.fs.lookup t = some e)
    (he : norm_fc e = norm_fc c) :
    write_st st t c d = ⟨st.fs, st.result.add_unchanged d, st.mode, st.stdin⟩ := by
  rw [write_st, write_with_conflict]
  simp only [hl]
  rw [if_pos he]

theorem write_st_write {st : ApplyState} {t : String} {c e : FileContent}
    {d : String} {mode' : ConflictMode} {stdin' : Stdin}
    (hl : st.fs.lookup t = some e) (he : ¬norm_fc e = norm_fc c)
    (hres : resolve_conflict st.mode d (some e.diffText) (some c.diffText) st.stdin
      = (true, mode', stdin')) :
    write_st st t c d
      = ⟨fs_write st.fs t c, st.result.add_updated d, mode', stdin'⟩ := by
  rw [write_st, write_with_conflict]
  simp only [hl]
  rw [if_neg he]
  simp only [hres]

theorem write_st_skipped {st : ApplyState} {t : String} {c e : FileContent}
    {d : String} {mode' : ConflictMode} {stdin' : Stdin}
    (hl : st.fs.lookup t = some e) (he : ¬norm_fc e = norm_fc c)
    (hres : resolve_conflict st.mode d (some e.diffText) (some c.diffText) st.stdin
      = (false, mode', stdin')) :
    write_st st t c d = ⟨st.fs, st.result.add_skipped d, mode', stdin'⟩ := by
  rw [write_st, write_with_conflict]
  simp only [hl]
  rw [if_neg he]
  simp only [hres]

/-! ## Claim C3: threading of the mutated conflict mode -/

theorem write_st_frozen (st : ApplyState) (t : String) (c : FileContent)
    (d : String) (h : st.mode = .force ∨ st.mode = .skip) :
    (write_st st t c d).mode = st.mode ∧ (write_st st t c d).stdin = st.stdin := by
  cases hl : st.fs.lookup t with
  | none => rw [write_st_none hl]; exact ⟨rfl, rfl⟩
  | some existing =>
    by_cases he : norm_fc existing = norm_fc c
    · rw [write_st_same hl he]
      exact ⟨rfl, rfl⟩
    · rcases h with h | h
      · rw [write_st_write hl he (by rw [h]; rfl)]
        exact ⟨h.symm, rfl⟩
      · rw [write_st_skipped hl he (by rw [h]; rfl)]
        exact ⟨h.symm, rfl⟩

theorem apply_section_files_frozen (sp dir : String) (files : List PresetFile)
    (st : ApplyState) (h : st.mode = .force ∨ st.mode = .skip) :
    (apply_section_files sp dir files st).mode = st.mode ∧
    (apply_section_files sp dir files st).stdin = st.stdin := by
  induction files generalizing st with
  | nil => exact ⟨rfl, rfl⟩
  | cons f files ih =>
    have hstep : apply_section_files sp dir (f :: files) st
        = apply_section_files sp dir files
            (write_st st (dir ++ rust_replace f.relative_path sp "")
              (.text f.content) (dir ++ rust_replace f.relative_path sp "")) := rfl
    rw [hstep]
    obtain ⟨hm, hs⟩ := write_st_frozen st _ _ _ h
    obtain ⟨hm2, hs2⟩ := ih _ (by rw [hm]; exact h)
    exact ⟨hm2.trans hm, hs2.trans hs⟩

theorem apply_memory_frozen (files : List PresetFile) (strategy : MergeStrategy)
    (st st' : ApplyState) (h : st.mode = .force ∨ st.mode = .skip)
    (happ : apply_memory files strategy st = some st') :
    st'.mode = st.mode ∧ st'.stdin = st.stdin := by
  rw [apply_memory] at happ
  by_cases hf : files.isEmpty
  · rw [if_pos hf] at happ
    injection happ with happ
    subst happ
    exact ⟨rfl, rfl⟩
  · rw [if_neg hf] at happ
    cases hl : st.fs.lookup ".claude/CLAUDE.md" with
    | none =>
      rw [hl] at happ
      injection happ with happ
      subst happ
      exact ⟨rfl, rfl⟩
    | some existing =>
      rw [hl] at happ
      cases strategy with
      | concat =>
        cases existing with
        | text e =>
          simp only at happ
          injection happ with happ
          subst happ
          exact ⟨rfl, rfl⟩
        | json v => cases happ
      | replace =>
        simp only at happ
        injection happ with happ
        subst happ
        exact write_st_frozen st _ _ _ h

theorem apply_mcp_frozen (files : List JsonPresetFile) (strategy : MergeStrategy)
    (st st' : ApplyState) (h : st.mode = .force ∨ st.mode = .skip)
    (happ : apply_mcp files strategy st = some st') :
    st'.mode = st.mode ∧ st'.stdin = st.stdin := by
  rw [apply_mcp] at happ
  by_cases hf : files.isEmpty
  · rw [if_pos hf] at happ
    injection happ with happ
    subst happ
    exact ⟨rfl, rfl⟩
  · rw [if_neg hf] at happ
    cases h0 : read_settings st.fs ".claude/settings.local.json" strategy with
    | none => simp only [h0] at happ; cases happ
    | some settings0 =>
      simp only [h0] at happ
      cases h1 : ensure_key settings0 "mcpServers" with
      | none => simp only [h1] at happ; cases happ
      | some s1 =>
        simp only [h1] at happ
        cases h2 : insert_entries s1 "mcpServers" (files.map fun f =>
            (rust_replace (rust_replace f.relative_path "mcp/" "") ".json" "",
             f.content)) with
        | none => simp only [h2] at happ; cases happ
        | some s2 =>
          simp only [h2, Option.some.injEq] at happ
          subst happ
          exact write_st_frozen st _ _ _ h

theorem apply_hooks_frozen (files : List JsonPresetFile) (st : ApplyState)
    (h : st.mode = .force ∨ st.mode = .skip) :
    (apply_hooks files st).mode = st.mode ∧
    (apply_hooks files st).stdin = st.stdin := by
  rw [apply_hooks]
  by_cases hf : files.isEmpty
  · rw [if_pos hf]
    exact ⟨rfl, rfl⟩
  · rw [if_neg hf]
    exact write_st_frozen st _ _ _ h

theorem apply_settings_frozen (files : List JsonPresetFile)
    (strategy : MergeStrategy) (st st' : ApplyState)
    (h : st.mode = .force ∨ st.mode = .skip)
    (happ : apply_settings files strategy st = some st') :
    st'.mode = st.mode ∧ st'.stdin = st.stdin := by
  rw [apply_settings] at happ
  by_cases hf : files.isEmpty
  · rw [if_pos hf] at happ
    injection happ with happ
    subst happ
    exact ⟨rfl, rfl⟩
  · rw [if_neg hf] at happ
    cases h0 : read_settings st.fs ".claude/settings.local.json" strategy with
    | none => rw [h0] at happ; cases happ
    | some settings0 =>
      rw [h0] at happ
      simp only at happ
      injection happ with happ
      subst happ
      exact write_st_frozen st _ _ _ h

/-- C3 amended, first half: inside one adapter invocation the same
(possibly mutated) mode value is threaded through every write, so once
the mode reaching the writes is Force or Skip — as it is immediately
after an overwrite-all or skip-all answer — every later section of
that same adapter uses that decision, consults the user never again
(the input stream is returned untouched), and the mode stays fixed. -/
theorem claude_apply_frozen_mode (p : Preset) (fs : FS) (stdin : Stdin)
    (mode : ConflictMode) (st' : ApplyState)
    (h : mode = .force ∨ mode = .skip)
    (happ : claude_apply p fs mode stdin = some st') :
    st'.mode = mode ∧ st'.stdin = stdin := by
  rw [claude_apply] at happ
  simp only [bind, Option.bind] at happ
  set st0 : ApplyState := ⟨fs, ApplyResult.new, mode, stdin⟩ with hst0
  have h0 : st0.mode = .force ∨ st0.mode = .skip := h
  obtain ⟨hm1, hs1⟩ := apply_section_files_frozen "rules/" ".claude/rules/" p.rules st0 h0
  cases hmem : apply_memory p.memory p.memory_strategy
      (apply_rules p.rules st0) with
  | none => simp only [hmem] at happ; cases happ
  | some stm =>
    simp only [hmem] at happ
    have hrules : (apply_rules p.rules st0).mode = mode ∧
        (apply_rules p.rules st0).stdin = stdin := ⟨hm1, hs1⟩
    obtain ⟨hm2, hs2⟩ := apply_memory_frozen _ _ _ _
      (by rw [hrules.1]; exact h) hmem
    have hmemst : stm.mode = mode ∧ stm.stdin = stdin :=
      ⟨hm2.trans hrules.1, hs2.trans hrules.2⟩
    obtain ⟨hm3, hs3⟩ := apply_section_files_frozen "commands/" ".claude/commands/"
      p.commands stm (by rw [hmemst.1]; exact h)
    have hcmds : (apply_commands p.commands stm).mode = mode ∧
        (apply_commands p.commands stm).stdin = stdin :=
      ⟨hm3.trans hmemst.1, hs3.trans hmemst.2⟩
    cases hmcp : apply_mcp p.mcp p.mcp_strategy (apply_commands p.commands stm) with
    | none => simp only [hmcp] at happ; cases happ
    | some stc =>
      simp only [hmcp] at happ
      obtain ⟨hm4, hs4⟩ := apply_mcp_frozen _ _ _ _
        (by rw [hcmds.1]; exact h) hmcp
      have hmcpst : stc.mode = mode ∧ stc.stdin = stdin :=
        ⟨hm4.trans hcmds.1, hs4.trans hcmds.2⟩
      obtain ⟨hm5, hs5⟩ := apply_hooks_frozen p.hooks stc
        (by rw [hmcpst.1]; exact h)
      have hhooks : (apply_hooks p.hooks stc).mode = mode ∧
          (apply_hooks p.hooks stc).stdin = stdin :=
        ⟨hm5.trans hmcpst.1, hs5.trans hmcpst.2⟩
      obtain ⟨hm6, hs6⟩ := apply_section_files_frozen "agents/" ".claude/agents/"
        p.agents (apply_hooks p.hooks stc) (by rw [hhooks.1]; exact h)
      have hagents : (apply_agents p.agents (apply_hooks p.hooks stc)).mode = mode ∧
          (apply_agents p.agents (apply_hooks p.hooks stc)).stdin = stdin :=
        ⟨hm6.trans hhooks.1, hs6.trans hhooks.2⟩
      obtain ⟨hm7, hs7⟩ := apply_section_files_frozen "skills/" ".claude/skills/"
        p.skills _ (by rw [hagents.1]; exact h)
      have hskills : (apply_skills p.skills
            (apply_agents p.agents (apply_hooks p.hooks stc))).mode = mode ∧
          (apply_skills p.skills
            (apply_agents p.agents (apply_hooks p.hooks stc))).stdin = stdin :=
        ⟨hm7.trans hagents.1, hs7.trans hagents.2⟩
      obtain ⟨hm8, hs8⟩ := apply_settings_frozen _ _ _ _
        (by rw [hskills.1]; exact h) happ
      exact ⟨hm8.trans hskills.1, hs8.trans hskills.2⟩

theorem claude_apply_frozen_mode_witness :
    (ConflictMode.skip = .force ∨ ConflictMode.skip = .skip) ∧
    ∃ st' : ApplyState,
      claude_apply
        { rules := [PresetFile.mk "rules/a.md" "new"], memory := [],
          commands := [], mcp := [], hooks := [], agents := [], skills := [],
          settings := [], root := [], memory_strategy := .concat,
          mcp_strategy := .concat, settings_strategy := .concat }
        [(".claude/rules/a.md", .text "old")] .skip [some "o"] = some st' ∧
      st'.mode = .skip ∧ st'.stdin = [some "o"] := by
  refine ⟨Or.inr rfl, ⟨⟨[(".claude/rules/a.md", .text "old")],
    ApplyResult.new.add_skipped ".claude/rules/a.md", .skip, [some "o"]⟩, ?_, ?_⟩⟩
  · decide
  · exact claude_apply_frozen_mode
      { rules := [PresetFile.mk "rules/a.md" "new"], memory := [],
        commands := [], mcp := [], hooks := [], agents := [], skills := [],
        settings := [], root := [], memory_strategy := .concat,
        mcp_strategy := .concat, settings_strategy := .concat }
      [(".claude/rules/a.md", .text "old")] [some "o"] .skip _
      (Or.inr rfl) (by decide)

/-- C3 counterexample: the run starts in Ask mode; the user answers
skip-all ("S") at the first conflict (the root file).  The claim says
every later write of the run then uses Skip without prompting, so the
rules file of the adapter should be skipped with no further read.
Instead pull_apply hands the adapter the original Ask mode: the second
conflict prompts again, consumes the next answer "o", and overwrites
the file, which is reported under updated. -/
theorem pull_apply_mode_not_threaded_counterexample :
    pull_apply c3_preset c3_fs .ask [some "S", some "o"]
      = some ([("note.md", .text "old-root"),
               (".claude/rules/a.md", .text "new-rule")],
              ⟨[], [], ["note.md"], []⟩,
              ⟨[], [".claude/rules/a.md"], [], []⟩, []) ∧
    ([] : List (Option String)) ≠ [some "o"] ∧
    (⟨[], [".claude/rules/a.md"], [], []⟩ : ApplyResult).skipped = [] := by
  refine ⟨by decide, by decide, rfl⟩

/-! ## Claim C1: existence-level agreement between scan and apply -/

theorem StepSpec.comp {A B : ApplyState → Option ApplyState} {LA LB : List String}
    (hA : StepSpec A LA) (hB : StepSpec B LB) (hd : LA.Disjoint LB) :
    StepSpec (fun st => (A st).bind B) (LA ++ LB) := by
  intro st st' h
  replace h : (A st).bind B = some st' := h
  cases hAs : A st with
  | none => rw [hAs] at h; cases h
  | some st1 =>
    rw [hAs] at h
    have h' : B st1 = some st' := h
    obtain ⟨⟨hc1, ht1⟩, hf1⟩ := hA st st1 hAs
    obtain ⟨⟨hc2, ht2⟩, hf2⟩ := hB st1 st' h'
    have hagree : ∀ q ∈ LB, st1.fs.lookup q = st.fs.lookup q :=
      fun q hq => hf1 q fun hqa => hd hqa hq
    have hmiss : missing_of LB st1.fs = missing_of LB st.fs :=
      List.filter_congr fun q hq => by rw [hagree q hq]
    have hex : existing_of LB st1.fs = existing_of LB st.fs :=
      List.filter_congr fun q hq => by rw [hagree q hq]
    refine ⟨⟨?_, ?_⟩, ?_⟩
    · rw [hc2, hc1, hmiss]
      rw [missing_of, missing_of, missing_of, List.filter_append, List.append_assoc]
    · intro q
      rw [ht2 q, ht1 q, hex]
      rw [existing_of, existing_of, existing_of, List.filter_append]
      simp [List.mem_append, or_assoc]
    · intro q hq
      rw [hf2 q fun hm => hq (List.mem_append_right LA hm),
          hf1 q fun hm => hq (List.mem_append_left LB hm)]

theorem write_st_spec (t : String) (c : FileContent) :
    StepSpec (fun st => some (write_st st t c t)) [t] := by
  intro st st' h
  injection h with h
  subst h
  cases hl : st.fs.lookup t with
  | none =>
    rw [write_st_none hl]
    refine ⟨⟨?_, ?_⟩, ?_⟩
    · simp [ApplyResult.add_created, missing_of, List.filter_cons, hl]
    · intro q
      simp [ApplyResult.touched, ApplyResult.add_created, existing_of,
        List.filter_cons, hl]
    · intro q hq
      exact lookup_fs_write_ne st.fs t q c (by simpa using hq)
  | some e =>
    by_cases he : norm_fc e = norm_fc c
    · rw [write_st_same hl he]
      refine ⟨⟨?_, ?_⟩, ?_⟩
      · simp [missing_of, List.filter_cons, hl, ApplyResult.add_unchanged]
      · intro q
        simp [ApplyResult.touched, ApplyResult.add_unchanged, existing_of,
          List.filter_cons, hl, List.mem_append, or_assoc]
      · exact fun q _ => rfl
    · rcases hres : resolve_conflict st.mode t (some e.diffText) (some c.diffText)
          st.stdin with ⟨b, m', s'⟩
      cases b with
      | false =>
        rw [write_st_skipped hl he hres]
        refine ⟨⟨?_, ?_⟩, ?_⟩
        · simp [missing_of, List.filter_cons, hl, ApplyResult.add_skipped]
        · intro q
          simp only [ApplyResult.touched, ApplyResult.add_skipped, existing_of,
            List.filter_cons, List.filter_nil, hl, Option.isSome_some, if_true,
            List.mem_append, List.mem_cons, List.not_mem_nil, or_false]
          tauto
        · exact fun q _ => rfl
      | true =>
        rw [write_st_write hl he hres]
        refine ⟨⟨?_, ?_⟩, ?_⟩
        · simp [missing_of, List.filter_cons, hl, ApplyResult.add_updated]
        · intro q
          simp only [ApplyResult.touched, ApplyResult.add_updated, existing_of,
            List.filter_cons, List.filter_nil, hl, Option.isSome_some, if_true,
            List.mem_append, List.mem_cons, List.not_mem_nil, or_false]
          tauto
        · intro q hq
          exact lookup_fs_write_ne st.fs t q c (by simpa using hq)

theorem step_write_fold (jobs : List (String × FileContent))
    (hnd : (jobs.map Prod.fst).Nodup) :
    StepSpec
      (fun st => some (jobs.foldl (fun st j => write_st st j.1 j.2 j.1) st))
      (jobs.map Prod.fst) := by
  induction jobs with
  | nil =>
    intro st st' h
    injection h with h
    subst h
    exact ⟨⟨by simp [missing_of], fun q => by simp [existing_of]⟩, fun q _ => rfl⟩
  | cons j jobs ih =>
    rw [List.map_cons, List.nodup_cons] at hnd
    have hd : [j.1].Disjoint (jobs.map Prod.fst) := by
      intro a ha hb
      rw [List.mem_singleton] at ha
      subst ha
      exact hnd.1 hb
    have hcomp := StepSpec.comp (write_st_spec j.1 j.2) (ih hnd.2) hd
    intro st st' h
    exact hcomp st st' h

theorem step_one_to_one (sp dir : String) (files : List PresetFile)
    (hnd : (section_paths sp dir files).Nodup) :
    StepSpec (fun st => some (apply_section_files sp dir files st))
      (section_paths sp dir files) := by
  have hjobs : section_paths sp dir files
      = ((files.map fun f => (dir ++ rust_replace f.relative_path sp "",
          FileContent.text f.content)).map Prod.fst) := by
    rw [List.map_map]; rfl
  have hfold : ∀ st : ApplyState, apply_section_files sp dir files st
      = (files.map fun f => (dir ++ rust_replace f.relative_path sp "",
          FileContent.text f.content)).foldl
            (fun st j => write_st st j.1 j.2 j.1) st := by
    intro st
    rw [List.foldl_map]
    rfl
  rw [hjobs] at hnd ⊢
  intro st st' h
  replace h : some (apply_section_files sp dir files st) = some st' := h
  rw [hfold st] at h
  exact step_write_fold _ hnd st st' h

theorem step_root (files : List PresetFile)
    (hnd : (files.map fun f => f.relative_path).Nodup) :
    StepSpec (fun st => some (files.foldl (fun st f =>
        write_st st f.relative_path (.text f.content) f.relative_path) st))
      (files.map fun f => f.relative_path) := by
  have hjobs : (files.map fun f => f.relative_path)
      = ((files.map fun f => (f.relative_path, FileContent.text f.content)).map
          Prod.fst) := by
    rw [List.map_map]; rfl
  have hfold : ∀ st : ApplyState, files.foldl (fun st f =>
        write_st st f.relative_path (.text f.content) f.relative_path) st
      = (files.map fun f => (f.relative_path, FileContent.text f.content)).foldl
          (fun st j => write_st st j.1 j.2 j.1) st := by
    intro st
    rw [List.foldl_map]
  rw [hjobs] at hnd ⊢
  intro st st' h
  replace h : some (files.foldl (fun st f =>
      write_st st f.relative_path (.text f.content) f.relative_path) st)
    = some st' := h
  rw [hfold st] at h
  exact step_write_fold _ hnd st st' h

theorem step_noop {A : ApplyState → Option ApplyState}
    (h : ∀ st, A st = some st) : StepSpec A [] := by
  intro st st' hA
  rw [h st] at hA
  injection hA with hA
  subst hA
  exact ⟨⟨by simp [missing_of], fun q => by simp [existing_of]⟩, fun q _ => rfl⟩

theorem step_memory (files : List PresetFile) (strategy : MergeStrategy) :
    StepSpec (fun st => apply_memory files strategy st)
      (if files.isEmpty then [] else [".claude/CLAUDE.md"]) := by
  by_cases hf : files.isEmpty
  · rw [if_pos hf]
    exact step_noop fun st => show apply_memory files strategy st = some st by
      rw [apply_memory, if_pos hf]
  · rw [if_neg hf]
    intro st st' h
    replace h : apply_memory files strategy st = some st' := h
    rw [apply_memory, if_neg hf] at h
    cases hl : st.fs.lookup ".claude/CLAUDE.md" with
    | none =>
      simp only [hl] at h
      injection h with h
      subst h
      refine ⟨⟨?_, ?_⟩, ?_⟩
      · simp [ApplyResult.add_created, missing_of, List.filter_cons, hl]
      · intro q
        simp [ApplyResult.touched, ApplyResult.add_created, existing_of,
          List.filter_cons, hl]
      · intro q hq
        exact lookup_fs_write_ne st.fs _ q _ (by simpa using hq)
    | some e =>
      simp only [hl] at h
      cases strategy with
      | replace =>
        simp only at h
        exact write_st_spec _ _ st st' h
      | concat =>
        cases e with
        | json v => simp only at h; cases h
        | text e =>
          simp only at h
          injection h with h
          subst h
          refine ⟨⟨?_, ?_⟩, ?_⟩
          · simp [ApplyResult.add_updated, missing_of, List.filter_cons, hl]
          · intro q
            simp only [ApplyResult.touched, ApplyResult.add_updated, existing_of,
              List.filter_cons, List.filter_nil, hl, Option.isSome_some, if_true,
              List.mem_append, List.mem_cons, List.not_mem_nil, or_false]
            tauto
          · intro q hq
            exact lookup_fs_write_ne st.fs _ q _ (by simpa using hq)

theorem step_mcp (files : List JsonPresetFile) (strategy : MergeStrategy) :
    StepSpec (fun st => apply_mcp files strategy st)
      (if files.isEmpty then [] else [".claude/settings.local.json"]) := by
  by_cases hf : files.isEmpty
  · rw [if_pos hf]
    exact step_noop fun st => show apply_mcp files strategy st = some st by
      rw [apply_mcp, if_pos hf]
  · rw [if_neg hf]
    intro st st' h
    replace h : apply_mcp files strategy st = some st' := h
    rw [apply_mcp, if_neg hf] at h
    cases h0 : read_settings st.fs ".claude/settings.local.json" strategy with
    | none => simp only [h0] at h; cases h
    | some settings0 =>
      simp only [h0] at h
      cases h1 : ensure_key settings0 "mcpServers" with
      | none => simp only [h1] at h; cases h
      | some s1 =>
        simp only [h1] at h
        cases h2 : insert_entries s1 "mcpServers" (files.map fun f =>
            (rust_replace (rust_replace f.relative_path "mcp/" "") ".json" "",
             f.content)) with
        | none => simp only [h2] at h; cases h
        | some s2 =>
          simp only [h2] at h
          exact write_st_spec _ _ st st' h

theorem step_hooks (files : List JsonPresetFile) :
    StepSpec (fun st => some (apply_hooks files st))
      (if files.isEmpty then [] else [".claude/hooks.json"]) := by
  by_cases hf : files.isEmpty
  · rw [if_pos hf]
    exact step_noop fun st => show some (apply_hooks files st) = some st by
      rw [apply_hooks, if_pos hf]
  · rw [if_neg hf]
    intro st st' h
    replace h : some (apply_hooks files st) = some st' := h
    rw [apply_hooks, if_neg hf] at h
    replace h : some (write_st st ".claude/hooks.json"
        (.json (build_hooks files)) ".claude/hooks.json") = some st' := h
    exact write_st_spec _ _ st st' h

theorem step_settings (files : List JsonPresetFile) (strategy : MergeStrategy) :
    StepSpec (fun st => apply_settings files strategy st)
      (if files.isEmpty then [] else [".claude/settings.local.json"]) := by
  by_cases hf : files.isEmpty
  · rw [if_pos hf]
    exact step_noop fun st => show apply_settings files strategy st = some st by
      rw [apply_settings, if_pos hf]
  · rw [if_neg hf]
    intro st st' h
    replace h : apply_settings files strategy st = some st' := h
    rw [apply_settings, if_neg hf] at h
    cases h0 : read_settings st.fs ".claude/settings.local.json" strategy with
    | none => simp only [h0] at h; cases h
    | some settings0 =>
      simp only [h0] at h
      exact write_st_spec _ _ st st' h

theorem claude_apply_existence (p : Preset) (fs : FS) (mode : ConflictMode)
    (stdin : Stdin) (st' : ApplyState)
    (hnd : (claude_paths p).Nodup)
    (happ : claude_apply p fs mode stdin = some st') :
    st'.result.created = missing_of (claude_paths p) fs ∧
    (∀ q, q ∈ st'.result.touched ↔ q ∈ existing_of (claude_paths p) fs) ∧
    ∀ q, q ∉ claude_paths p → st'.fs.lookup q = fs.lookup q := by
  rw [claude_paths] at hnd
  rw [List.nodup_append] at hnd
  obtain ⟨hnd1, hnd, hdisj1⟩ := hnd
  rw [List.nodup_append] at hnd
  obtain ⟨hnd2, hnd, hdisj2⟩ := hnd
  rw [List.nodup_append] at hnd
  obtain ⟨hnd3, hnd, hdisj3⟩ := hnd
  rw [List.nodup_append] at hnd
  obtain ⟨hnd4, hnd, hdisj4⟩ := hnd
  rw [List.nodup_append] at hnd
  obtain ⟨hnd5, hnd, hdisj5⟩ := hnd
  rw [List.nodup_append] at hnd
  obtain ⟨hnd6, hnd, hdisj6⟩ := hnd
  rw [List.nodup_append] at hnd
  obtain ⟨hnd7, hnd8, hdisj7⟩ := hnd
  have call := StepSpec.comp (step_one_to_one "rules/" ".claude/rules/" p.rules hnd1)
    (StepSpec.comp (step_memory p.memory p.memory_strategy)
      (StepSpec.comp (step_one_to_one "commands/" ".claude/commands/" p.commands hnd3)
        (StepSpec.comp (step_mcp p.mcp p.mcp_strategy)
          (StepSpec.comp (step_hooks p.hooks)
            (StepSpec.comp (step_one_to_one "agents/" ".claude/agents/" p.agents hnd6)
              (StepSpec.comp (step_one_to_one "skills/" ".claude/skills/" p.skills hnd7)
                (step_settings p.settings p.settings_strategy) hdisj7)
              hdisj6)
            hdisj5)
          hdisj4)
        hdisj3)
      hdisj2)
    hdisj1
  obtain ⟨⟨hc, ht⟩, hf⟩ := call ⟨fs, ApplyResult.new, mode, stdin⟩ st' happ
  rw [claude_paths]
  refine ⟨?_, ?_, ?_⟩
  · exact hc
  · intro q
    exact (ht q).trans (or_iff_right
      (by simp [ApplyResult.touched, ApplyResult.new]))
  · intro q hq
    exact hf q hq

theorem pull_apply_existence (p : Preset) (fs : FS) (mode : ConflictMode)
    (stdin : Stdin) (fs' : FS) (rootRes claudeRes : ApplyResult)
    (stdin' : Stdin)
    (hnd : (pull_paths p).Nodup)
    (happ : pull_apply p fs mode stdin
      = some (fs', rootRes, claudeRes, stdin')) :
    rootRes.created ++ claudeRes.created = missing_of (pull_paths p) fs ∧
    ∀ q, q ∈ rootRes.touched ++ claudeRes.touched
      ↔ q ∈ existing_of (pull_paths p) fs := by
  rw [pull_paths, List.nodup_append] at hnd
  obtain ⟨hndr, hndc, hdisj⟩ := hnd
  have hroot := step_root p.root hndr ⟨fs, ApplyResult.new, mode, stdin⟩
    (apply_root_files p.root fs mode stdin) rfl
  obtain ⟨⟨hcr, htr⟩, hfr⟩ := hroot
  cases hca : claude_apply p (apply_root_files p.root fs mode stdin).fs mode
      (apply_root_files p.root fs mode stdin).stdin with
  | none =>
    replace happ : (claude_apply p (apply_root_files p.root fs mode stdin).fs
        mode (apply_root_files p.root fs mode stdin).stdin).bind (fun st =>
          some (st.fs, (apply_root_files p.root fs mode stdin).result,
            st.result, st.stdin)) = some (fs', rootRes, claudeRes, stdin') :=
      happ
    rw [hca] at happ
    cases happ
  | some stc =>
    replace happ : (claude_apply p (apply_root_files p.root fs mode stdin).fs
        mode (apply_root_files p.root fs mode stdin).stdin).bind (fun st =>
          some (st.fs, (apply_root_files p.root fs mode stdin).result,
            st.result, st.stdin)) = some (fs', rootRes, claudeRes, stdin') :=
      happ
    rw [hca] at happ
    simp only [Option.bind, Option.some.injEq, Prod.mk.injEq] at happ
    obtain ⟨hfs', hroot', hclaude', hstdin'⟩ := happ
    obtain ⟨hcc, htc, _⟩ := claude_apply_existence p _ mode _ stc hndc hca
    have hagree : ∀ q ∈ claude_paths p,
        (apply_root_files p.root fs mode stdin).fs.lookup q = fs.lookup q :=
      fun q hq => hfr q fun hqa => hdisj hqa hq
    have hmiss : missing_of (claude_paths p)
        (apply_root_files p.root fs mode stdin).fs
        = missing_of (claude_paths p) fs :=
      List.filter_congr fun q hq => by rw [hagree q hq]
    have hex : existing_of (claude_paths p)
        (apply_root_files p.root fs mode stdin).fs
        = existing_of (claude_paths p) fs :=
      List.filter_congr fun q hq => by rw [hagree q hq]
    rw [pull_paths]
    constructor
    · rw [← hroot', ← hclaude', hcc, hmiss, hcr]
      rw [missing_of, missing_of, missing_of, List.filter_append]
      rfl
    · intro q
      rw [List.mem_append, ← hroot', ← hclaude', htc q, hex, htr q]
      rw [existing_of, existing_of, existing_of, List.filter_append,
        List.mem_append]
      simp [ApplyResult.touched, ApplyResult.new]

theorem missing_of_append (a b : List String) (fs : FS) :
    missing_of (a ++ b) fs = missing_of a fs ++ missing_of b fs :=
  List.filter_append _ _

theorem existing_of_append (a b : List String) (fs : FS) :
    existing_of (a ++ b) fs = existing_of a fs ++ existing_of b fs :=
  List.filter_append _ _

theorem if_not_list (b : Bool) (x y : List String) :
    (if (!b) = true then x else y) = if b = true then y else x := by
  cases b <;> rfl

theorem add_cwc_none (r : ScanResult) (path sec : String) (fs : FS)
    (target content : String) (hl : fs.lookup target = none) :
    r.add_change_with_content path sec fs target content
      = ⟨r.changes ++ [⟨path, sec, false, false, some content⟩]⟩ := by
  rw [ScanResult.add_change_with_content]
  simp only [hl]

theorem add_cwc_some (r : ScanResult) (path sec : String) (fs : FS)
    (target content : String) (e : FileContent) (hl : fs.lookup target = some e) :
    r.add_change_with_content path sec fs target content
      = ⟨r.changes ++ [⟨path, sec, true, norm_fc e = norm_fc (.text content),
          some content⟩]⟩ := by
  rw [ScanResult.add_change_with_content]
  simp only [hl]

theorem scan_section_filter (sp dir sec : String) (files : List PresetFile)
    (fs : FS) (r : ScanResult) :
    ((((scan_section_files sp dir sec files fs r).changes.filter
        fun c => !c.is_conflict).map fun c => c.path)
      = ((r.changes.filter fun c => !c.is_conflict).map fun c => c.path)
        ++ missing_of (section_paths sp dir files) fs) ∧
    ((((scan_section_files sp dir sec files fs r).changes.filter
        fun c => c.is_conflict).map fun c => c.path)
      = ((r.changes.filter fun c => c.is_conflict).map fun c => c.path)
        ++ existing_of (section_paths sp dir files) fs) := by
  induction files generalizing r with
  | nil =>
    constructor <;>
      simp [scan_section_files, section_paths, missing_of, existing_of]
  | cons f files ih =>
    have hstep : scan_section_files sp dir sec (f :: files) fs r
        = scan_section_files sp dir sec files fs
            (r.add_change_with_content
              (dir ++ rust_replace f.relative_path sp "") sec fs
              (dir ++ rust_replace f.relative_path sp "") f.content) := rfl
    have hpaths : section_paths sp dir (f :: files)
        = (dir ++ rust_replace f.relative_path sp "")
          :: section_paths sp dir files := rfl
    rw [hstep, hpaths]
    cases hl : fs.lookup (dir ++ rust_replace f.relative_path sp "") with
    | none =>
      rw [add_cwc_none _ _ _ _ _ _ hl]
      obtain ⟨ih1, ih2⟩ := ih ⟨r.changes
        ++ [⟨dir ++ rust_replace f.relative_path sp "", sec, false, false,
             some f.content⟩]⟩
      constructor
      · rw [ih1]
        simp [missing_of, List.filter_cons, hl, List.filter_append,
          List.append_assoc]
      · rw [ih2]
        simp [existing_of, List.filter_cons, hl, List.filter_append,
          List.append_assoc]
    | some e =>
      rw [add_cwc_some _ _ _ _ _ _ e hl]
      obtain ⟨ih1, ih2⟩ := ih ⟨r.changes
        ++ [⟨dir ++ rust_replace f.relative_path sp "", sec, true,
             norm_fc e = norm_fc (.text f.content), some f.content⟩]⟩
      constructor
      · rw [ih1]
        simp [missing_of, List.filter_cons, hl, List.filter_append,
          List.append_assoc]
      · rw [ih2]
        simp [existing_of, List.filter_cons, hl, List.filter_append,
          List.append_assoc]

theorem scan_merged_filter (ne : Bool) (display sec : String) (fs : FS)
    (r : ScanResult) :
    ((((scan_merged_section ne display sec fs r).changes.filter
        fun c => !c.is_conflict).map fun c => c.path)
      = ((r.changes.filter fun c => !c.is_conflict).map fun c => c.path)
        ++ missing_of (if ne then [display] else []) fs) ∧
    ((((scan_merged_section ne display sec fs r).changes.filter
        fun c => c.is_conflict).map fun c => c.path)
      = ((r.changes.filter fun c => c.is_conflict).map fun c => c.path)
        ++ existing_of (if ne then [display] else []) fs) := by
  cases ne with
  | false =>
    constructor <;> simp [scan_merged_section, missing_of, existing_of]
  | true =>
    have hstep : scan_merged_section true display sec fs r
        = ⟨r.changes ++ [⟨display, sec, (fs.lookup display).isSome, false,
            none⟩]⟩ := rfl
    rw [hstep]
    cases hl : fs.lookup display with
    | none =>
      constructor
      · simp [missing_of, List.filter_cons, hl, List.filter_append]
      · simp [existing_of, List.filter_cons, hl, List.filter_append]
    | some e =>
      constructor
      · simp [missing_of, List.filter_cons, hl, List.filter_append]
      · simp [existing_of, List.filter_cons, hl, List.filter_append]

theorem scan_root_filter (files : List PresetFile) (fs : FS) :
    (((scan_root files fs).filter fun c => !c.is_conflict).map fun c => c.path)
      = missing_of (files.map fun f => f.relative_path) fs ∧
    (((scan_root files fs).filter fun c => c.is_conflict).map fun c => c.path)
      = existing_of (files.map fun f => f.relative_path) fs := by
  induction files with
  | nil => constructor <;> simp [scan_root, missing_of, existing_of]
  | cons f files ih =>
    have hstep : scan_root (f :: files) fs
        = (match fs.lookup f.relative_path with
           | some existing =>
             (⟨f.relative_path, "root", true,
               norm_fc existing = norm_fc (.text f.content), none⟩ :
               PendingChange)
           | none =>
             ⟨f.relative_path, "root", false, false, none⟩)
          :: scan_root files fs := rfl
    rw [hstep]
    cases hl : fs.lookup f.relative_path with
    | none =>
      constructor
      · simp only [hl, List.map_cons]
        simp [missing_of, List.filter_cons, hl, ih.1]
      · simp only [hl, List.map_cons]
        simp [existing_of, List.filter_cons, hl, ih.2]
    | some e =>
      constructor
      · simp only [hl, List.map_cons]
        simp [missing_of, List.filter_cons, hl, ih.1]
      · simp only [hl, List.map_cons]
        simp [existing_of, List.filter_cons, hl, ih.2]

theorem scan_section_filter_not (sp dir sec : String) (files : List PresetFile)
    (fs : FS) (r : ScanResult) :
    (((scan_section_files sp dir sec files fs r).changes.filter
        fun c => !c.is_conflict).map fun c => c.path)
      = ((r.changes.filter fun c => !c.is_conflict).map fun c => c.path)
        ++ missing_of (section_paths sp dir files) fs :=
  (scan_section_filter sp dir sec files fs r).1

theorem scan_section_filter_conf (sp dir sec : String) (files : List PresetFile)
    (fs : FS) (r : ScanResult) :
    (((scan_section_files sp dir sec files fs r).changes.filter
        fun c => c.is_conflict).map fun c => c.path)
      = ((r.changes.filter fun c => c.is_conflict).map fun c => c.path)
        ++ existing_of (section_paths sp dir files) fs :=
  (scan_section_filter sp dir sec files fs r).2

theorem scan_merged_filter_not (ne : Bool) (display sec : String) (fs : FS)
    (r : ScanResult) :
    (((scan_merged_section ne display sec fs r).changes.filter
        fun c => !c.is_conflict).map fun c => c.path)
      = ((r.changes.filter fun c => !c.is_conflict).map fun c => c.path)
        ++ missing_of (if ne then [display] else []) fs :=
  (scan_merged_filter ne display sec fs r).1

theorem scan_merged_filter_conf (ne : Bool) (display sec : String) (fs : FS)
    (r : ScanResult) :
    (((scan_merged_section ne display sec fs r).changes.filter
        fun c => c.is_conflict).map fun c => c.path)
      = ((r.changes.filter fun c => c.is_conflict).map fun c => c.path)
        ++ existing_of (if ne then [display] else []) fs :=
  (scan_merged_filter ne display sec fs r).2

theorem claude_scan_filter (p : Preset) (fs : FS) :
    ((((claude_scan p fs).changes.filter fun c => !c.is_conflict).map
        fun c => c.path) = missing_of (claude_paths p) fs) ∧
    ((((claude_scan p fs).changes.filter fun c => c.is_conflict).map
        fun c => c.path) = existing_of (claude_paths p) fs) := by
  have hund : claude_scan p fs
      = scan_merged_section (!p.settings.isEmpty) ".claude/settings.local.json"
          "settings" fs
          (scan_section_files "skills/" ".claude/skills/" "skills" p.skills fs
            (scan_section_files "agents/" ".claude/agents/" "agents" p.agents fs
              (scan_merged_section (!p.hooks.isEmpty) ".claude/hooks.json"
                "hooks" fs
                (scan_merged_section (!p.mcp.isEmpty)
                  ".claude/settings.local.json" "mcp" fs
                  (scan_section_files "commands/" ".claude/commands/" "commands"
                    p.commands fs
                    (scan_merged_section (!p.memory.isEmpty) ".claude/CLAUDE.md"
                      "memory" fs
                      (scan_section_files "rules/" ".claude/rules/" "rules"
                        p.rules fs ScanResult.new))))))) := rfl
  rw [hund, claude_paths]
  constructor
  · rw [scan_merged_filter_not, scan_section_filter_not, scan_section_filter_not,
      scan_merged_filter_not, scan_merged_filter_not, scan_section_filter_not,
      scan_merged_filter_not, scan_section_filter_not]
    simp [ScanResult.new, if_not_list, missing_of_append, List.append_assoc]
  · rw [scan_merged_filter_conf, scan_section_filter_conf,
      scan_section_filter_conf, scan_merged_filter_conf, scan_merged_filter_conf,
      scan_section_filter_conf, scan_merged_filter_conf, scan_section_filter_conf]
    simp [ScanResult.new, if_not_list, existing_of_append, List.append_assoc]

theorem pull_scan_filter (p : Preset) (fs : FS) :
    ((((pull_scan p fs).filter fun c => !c.is_conflict).map fun c => c.path)
      = missing_of (pull_paths p) fs) ∧
    ((((pull_scan p fs).filter fun c => c.is_conflict).map fun c => c.path)
      = existing_of (pull_paths p) fs) := by
  rw [pull_scan, pull_paths]
  constructor
  · rw [List.filter_append, List.map_append, (scan_root_filter p.root fs).1,
      (claude_scan_filter p fs).1, missing_of_append]
  · rw [List.filter_append, List.map_append, (scan_root_filter p.root fs).2,
      (claude_scan_filter p fs).2, existing_of_append]

/-- C1 amended: for a fixed preset and target, with all destination
paths of the run distinct and the apply phase completing, the paths
scan marks non-conflicting are exactly — same order included — the
paths apply reports created, and the paths scan marks conflicting
(whether or not also identical) are exactly the paths apply reports
updated, skipped or unchanged.  The original claim fails because apply
auto-detects identical content and reports it unchanged, outside
updated and skipped. -/
theorem scan_apply_agreement (p : Preset) (fs : FS) (mode : ConflictMode)
    (stdin : Stdin) (fs' : FS) (rootRes claudeRes : ApplyResult)
    (stdin' : Stdin)
    (hnd : (pull_paths p).Nodup)
    (happ : pull_apply p fs mode stdin
      = some (fs', rootRes, claudeRes, stdin')) :
    rootRes.created ++ claudeRes.created
      = ((pull_scan p fs).filter fun c => !c.is_conflict).map (fun c => c.path)
    ∧ ∀ q, q ∈ rootRes.touched ++ claudeRes.touched
      ↔ q ∈ ((pull_scan p fs).filter fun c => c.is_conflict).map
          fun c => c.path := by
  obtain ⟨h1, h2⟩ := pull_apply_existence p fs mode stdin fs' rootRes claudeRes
    stdin' hnd happ
  refine ⟨?_, fun q => ?_⟩
  · rw [(pull_scan_filter p fs).1]
    exact h1
  · rw [(pull_scan_filter p fs).2]
    exact h2 q

theorem scan_apply_agreement_witness :
    ((pull_paths
      { rules := [PresetFile.mk "rules/a.md" "R"], memory := [], commands := [],
        mcp := [], hooks := [], agents := [], skills := [], settings := [],
        root := [PresetFile.mk "note.md" "N"], memory_strategy := .concat,
        mcp_strategy := .concat, settings_strategy := .concat }).Nodup) ∧
    pull_apply
      { rules := [PresetFile.mk "rules/a.md" "R"], memory := [], commands := [],
        mcp := [], hooks := [], agents := [], skills := [], settings := [],
        root := [PresetFile.mk "note.md" "N"], memory_strategy := .concat,
        mcp_strategy := .concat, settings_strategy := .concat }
      [("note.md", .text "old")] .force []
      = some ([("note.md", .text "N"), (".claude/rules/a.md", .text "R")],
          ⟨[], ["note.md"], [], []⟩, ⟨[".claude/rules/a.md"], [], [], []⟩, []) ∧
    (⟨[], ["note.md"], [], []⟩ : ApplyResult).created
        ++ (⟨[".claude/rules/a.md"], [], [], []⟩ : ApplyResult).created
      = ((pull_scan
          { rules := [PresetFile.mk "rules/a.md" "R"], memory := [],
            commands := [], mcp := [], hooks := [], agents := [], skills := [],
            settings := [],
            root := [PresetFile.mk "note.md" "N"], memory_strategy := .concat,
            mcp_strategy := .concat, settings_strategy := .concat }
          [("note.md", .text "old")]).filter fun c => !c.is_conflict).map
          fun c => c.path := by
  refine ⟨by decide, by decide, ?_⟩
  exact (scan_apply_agreement
    { rules := [PresetFile.mk "rules/a.md" "R"], memory := [], commands := [],
      mcp := [], hooks := [], agents := [], skills := [], settings := [],
      root := [PresetFile.mk "note.md" "N"], memory_strategy := .concat,
      mcp_strategy := .concat, settings_strategy := .concat }
    [("note.md", .text "old")] .force []
    [("note.md", .text "N"), (".claude/rules/a.md", .text "R")]
    ⟨[], ["note.md"], [], []⟩ ⟨[".claude/rules/a.md"], [], [], []⟩ []
    (by decide) (by decide)).1

/-- C1 counterexample: a replace-strategy memory section whose merged
content equals the existing destination.  The scan flags the
destination as a conflict (merged sections are classified by existence
only, is_identical stays false), but the apply phase reports it
unchanged: updated and skipped both stay empty, so the conflicting
scan set is not updated plus skipped. -/
theorem scan_apply_agreement_counterexample :
    (((pull_scan
        { rules := [], memory := [PresetFile.mk "memory/a.md" "# A"],
          commands := [], mcp := [], hooks := [], agents := [], skills := [],
          settings := [], root := [], memory_strategy := .replace,
          mcp_strategy := .concat, settings_strategy := .concat }
        [(".claude/CLAUDE.md", .text "# A")]).filter
          fun c => c.is_conflict && !c.is_identical).map fun c => c.path)
      = [".claude/CLAUDE.md"] ∧
    pull_apply
        { rules := [], memory := [PresetFile.mk "memory/a.md" "# A"],
          commands := [], mcp := [], hooks := [], agents := [], skills := [],
          settings := [], root := [], memory_strategy := .replace,
          mcp_strategy := .concat, settings_strategy := .concat }
        [(".claude/CLAUDE.md", .text "# A")] .force []
      = some ([(".claude/CLAUDE.md", .text "# A")], ⟨[], [], [], []⟩,
          ⟨[], [], [], [".claude/CLAUDE.md"]⟩, []) := by
  exact ⟨by decide, by decide⟩

/-! ## Claim C2: idempotence machinery -/

theorem insertField_self (j : Json) (k : String) (v : Json)
    (h : j.lookupField k = some v) : j.insertField k v = j := by
  induction j with
  | objCons a b tl ihv ihtl =>
    by_cases ha : a = k
    · rw [Json.lookupField, if_pos ha] at h
      injection h with h
      rw [Json.insertField, if_pos ha, h]
    · rw [Json.lookupField, if_neg ha] at h
      rw [Json.insertField, if_neg ha, ihtl h]
  | _ => simp [Json.lookupField] at h

theorem isObj_of_lookupField {j : Json} {k : String} {v : Json}
    (h : j.lookupField k = some v) : j.isObj = true := by
  cases j <;> simp_all [Json.lookupField, Json.isObj]

theorem ensure_key_self (config : Json) (w : String) {W : Json}
    (h : config.lookupField w = some W) : ensure_key config w = some config := by
  rw [ensure_key, Json.get, h]

theorem json_set2_self (config W : Json) (w n : String) (v : Json)
    (hW : config.lookupField w = some W) (hWobj : W.isObj = true)
    (hv : W.lookupField n = some v) :
    json_set2 config w n v = some config := by
  have hobj : config.isObj = true := isObj_of_lookupField hW
  rw [json_set2, if_pos hobj, wrapper_value_some hW, if_pos hWobj,
    insertField_self W n v hv, insertField_self config w W hW]

theorem insert_entries_self (entries : List (String × Json)) (config W : Json)
    (w : String) (hW : config.lookupField w = some W) (hWobj : W.isObj = true)
    (hvals : ∀ e ∈ entries, W.lookupField e.1 = some e.2) :
    insert_entries config w entries = some config := by
  induction entries with
  | nil => rfl
  | cons e rest ih =>
    rw [insert_entries,
      json_set2_self config W w e.1 e.2 hW hWobj (hvals e (by simp))]
    exact ih fun e he => hvals e (List.mem_cons_of_mem _ he)

theorem last_value_not_mem (entries : List (String × Json)) (k : String)
    (h : k ∉ entries.map Prod.fst) : last_value entries k = none := by
  induction entries with
  | nil => rfl
  | cons e rest ih =>
    rw [List.map_cons, List.mem_cons] at h
    push_neg at h
    rw [last_value, ih h.2]
    have : ¬e.1 = k := fun hh => h.1 hh.symm
    obtain ⟨n, v⟩ := e
    simpa using this

theorem last_value_nodup (entries : List (String × Json))
    (hnd : (entries.map Prod.fst).Nodup) {n : String} {v : Json}
    (hmem : (n, v) ∈ entries) : last_value entries n = some v := by
  induction entries with
  | nil => cases hmem
  | cons e rest ih =>
    rw [List.map_cons, List.nodup_cons] at hnd
    rw [List.mem_cons] at hmem
    cases hmem with
    | inl h =>
      subst h
      rw [last_value, last_value_not_mem rest n hnd.1]
      simp
    | inr h =>
      rw [last_value, ih hnd.2 h]

theorem mcp_fixpoint (entries : List (String × Json)) (settings0 s1 s2 : Json)
    (w : String) (hwf : config_wf settings0 w = true)
    (hnd : (entries.map Prod.fst).Nodup) (hne : entries ≠ [])
    (h1 : ensure_key settings0 w = some s1)
    (h2 : insert_entries s1 w entries = some s2) :
    ensure_key s2 w = some s2 ∧ insert_entries s2 w entries = some s2 := by
  obtain ⟨hwf1, _⟩ := ensure_key_spec settings0 w s1 hwf h1
  obtain ⟨hwf2, hform⟩ := insert_entries_spec entries s1 s2 w hwf1 h2
  have hvals : ∀ e ∈ entries, wrapper_get s2 w e.1 = some e.2 := by
    intro e he
    rw [hform e.1, last_value_nodup entries hnd he]
  obtain ⟨e0, he0⟩ : ∃ e, e ∈ entries := by
    cases entries with
    | nil => exact absurd rfl hne
    | cons e rest => exact ⟨e, by simp⟩
  have h0 := hvals e0 he0
  rw [wrapper_get] at h0
  cases hW : s2.lookupField w with
  | none => rw [hW] at h0; cases h0
  | some W =>
    rw [hW] at h0
    have hWobj : W.isObj = true := isObj_of_lookupField h0
    have hvals' : ∀ e ∈ entries, W.lookupField e.1 = some e.2 := by
      intro e he
      have := hvals e he
      rw [wrapper_get, hW] at this
      exact this
    exact ⟨ensure_key_self s2 w hW,
      insert_entries_self entries s2 W w hW hWobj hvals'⟩

theorem isObj_of_objWF {j : Json} (h : j.objWF = true) : j.isObj = true := by
  cases j <;> simp_all [Json.objWF, Json.isObj]

theorem insert_all_fields_self (s v : Json)
    (h : ∀ e ∈ v.fields, s.lookupField e.1 = some e.2) :
    insert_all_fields s v = s := by
  induction v generalizing s with
  | objCons k val tl ihval ihtl =>
    rw [insert_all_fields,
      insertField_self s k val (h (k, val) (by rw [Json.fields]; simp))]
    exact ihtl s fun e he => h e (by rw [Json.fields]; exact List.mem_cons_of_mem _ he)
  | null => rfl
  | bool b => rfl
  | num n => rfl
  | str t => rfl
  | arrNil => rfl
  | arrCons hd tl ihhd ihtl => rfl
  | objNil => rfl

theorem merge_flat_self (s v : Json)
    (h : ∀ e ∈ v.fields, s.lookupField e.1 = some e.2) :
    merge_flat s v = s := by
  rw [merge_flat]
  by_cases hv : v.isObj = true
  · rw [if_pos hv]
    by_cases hs : s.isObj = true
    · rw [if_pos hs, insert_all_fields_self s v h]
    · rw [if_neg hs]
  · rw [if_neg hv]

theorem insert_all_fields_objWF (s v : Json) (h : s.objWF = true) :
    (insert_all_fields s v).objWF = true := by
  induction v generalizing s with
  | objCons k val tl ihval ihtl =>
    rw [insert_all_fields]
    exact ihtl _ (insertField_objWF s k val h)
  | null => exact h
  | bool b => exact h
  | num n => exact h
  | str t => exact h
  | arrNil => exact h
  | arrCons hd tl ihhd ihtl => exact h
  | objNil => exact h

theorem merge_flat_objWF (s v : Json) (h : s.objWF = true) :
    (merge_flat s v).objWF = true := by
  rw [merge_flat]
  by_cases hv : v.isObj = true
  · rw [if_pos hv]
    by_cases hs : s.isObj = true
    · rw [if_pos hs]
      exact insert_all_fields_objWF s v h
    · rw [if_neg hs]; exact h
  · rw [if_neg hv]; exact h

theorem insert_all_fields_lookup_not_mem (v : Json) (s : Json)
    (hswf : s.objWF = true) (k : String) (hk : k ∉ v.fields.map Prod.fst) :
    (insert_all_fields s v).lookupField k = s.lookupField k := by
  induction v generalizing s with
  | objCons a val tl ihval ihtl =>
    rw [Json.fields, List.map_cons, List.mem_cons] at hk
    push_neg at hk
    rw [insert_all_fields, ihtl _ (insertField_objWF s a val hswf) hk.2,
      lookupField_insertField_ne s a k val hswf hk.1]
  | null => rfl
  | bool b => rfl
  | num n => rfl
  | str t => rfl
  | arrNil => rfl
  | arrCons hd tl ihhd ihtl => rfl
  | objNil => rfl

theorem insert_all_fields_lookup_mem (v : Json) (s : Json)
    (hswf : s.objWF = true) (hnd : (v.fields.map Prod.fst).Nodup)
    {e : String × Json} (he : e ∈ v.fields) :
    (insert_all_fields s v).lookupField e.1 = some e.2 := by
  induction v generalizing s with
  | objCons a val tl ihval ihtl =>
    rw [Json.fields, List.map_cons, List.nodup_cons] at hnd
    rw [Json.fields, List.mem_cons] at he
    cases he with
    | inl h =>
      subst h
      rw [insert_all_fields,
        insert_all_fields_lookup_not_mem tl _ (insertField_objWF s a val hswf)
          a hnd.1,
        lookupField_insertField_self s a val hswf]
    | inr h =>
      rw [insert_all_fields]
      exact ihtl _ (insertField_objWF s a val hswf) hnd.2 h
  | null => cases he
  | bool b => cases he
  | num n => cases he
  | str t => cases he
  | arrNil => cases he
  | arrCons hd tl ihhd ihtl => cases he
  | objNil => cases he

theorem fold_merge_flat_objWF (files : List JsonPresetFile) (s : Json)
    (h : s.objWF = true) :
    (files.foldl (fun s f => merge_flat s f.content) s).objWF = true := by
  induction files generalizing s with
  | nil => exact h
  | cons g rest ih => exact ih _ (merge_flat_objWF s g.content h)

theorem fold_merge_flat_lookup_not_mem (files : List JsonPresetFile) (s : Json)
    (hswf : s.objWF = true) (k : String) (hk : k ∉ flat_keys files) :
    (files.foldl (fun s f => merge_flat s f.content) s).lookupField k
      = s.lookupField k := by
  induction files generalizing s with
  | nil => rfl
  | cons g rest ih =>
    rw [flat_keys, List.mem_append] at hk
    push_neg at hk
    have hmf : (merge_flat s g.content).lookupField k = s.lookupField k := by
      rw [merge_flat]
      by_cases hv : g.content.isObj = true
      · rw [if_pos hv]
        by_cases hs : s.isObj = true
        · rw [if_pos hs]
          exact insert_all_fields_lookup_not_mem g.content s hswf k hk.1
        · rw [if_neg hs]
      · rw [if_neg hv]
    rw [List.foldl_cons, ih _ (merge_flat_objWF s g.content hswf) hk.2, hmf]

theorem fold_merge_flat_lookup (files : List JsonPresetFile) (s : Json)
    (hswf : s.objWF = true) (hnd : (flat_keys files).Nodup)
    {g : JsonPresetFile} (hg : g ∈ files) {e : String × Json}
    (he : e ∈ g.content.fields) :
    (files.foldl (fun s f => merge_flat s f.content) s).lookupField e.1
      = some e.2 := by
  induction files generalizing s with
  | nil => cases hg
  | cons g0 rest ih =>
    rw [flat_keys, List.nodup_append] at hnd
    obtain ⟨hnd1, hnd2, hdisj⟩ := hnd
    rw [List.mem_cons] at hg
    cases hg with
    | inl h =>
      subst h
      have hobj : g.content.isObj = true := by
        cases hc : g.content <;> rw [hc] at he <;>
          first
          | rfl
          | exact absurd he (List.not_mem_nil e)
      have hsobj : s.isObj = true := isObj_of_objWF hswf
      have hmf : merge_flat s g.content = insert_all_fields s g.content := by
        rw [merge_flat, if_pos hobj, if_pos hsobj]
      have hmem : e.1 ∈ g.content.fields.map Prod.fst :=
        List.mem_map_of_mem Prod.fst he
      rw [List.foldl_cons, hmf,
        fold_merge_flat_lookup_not_mem rest _
          (insert_all_fields_objWF s g.content hswf) e.1 (hdisj hmem)]
      exact insert_all_fields_lookup_mem g.content s hswf hnd1 he
    | inr h =>
      rw [List.foldl_cons]
      exact ih _ (merge_flat_objWF s g0.content hswf) hnd2 h

theorem fold_merge_flat_not_obj (files : List JsonPresetFile) (s : Json)
    (h : s.isObj = false) :
    files.foldl (fun s f => merge_flat s f.content) s = s := by
  induction files with
  | nil => rfl
  | cons g rest ih =>
    have hmf : merge_flat s g.content = s := by
      rw [merge_flat]
      by_cases hv : g.content.isObj = true
      · rw [if_pos hv, if_neg (by rw [h]; exact Bool.false_ne_true)]
      · rw [if_neg hv]
    rw [List.foldl_cons, hmf, ih]

theorem fold_merge_flat_self (files : List JsonPresetFile) (s : Json)
    (h : ∀ g ∈ files, ∀ e ∈ g.content.fields, s.lookupField e.1 = some e.2) :
    files.foldl (fun s f => merge_flat s f.content) s = s := by
  induction files with
  | nil => rfl
  | cons g rest ih =>
    rw [List.foldl_cons, merge_flat_self s g.content (h g (by simp))]
    exact ih fun g' hg' => h g' (List.mem_cons_of_mem _ hg')

theorem settings_fold_fixpoint (files : List JsonPresetFile) (settings0 : Json)
    (hwf : settings0.isObj = true → settings0.objWF = true)
    (hnd : (flat_keys files).Nodup) :
    files.foldl (fun s f => merge_flat s f.content)
        (files.foldl (fun s f => merge_flat s f.content) settings0)
      = files.foldl (fun s f => merge_flat s f.content) settings0 := by
  cases hobj : settings0.isObj with
  | false =>
    rw [fold_merge_flat_not_obj files settings0 hobj,
      fold_merge_flat_not_obj files settings0 hobj]
  | true =>
    exact fold_merge_flat_self files _ fun g hg e he =>
      fold_merge_flat_lookup files settings0 (hwf hobj) hnd hg he

theorem norm_fc_json {e : FileContent} {v : Json}
    (h : norm_fc e = norm_fc (.json v)) : e = .json v := by
  cases e with
  | text s => rw [norm_fc, norm_fc] at h; cases h
  | json w => rw [norm_fc, norm_fc] at h; exact h

theorem claude_apply_eq_chain (p : Preset) (fs : FS) (mode : ConflictMode)
    (stdin : Stdin) :
    claude_apply p fs mode stdin
      = (apply_memory p.memory p.memory_strategy
          (apply_rules p.rules ⟨fs, ApplyResult.new, mode, stdin⟩)).bind
          (fun st => (apply_mcp p.mcp p.mcp_strategy
              (apply_commands p.commands st)).bind
            (fun st => apply_settings p.settings p.settings_strategy
              (apply_skills p.skills (apply_agents p.agents
                (apply_hooks p.hooks st))))) := rfl

theorem pull_apply_eq_chain (p : Preset) (fs : FS) (mode : ConflictMode)
    (stdin : Stdin) :
    pull_apply p fs mode stdin
      = (claude_apply p (apply_root_files p.root fs mode stdin).fs mode
          (apply_root_files p.root fs mode stdin).stdin).bind
          (fun st => some (st.fs, (apply_root_files p.root fs mode stdin).result,
            st.result, st.stdin)) := rfl

theorem apply_section_files_unchanged (sp dir : String)
    (files : List PresetFile) (st : ApplyState)
    (hpost : ∀ f ∈ files, ∃ e,
      st.fs.lookup (dir ++ rust_replace f.relative_path sp "") = some e ∧
      norm_fc e = norm_fc (.text f.content)) :
    apply_section_files sp dir files st
      = ⟨st.fs,
         ⟨st.result.created, st.result.updated, st.result.skipped,
          st.result.unchanged ++ section_paths sp dir files⟩,
         st.mode, st.stdin⟩ := by
  induction files generalizing st with
  | nil =>
    obtain ⟨fs, ⟨c, u, sk, un⟩, m, sd⟩ := st
    simp [apply_section_files, section_paths]
  | cons f files ih =>
    obtain ⟨e, hl, he⟩ := hpost f (by simp)
    have hstep : apply_section_files sp dir (f :: files) st
        = apply_section_files sp dir files
            (write_st st (dir ++ rust_replace f.relative_path sp "")
              (.text f.content) (dir ++ rust_replace f.relative_path sp "")) :=
      rfl
    rw [hstep, write_st_same hl he,
      ih ⟨st.fs, st.result.add_unchanged
            (dir ++ rust_replace f.relative_path sp ""), st.mode, st.stdin⟩
        (fun g hg => hpost g (List.mem_cons_of_mem _ hg))]
    simp [ApplyResult.add_unchanged, section_paths, List.append_assoc]

theorem apply_root_fold_unchanged (files : List PresetFile) (st : ApplyState)
    (hpost : ∀ f ∈ files, ∃ e,
      st.fs.lookup f.relative_path = some e ∧
      norm_fc e = norm_fc (.text f.content)) :
    files.foldl (fun st f =>
        write_st st f.relative_path (.text f.content) f.relative_path) st
      = ⟨st.fs,
         ⟨st.result.created, st.result.updated, st.result.skipped,
          st.result.unchanged ++ files.map fun f => f.relative_path⟩,
         st.mode, st.stdin⟩ := by
  induction files generalizing st with
  | nil =>
    obtain ⟨fs, ⟨c, u, sk, un⟩, m, sd⟩ := st
    simp
  | cons f files ih =>
    obtain ⟨e, hl, he⟩ := hpost f (by simp)
    rw [List.foldl_cons, write_st_same hl he,
      ih ⟨st.fs, st.result.add_unchanged f.relative_path, st.mode, st.stdin⟩
        (fun g hg => hpost g (List.mem_cons_of_mem _ hg))]
    simp [ApplyResult.add_unchanged, List.append_assoc]

theorem apply_memory_unchanged (files : List PresetFile)
    (strategy : MergeStrategy) (st : ApplyState)
    (hcase : files = [] ∨ (strategy = .replace ∧ ∃ e,
      st.fs.lookup ".claude/CLAUDE.md" = some e ∧
      norm_fc e = norm_fc (.text (join_memory (files.map fun f => f.content))))) :
    apply_memory files strategy st
      = some ⟨st.fs,
          ⟨st.result.created, st.result.updated, st.result.skipped,
           st.result.unchanged
             ++ (if files.isEmpty then [] else [".claude/CLAUDE.md"])⟩,
          st.mode, st.stdin⟩ := by
  by_cases hf : files.isEmpty
  · have hfe : files = [] := List.isEmpty_iff.mp hf
    rw [apply_memory, if_pos hf, if_pos hf]
    obtain ⟨fs, ⟨c, u, sk, un⟩, m, sd⟩ := st
    simp
  · rcases hcase with hfe | ⟨hrep, e, hl, he⟩
    · exact absurd (hfe ▸ rfl) hf
    · subst hrep
      rw [apply_memory, if_neg hf, if_neg hf]
      simp only [hl]
      rw [write_st_same hl he]
      rfl

theorem apply_mcp_unchanged (files : List JsonPresetFile)
    (strategy : MergeStrategy) (st : ApplyState) (s0 s1 s2 : Json)
    (hcase : files = [] ∨
      (read_settings st.fs ".claude/settings.local.json" strategy = some s0 ∧
       ensure_key s0 "mcpServers" = some s1 ∧
       insert_entries s1 "mcpServers" (files.map fun f =>
         (rust_replace (rust_replace f.relative_path "mcp/" "") ".json" "",
          f.content)) = some s2 ∧
       st.fs.lookup ".claude/settings.local.json" = some (.json s2))) :
    apply_mcp files strategy st
      = some ⟨st.fs,
          ⟨st.result.created, st.result.updated, st.result.skipped,
           st.result.unchanged
             ++ (if files.isEmpty then []
                 else [".claude/settings.local.json"])⟩,
          st.mode, st.stdin⟩ := by
  by_cases hf : files.isEmpty
  · rw [apply_mcp, if_pos hf, if_pos hf]
    obtain ⟨fs, ⟨c, u, sk, un⟩, m, sd⟩ := st
    simp
  · rcases hcase with hfe | ⟨h0, h1, h2, hlook⟩
    · exact absurd (hfe ▸ rfl) hf
    · rw [apply_mcp, if_neg hf, if_neg hf]
      simp only [h0, h1, h2]
      rw [write_st_same hlook rfl]
      rfl

theorem apply_hooks_unchanged (files : List JsonPresetFile) (st : ApplyState)
    (hcase : files = [] ∨
      st.fs.lookup ".claude/hooks.json" = some (.json (build_hooks files))) :
    apply_hooks files st
      = ⟨st.fs,
         ⟨st.result.created, st.result.updated, st.result.skipped,
          st.result.unchanged
            ++ (if files.isEmpty then [] else [".claude/hooks.json"])⟩,
         st.mode, st.stdin⟩ := by
  by_cases hf : files.isEmpty
  · rw [apply_hooks, if_pos hf, if_pos hf]
    obtain ⟨fs, ⟨c, u, sk, un⟩, m, sd⟩ := st
    simp
  · rcases hcase with hfe | hlook
    · exact absurd (hfe ▸ rfl) hf
    · rw [apply_hooks, if_neg hf, if_neg hf, write_st_same hlook rfl]
      rfl

theorem apply_settings_unchanged (files : List JsonPresetFile)
    (strategy : MergeStrategy) (st : ApplyState) (s0 : Json)
    (hcase : files = [] ∨
      (read_settings st.fs ".claude/settings.local.json" strategy = some s0 ∧
       st.fs.lookup ".claude/settings.local.json"
         = some (.json (files.foldl (fun s f => merge_flat s f.content) s0)))) :
    apply_settings files strategy st
      = some ⟨st.fs,
          ⟨st.result.created, st.result.updated, st.result.skipped,
           st.result.unchanged
             ++ (if files.isEmpty then []
                 else [".claude/settings.local.json"])⟩,
          st.mode, st.stdin⟩ := by
  by_cases hf : files.isEmpty
  · rw [apply_settings, if_pos hf, if_pos hf]
    obtain ⟨fs, ⟨c, u, sk, un⟩, m, sd⟩ := st
    simp
  · rcases hcase with hfe | ⟨h0, hlook⟩
    · exact absurd (hfe ▸ rfl) hf
    · rw [apply_settings, if_neg hf, if_neg hf]
      simp only [h0]
      rw [write_st_same hlook rfl]
      rfl

theorem write_st_force_post (st : ApplyState) (t : String) (c : FileContent)
    (hm : st.mode = .force) :
    (∃ e, (write_st st t c t).fs.lookup t = some e ∧ norm_fc e = norm_fc c)
    ∧ (write_st st t c t).mode = .force := by
  cases hl : st.fs.lookup t with
  | none =>
    rw [write_st_none hl]
    exact ⟨⟨c, lookup_fs_write_self st.fs t c, rfl⟩, hm⟩
  | some e =>
    by_cases he : norm_fc e = norm_fc c
    · rw [write_st_same hl he]
      exact ⟨⟨e, hl, he⟩, hm⟩
    · have hres : resolve_conflict st.mode t (some e.diffText) (some c.diffText)
          st.stdin = (true, .force, st.stdin) := by
        rw [hm]
        rfl
      rw [write_st_write hl he hres]
      exact ⟨⟨c, lookup_fs_write_self st.fs t c, rfl⟩, rfl⟩

theorem fold_write_force_post (jobs : List (String × FileContent))
    (st : ApplyState) (hnd : (jobs.map Prod.fst).Nodup)
    (hm : st.mode = .force) :
    (∀ j ∈ jobs, ∃ e,
      (jobs.foldl (fun st j => write_st st j.1 j.2 j.1) st).fs.lookup j.1
        = some e ∧ norm_fc e = norm_fc j.2)
    ∧ (jobs.foldl (fun st j => write_st st j.1 j.2 j.1) st).mode = .force := by
  induction jobs generalizing st with
  | nil => exact ⟨fun j hj => absurd hj (List.not_mem_nil j), hm⟩
  | cons j0 jobs ih =>
    rw [List.map_cons, List.nodup_cons] at hnd
    obtain ⟨hpost0, hm1⟩ := write_st_force_post st j0.1 j0.2 hm
    obtain ⟨hposts, hm2⟩ := ih (write_st st j0.1 j0.2 j0.1) hnd.2 hm1
    have hfold : (j0 :: jobs).foldl (fun st j => write_st st j.1 j.2 j.1) st
        = jobs.foldl (fun st j => write_st st j.1 j.2 j.1)
            (write_st st j0.1 j0.2 j0.1) := rfl
    rw [hfold]
    refine ⟨?_, hm2⟩
    intro j hj
    rw [List.mem_cons] at hj
    cases hj with
    | inl h =>
      subst h
      obtain ⟨e, hl, he⟩ := hpost0
      refine ⟨e, ?_, he⟩
      rw [(step_write_fold jobs hnd.2 (write_st st j.1 j.2 j.1) _ rfl).2 j.1
        hnd.1]
      exact hl
    | inr h => exact hposts j h

theorem apply_section_files_force_post (sp dir : String)
    (files : List PresetFile) (st : ApplyState)
    (hnd : (section_paths sp dir files).Nodup) (hm : st.mode = .force) :
    ∀ f ∈ files, ∃ e,
      (apply_section_files sp dir files st).fs.lookup
        (dir ++ rust_replace f.relative_path sp "") = some e ∧
      norm_fc e = norm_fc (.text f.content) := by
  have hjobs : section_paths sp dir files
      = ((files.map fun f => (dir ++ rust_replace f.relative_path sp "",
          FileContent.text f.content)).map Prod.fst) := by
    rw [List.map_map]
    rfl
  have hfold : apply_section_files sp dir files st
      = (files.map fun f => (dir ++ rust_replace f.relative_path sp "",
          FileContent.text f.content)).foldl
            (fun st j => write_st st j.1 j.2 j.1) st := by
    rw [List.foldl_map]
    rfl
  intro f hf
  obtain ⟨hposts, _⟩ := fold_write_force_post
    (files.map fun f => (dir ++ rust_replace f.relative_path sp "",
      FileContent.text f.content)) st (by rw [← hjobs]; exact hnd) hm
  have := hposts (dir ++ rust_replace f.relative_path sp "",
    FileContent.text f.content)
    (List.mem_map_of_mem _ hf)
  rw [hfold]
  exact this

theorem apply_root_fold_force_post (files : List PresetFile) (st : ApplyState)
    (hnd : (files.map fun f => f.relative_path).Nodup)
    (hm : st.mode = .force) :
    ∀ f ∈ files, ∃ e,
      (files.foldl (fun st f =>
        write_st st f.relative_path (.text f.content) f.relative_path)
          st).fs.lookup f.relative_path = some e ∧
      norm_fc e = norm_fc (.text f.content) := by
  have hjobs : (files.map fun f => f.relative_path)
      = ((files.map fun f => (f.relative_path, FileContent.text f.content)).map
          Prod.fst) := by
    rw [List.map_map]
    rfl
  have hfold : files.foldl (fun st f =>
        write_st st f.relative_path (.text f.content) f.relative_path) st
      = (files.map fun f => (f.relative_path, FileContent.text f.content)).foldl
          (fun st j => write_st st j.1 j.2 j.1) st := by
    rw [List.foldl_map]
  intro f hf
  obtain ⟨hposts, _⟩ := fold_write_force_post
    (files.map fun f => (f.relative_path, FileContent.text f.content)) st
    (by rw [← hjobs]; exact hnd) hm
  have := hposts (f.relative_path, FileContent.text f.content)
    (List.mem_map_of_mem _ hf)
  rw [hfold]
  exact this

theorem claude_apply_unchanged (p : Preset) (fs : FS) (mode : ConflictMode)
    (stdin : Stdin) (s0m s1m s2m s0s : Json)
    (hrules : ∀ f ∈ p.rules, ∃ e,
      fs.lookup (".claude/rules/" ++ rust_replace f.relative_path "rules/" "")
        = some e ∧ norm_fc e = norm_fc (.text f.content))
    (hmem : p.memory = [] ∨ (p.memory_strategy = .replace ∧ ∃ e,
      fs.lookup ".claude/CLAUDE.md" = some e ∧
      norm_fc e = norm_fc
        (.text (join_memory (p.memory.map fun f => f.content)))))
    (hcmds : ∀ f ∈ p.commands, ∃ e,
      fs.lookup
        (".claude/commands/" ++ rust_replace f.relative_path "commands/" "")
        = some e ∧ norm_fc e = norm_fc (.text f.content))
    (hmcp : p.mcp = [] ∨
      (read_settings fs ".claude/settings.local.json" p.mcp_strategy
        = some s0m ∧
       ensure_key s0m "mcpServers" = some s1m ∧
       insert_entries s1m "mcpServers" (p.mcp.map fun f =>
         (rust_replace (rust_replace f.relative_path "mcp/" "") ".json" "",
          f.content)) = some s2m ∧
       fs.lookup ".claude/settings.local.json" = some (.json s2m)))
    (hhooks : p.hooks = [] ∨
      fs.lookup ".claude/hooks.json" = some (.json (build_hooks p.hooks)))
    (hagents : ∀ f ∈ p.agents, ∃ e,
      fs.lookup (".claude/agents/" ++ rust_replace f.relative_path "agents/" "")
        = some e ∧ norm_fc e = norm_fc (.text f.content))
    (hskills : ∀ f ∈ p.skills, ∃ e,
      fs.lookup (".claude/skills/" ++ rust_replace f.relative_path "skills/" "")
        = some e ∧ norm_fc e = norm_fc (.text f.content))
    (hset : p.settings = [] ∨
      (read_settings fs ".claude/settings.local.json" p.settings_strategy
        = some s0s ∧
       fs.lookup ".claude/settings.local.json"
         = some (.json (p.settings.foldl
             (fun s f => merge_flat s f.content) s0s)))) :
    claude_apply p fs mode stdin
      = some ⟨fs, ⟨[], [], [], claude_paths p⟩, mode, stdin⟩ := by
  rw [claude_apply_eq_chain, apply_rules,
    apply_section_files_unchanged "rules/" ".claude/rules/" p.rules
      ⟨fs, ApplyResult.new, mode, stdin⟩ hrules]
  rw [apply_memory_unchanged p.memory p.memory_strategy _ hmem]
  simp only [Option.bind]
  rw [apply_commands,
    apply_section_files_unchanged "commands/" ".claude/commands/" p.commands
      _ hcmds]
  rw [apply_mcp_unchanged p.mcp p.mcp_strategy _ s0m s1m s2m hmcp]
  simp only [Option.bind]
  rw [apply_hooks_unchanged p.hooks _ hhooks]
  rw [apply_agents,
    apply_section_files_unchanged "agents/" ".claude/agents/" p.agents
      _ hagents]
  rw [apply_skills,
    apply_section_files_unchanged "skills/" ".claude/skills/" p.skills
      _ hskills]
  rw [apply_settings_unchanged p.settings p.settings_strategy _ s0s hset]
  simp [claude_paths, ApplyResult.new, List.append_assoc]

theorem write_st_force_post_json (st : ApplyState) (t : String) (v : Json)
    (hm : st.mode = .force) :
    (write_st st t (.json v) t).fs.lookup t = some (.json v) := by
  obtain ⟨⟨e, hl, he⟩, _⟩ := write_st_force_post st t (.json v) hm
  rw [hl, norm_fc_json he]

theorem apply_memory_force_post (files : List PresetFile) (st st' : ApplyState)
    (hm : st.mode = .force)
    (happ : apply_memory files .replace st = some st') :
    files = [] ∨ ∃ e, st'.fs.lookup ".claude/CLAUDE.md" = some e ∧
      norm_fc e = norm_fc
        (.text (join_memory (files.map fun f => f.content))) := by
  by_cases hf : files.isEmpty
  · exact Or.inl (List.isEmpty_iff.mp hf)
  · right
    rw [apply_memory, if_neg hf] at happ
    cases hl : st.fs.lookup ".claude/CLAUDE.md" with
    | none =>
      simp only [hl] at happ
      injection happ with happ
      subst happ
      exact ⟨_, lookup_fs_write_self st.fs _ _, rfl⟩
    | some e =>
      simp only [hl] at happ
      injection happ with happ
      subst happ
      exact (write_st_force_post st _ _ hm).1

theorem apply_mcp_force_dec (files : List JsonPresetFile)
    (strategy : MergeStrategy) (st st' : ApplyState) (hf : ¬files.isEmpty)
    (happ : apply_mcp files strategy st = some st') :
    ∃ s0 s1 s2,
      read_settings st.fs ".claude/settings.local.json" strategy = some s0 ∧
      ensure_key s0 "mcpServers" = some s1 ∧
      insert_entries s1 "mcpServers" (files.map fun f =>
        (rust_replace (rust_replace f.relative_path "mcp/" "") ".json" "",
         f.content)) = some s2 ∧
      st' = write_st st ".claude/settings.local.json" (.json s2)
        ".claude/settings.local.json" := by
  rw [apply_mcp, if_neg hf] at happ
  cases h0 : read_settings st.fs ".claude/settings.local.json" strategy with
  | none => simp only [h0] at happ; cases happ
  | some s0 =>
    simp only [h0] at happ
    cases h1 : ensure_key s0 "mcpServers" with
    | none => simp only [h1] at happ; cases happ
    | some s1 =>
      simp only [h1] at happ
      cases h2 : insert_entries s1 "mcpServers" (files.map fun f =>
          (rust_replace (rust_replace f.relative_path "mcp/" "") ".json" "",
           f.content)) with
      | none => simp only [h2] at happ; cases happ
      | some s2 =>
        simp only [h2, Option.some.injEq] at happ
        exact ⟨s0, s1, s2, rfl, h1, h2, happ.symm⟩

theorem apply_settings_force_dec (files : List JsonPresetFile)
    (strategy : MergeStrategy) (st st' : ApplyState) (hf : ¬files.isEmpty)
    (happ : apply_settings files strategy st = some st') :
    ∃ s0,
      read_settings st.fs ".claude/settings.local.json" strategy = some s0 ∧
      st' = write_st st ".claude/settings.local.json"
        (.json (files.foldl (fun s f => merge_flat s f.content) s0))
        ".claude/settings.local.json" := by
  rw [apply_settings, if_neg hf] at happ
  cases h0 : read_settings st.fs ".claude/settings.local.json" strategy with
  | none => simp only [h0] at happ; cases happ
  | some s0 =>
    simp only [h0, Option.some.injEq] at happ
    exact ⟨s0, rfl, happ.symm⟩

theorem read_settings_concat_json {fs : FS} {sf : String} {v : Json}
    (h : fs.lookup sf = some (.json v)) :
    read_settings fs sf .concat = some v := by
  rw [read_settings]
  simp only [h]

theorem config_wf_of_read (fs : FS) (strategy : MergeStrategy) (s0 : Json)
    (hwfs : settings_wf fs = true)
    (h : read_settings fs ".claude/settings.local.json" strategy = some s0) :
    config_wf s0 "mcpServers" = true ∧
      (s0.isObj = true → s0.objWF = true) := by
  have hmain : config_wf s0 "mcpServers" = true := by
    cases strategy with
    | replace =>
      rw [read_settings] at h
      injection h with h
      subst h
      decide
    | concat =>
      rw [read_settings] at h
      cases hl : fs.lookup ".claude/settings.local.json" with
      | none =>
        simp only [hl] at h
        injection h with h
        subst h
        decide
      | some e =>
        cases e with
        | text s => simp only [hl] at h; cases h
        | json v =>
          simp only [hl] at h
          injection h with h
          subst h
          rw [settings_wf, hl] at hwfs
          exact hwfs
  refine ⟨hmain, fun hobj => ?_⟩
  rw [config_wf, Bool.and_eq_true, Bool.or_eq_true] at hmain
  rcases hmain.1 with hwf | hnull
  · exact hwf
  · rw [beq_iff_eq] at hnull
    subst hnull
    cases hobj

theorem read_settings_congr {fs fs' : FS} {sf : String}
    (strategy : MergeStrategy) (h : fs.lookup sf = fs'.lookup sf) :
    read_settings fs sf strategy = read_settings fs' sf strategy := by
  cases strategy with
  | concat => rw [read_settings, read_settings, h]
  | replace => rfl

/-- C2 amended: with no concat-strategy memory section, all destination
paths distinct, distinct generated mcp keys, distinct flat settings
keys and a serde-denotable settings file, a second Force run over the
filesystem a first Force run produced reports every path unchanged:
created, updated and skipped are all empty, every destination path is
listed in unchanged, and the filesystem and input stream are
untouched. -/
theorem pull_apply_idempotent (p : Preset) (fs : FS) (stdin : Stdin)
    (fs1 : FS) (r1 c1 : ApplyResult) (stdin1 : Stdin)
    (hmemS : p.memory = [] ∨ p.memory_strategy = .replace)
    (hnd : (pull_paths p).Nodup)
    (hmcpk : (p.mcp.map fun f =>
      rust_replace (rust_replace f.relative_path "mcp/" "") ".json" "").Nodup)
    (hsetk : (flat_keys p.settings).Nodup)
    (hwfs : settings_wf fs = true)
    (h1 : pull_apply p fs .force stdin = some (fs1, r1, c1, stdin1)) :
    pull_apply p fs1 .force stdin1
      = some (fs1, ⟨[], [], [], p.root.map fun f => f.relative_path⟩,
          ⟨[], [], [], claude_paths p⟩, stdin1) := by
  have hndP := hnd
  rw [pull_paths, List.nodup_append] at hndP
  obtain ⟨hndR, hndC0, hdisjRC⟩ := hndP
  have hndC := hndC0
  rw [claude_paths, List.nodup_append] at hndC
  obtain ⟨hnd1, hndC, hdisj1⟩ := hndC
  rw [List.nodup_append] at hndC
  obtain ⟨hnd2, hndC, hdisj2⟩ := hndC
  rw [List.nodup_append] at hndC
  obtain ⟨hnd3, hndC, hdisj3⟩ := hndC
  rw [List.nodup_append] at hndC
  obtain ⟨hnd4, hndC, hdisj4⟩ := hndC
  rw [List.nodup_append] at hndC
  obtain ⟨hnd5, hndC, hdisj5⟩ := hndC
  rw [List.nodup_append] at hndC
  obtain ⟨hnd6, hndC, hdisj6⟩ := hndC
  rw [List.nodup_append] at hndC
  obtain ⟨hnd7, hnd8, hdisj7⟩ := hndC
  rw [pull_apply_eq_chain] at h1
  cases hca : claude_apply p (apply_root_files p.root fs ConflictMode.force stdin).fs ConflictMode.force (apply_root_files p.root fs ConflictMode.force stdin).stdin with
  | none => rw [hca] at h1; cases h1
  | some stc =>
  rw [hca] at h1
  simp only [Option.bind, Option.some.injEq, Prod.mk.injEq] at h1
  obtain ⟨hfs1, hr1, hc1, hstdin1⟩ := h1
  have hcaChain := hca
  rw [claude_apply_eq_chain] at hcaChain
  cases hmemEq : apply_memory p.memory p.memory_strategy (apply_rules p.rules ⟨(apply_root_files p.root fs ConflictMode.force stdin).fs, ApplyResult.new, ConflictMode.force, (apply_root_files p.root fs ConflictMode.force stdin).stdin⟩) with
  | none => simp only [hmemEq, Option.bind] at hcaChain; cases hcaChain
  | some stm =>
  simp only [hmemEq, Option.bind] at hcaChain
  cases hmcpEq : apply_mcp p.mcp p.mcp_strategy (apply_commands p.commands stm) with
  | none => simp only [hmcpEq, Option.bind] at hcaChain; cases hcaChain
  | some st4 =>
  simp only [hmcpEq, Option.bind] at hcaChain
  -- mode threading through run 1
  have hm1 : (apply_rules p.rules ⟨(apply_root_files p.root fs ConflictMode.force stdin).fs, ApplyResult.new, ConflictMode.force, (apply_root_files p.root fs ConflictMode.force stdin).stdin⟩).mode = ConflictMode.force :=
    (apply_section_files_frozen "rules/" ".claude/rules/" p.rules ⟨(apply_root_files p.root fs ConflictMode.force stdin).fs, ApplyResult.new, ConflictMode.force, (apply_root_files p.root fs ConflictMode.force stdin).stdin⟩
      (Or.inl rfl)).1
  have hmM : stm.mode = ConflictMode.force :=
    ((apply_memory_frozen p.memory p.memory_strategy (apply_rules p.rules ⟨(apply_root_files p.root fs ConflictMode.force stdin).fs, ApplyResult.new, ConflictMode.force, (apply_root_files p.root fs ConflictMode.force stdin).stdin⟩) stm
      (Or.inl hm1) hmemEq).1).trans hm1
  have hm3 : (apply_commands p.commands stm).mode = ConflictMode.force :=
    ((apply_section_files_frozen "commands/" ".claude/commands/" p.commands stm
      (Or.inl hmM)).1).trans hmM
  have hm4 : st4.mode = ConflictMode.force :=
    ((apply_mcp_frozen p.mcp p.mcp_strategy (apply_commands p.commands stm) st4
      (Or.inl hm3) hmcpEq).1).trans hm3
  have hm5 : (apply_hooks p.hooks st4).mode = ConflictMode.force :=
    ((apply_hooks_frozen p.hooks st4 (Or.inl hm4)).1).trans hm4
  have hm6 : (apply_agents p.agents (apply_hooks p.hooks st4)).mode = ConflictMode.force :=
    ((apply_section_files_frozen "agents/" ".claude/agents/" p.agents (apply_hooks p.hooks st4)
      (Or.inl hm5)).1).trans hm5
  have hm7 : (apply_skills p.skills (apply_agents p.agents (apply_hooks p.hooks st4))).mode = ConflictMode.force :=
    ((apply_section_files_frozen "skills/" ".claude/skills/" p.skills (apply_agents p.agents (apply_hooks p.hooks st4))
      (Or.inl hm6)).1).trans hm6
  -- per-step frames of run 1
  have hrootFrame : ∀ q, q ∉ p.root.map (fun f => f.relative_path) →
      (apply_root_files p.root fs ConflictMode.force stdin).fs.lookup q = fs.lookup q :=
    fun q hq => (step_root p.root hndR
      ⟨fs, ApplyResult.new, ConflictMode.force, stdin⟩ (apply_root_files p.root fs ConflictMode.force stdin) rfl).2 q hq
  have hfr1 : ∀ q, q ∉ section_paths "rules/" ".claude/rules/" p.rules → (apply_rules p.rules ⟨(apply_root_files p.root fs ConflictMode.force stdin).fs, ApplyResult.new, ConflictMode.force, (apply_root_files p.root fs ConflictMode.force stdin).stdin⟩).fs.lookup q = (apply_root_files p.root fs ConflictMode.force stdin).fs.lookup q :=
    fun q hq => (step_one_to_one "rules/" ".claude/rules/" p.rules hnd1
      ⟨(apply_root_files p.root fs ConflictMode.force stdin).fs, ApplyResult.new, ConflictMode.force, (apply_root_files p.root fs ConflictMode.force stdin).stdin⟩ (apply_rules p.rules ⟨(apply_root_files p.root fs ConflictMode.force stdin).fs, ApplyResult.new, ConflictMode.force, (apply_root_files p.root fs ConflictMode.force stdin).stdin⟩) rfl).2 q hq
  have hfr2 : ∀ q, q ∉ (if p.memory.isEmpty then [] else [".claude/CLAUDE.md"]) → stm.fs.lookup q = (apply_rules p.rules ⟨(apply_root_files p.root fs ConflictMode.force stdin).fs, ApplyResult.new, ConflictMode.force, (apply_root_files p.root fs ConflictMode.force stdin).stdin⟩).fs.lookup q :=
    fun q hq => (step_memory p.memory p.memory_strategy (apply_rules p.rules ⟨(apply_root_files p.root fs ConflictMode.force stdin).fs, ApplyResult.new, ConflictMode.force, (apply_root_files p.root fs ConflictMode.force stdin).stdin⟩) stm hmemEq).2 q hq
  have hfr3 : ∀ q, q ∉ section_paths "commands/" ".claude/commands/" p.commands → (apply_commands p.commands stm).fs.lookup q = stm.fs.lookup q :=
    fun q hq => (step_one_to_one "commands/" ".claude/commands/" p.commands hnd3
      stm (apply_commands p.commands stm) rfl).2 q hq
  have hfr4 : ∀ q, q ∉ (if p.mcp.isEmpty then [] else [".claude/settings.local.json"]) → st4.fs.lookup q = (apply_commands p.commands stm).fs.lookup q :=
    fun q hq => (step_mcp p.mcp p.mcp_strategy (apply_commands p.commands stm) st4 hmcpEq).2 q hq
  have hfr5 : ∀ q, q ∉ (if p.hooks.isEmpty then [] else [".claude/hooks.json"]) → (apply_hooks p.hooks st4).fs.lookup q = st4.fs.lookup q :=
    fun q hq => (step_hooks p.hooks st4 (apply_hooks p.hooks st4) rfl).2 q hq
  have hfr6 : ∀ q, q ∉ section_paths "agents/" ".claude/agents/" p.agents → (apply_agents p.agents (apply_hooks p.hooks st4)).fs.lookup q = (apply_hooks p.hooks st4).fs.lookup q :=
    fun q hq => (step_one_to_one "agents/" ".claude/agents/" p.agents hnd6
      (apply_hooks p.hooks st4) (apply_agents p.agents (apply_hooks p.hooks st4)) rfl).2 q hq
  have hfr7 : ∀ q, q ∉ section_paths "skills/" ".claude/skills/" p.skills → (apply_skills p.skills (apply_agents p.agents (apply_hooks p.hooks st4))).fs.lookup q = (apply_agents p.agents (apply_hooks p.hooks st4)).fs.lookup q :=
    fun q hq => (step_one_to_one "skills/" ".claude/skills/" p.skills hnd7
      (apply_agents p.agents (apply_hooks p.hooks st4)) (apply_skills p.skills (apply_agents p.agents (apply_hooks p.hooks st4))) rfl).2 q hq
  have hfr8 : ∀ q, q ∉ (if p.settings.isEmpty then [] else [".claude/settings.local.json"]) → stc.fs.lookup q = (apply_skills p.skills (apply_agents p.agents (apply_hooks p.hooks st4))).fs.lookup q :=
    fun q hq => (step_settings p.settings p.settings_strategy (apply_skills p.skills (apply_agents p.agents (apply_hooks p.hooks st4))) stc
      hcaChain).2 q hq
  -- rules posts on the final filesystem
  have hP1 : ∀ f ∈ p.rules, ∃ e,
      fs1.lookup (".claude/rules/" ++ rust_replace f.relative_path "rules/" "")
        = some e ∧ norm_fc e = norm_fc (.text f.content) := by
    intro f hf
    obtain ⟨e, hl, he⟩ := apply_section_files_force_post "rules/"
      ".claude/rules/" p.rules ⟨(apply_root_files p.root fs ConflictMode.force stdin).fs, ApplyResult.new, ConflictMode.force, (apply_root_files p.root fs ConflictMode.force stdin).stdin⟩ hnd1 rfl f hf
    refine ⟨e, ?_, he⟩
    have hqm : (".claude/rules/" ++ rust_replace f.relative_path "rules/" "")
        ∈ section_paths "rules/" ".claude/rules/" p.rules := List.mem_map_of_mem _ hf
    have hnot : (".claude/rules/" ++ rust_replace f.relative_path "rules/" "")
        ∉ (if p.memory.isEmpty then [] else [".claude/CLAUDE.md"]) ++ (section_paths "commands/" ".claude/commands/" p.commands ++ ((if p.mcp.isEmpty then [] else [".claude/settings.local.json"]) ++ ((if p.hooks.isEmpty then [] else [".claude/hooks.json"]) ++ (section_paths "agents/" ".claude/agents/" p.agents ++ (section_paths "skills/" ".claude/skills/" p.skills ++ (if p.settings.isEmpty then [] else [".claude/settings.local.json"])))))) :=
      fun h => hdisj1 hqm h
    simp only [List.mem_append, not_or] at hnot
    obtain ⟨hn2, hn3, hn4, hn5, hn6, hn7, hn8⟩ := hnot
    rw [← hfs1, hfr8 _ hn8, hfr7 _ hn7, hfr6 _ hn6, hfr5 _ hn5, hfr4 _ hn4,
      hfr3 _ hn3, hfr2 _ hn2]
    exact hl
  -- memory post
  have hP2 : p.memory = [] ∨ (p.memory_strategy = .replace ∧ ∃ e,
      fs1.lookup ".claude/CLAUDE.md" = some e ∧
      norm_fc e = norm_fc
        (.text (join_memory (p.memory.map fun f => f.content)))) := by
    by_cases hme : p.memory.isEmpty
    · exact Or.inl (List.isEmpty_iff.mp hme)
    · rcases hmemS with hE | hR
      · exact absurd (hE ▸ rfl) hme
      · rw [hR] at hmemEq
        rcases apply_memory_force_post p.memory (apply_rules p.rules ⟨(apply_root_files p.root fs ConflictMode.force stdin).fs, ApplyResult.new, ConflictMode.force, (apply_root_files p.root fs ConflictMode.force stdin).stdin⟩) stm hm1 hmemEq with
          hE | ⟨e, hl, he⟩
        · exact absurd (hE ▸ rfl) hme
        · refine Or.inr ⟨hR, e, ?_, he⟩
          have hqm : ".claude/CLAUDE.md" ∈ (if p.memory.isEmpty then [] else [".claude/CLAUDE.md"]) := by
            rw [if_neg hme]
            exact List.mem_singleton.mpr rfl
          have hnot : ".claude/CLAUDE.md"
              ∉ section_paths "commands/" ".claude/commands/" p.commands ++ ((if p.mcp.isEmpty then [] else [".claude/settings.local.json"]) ++ ((if p.hooks.isEmpty then [] else [".claude/hooks.json"]) ++ (section_paths "agents/" ".claude/agents/" p.agents ++ (section_paths "skills/" ".claude/skills/" p.skills ++ (if p.settings.isEmpty then [] else [".claude/settings.local.json"]))))) :=
            fun h => hdisj2 hqm h
          simp only [List.mem_append, not_or] at hnot
          obtain ⟨hn3, hn4, hn5, hn6, hn7, hn8⟩ := hnot
          rw [← hfs1, hfr8 _ hn8, hfr7 _ hn7, hfr6 _ hn6, hfr5 _ hn5,
            hfr4 _ hn4, hfr3 _ hn3]
          exact hl
  -- commands posts
  have hP3 : ∀ f ∈ p.commands, ∃ e,
      fs1.lookup
        (".claude/commands/" ++ rust_replace f.relative_path "commands/" "")
        = some e ∧ norm_fc e = norm_fc (.text f.content) := by
    intro f hf
    obtain ⟨e, hl, he⟩ := apply_section_files_force_post "commands/"
      ".claude/commands/" p.commands stm hnd3 hmM f hf
    refine ⟨e, ?_, he⟩
    have hqm : (".claude/commands/"
        ++ rust_replace f.relative_path "commands/" "") ∈ section_paths "commands/" ".claude/commands/" p.commands :=
      List.mem_map_of_mem _ hf
    have hnot : (".claude/commands/"
        ++ rust_replace f.relative_path "commands/" "")
        ∉ (if p.mcp.isEmpty then [] else [".claude/settings.local.json"]) ++ ((if p.hooks.isEmpty then [] else [".claude/hooks.json"]) ++ (section_paths "agents/" ".claude/agents/" p.agents ++ (section_paths "skills/" ".claude/skills/" p.skills ++ (if p.settings.isEmpty then [] else [".claude/settings.local.json"])))) :=
      fun h => hdisj3 hqm h
    simp only [List.mem_append, not_or] at hnot
    obtain ⟨hn4, hn5, hn6, hn7, hn8⟩ := hnot
    rw [← hfs1, hfr8 _ hn8, hfr7 _ hn7, hfr6 _ hn6, hfr5 _ hn5, hfr4 _ hn4]
    exact hl
  -- agents posts
  have hP6 : ∀ f ∈ p.agents, ∃ e,
      fs1.lookup (".claude/agents/" ++ rust_replace f.relative_path "agents/" "")
        = some e ∧ norm_fc e = norm_fc (.text f.content) := by
    intro f hf
    obtain ⟨e, hl, he⟩ := apply_section_files_force_post "agents/"
      ".claude/agents/" p.agents (apply_hooks p.hooks st4) hnd6 hm5 f hf
    refine ⟨e, ?_, he⟩
    have hqm : (".claude/agents/" ++ rust_replace f.relative_path "agents/" "")
        ∈ section_paths "agents/" ".claude/agents/" p.agents := List.mem_map_of_mem _ hf
    have hnot : (".claude/agents/" ++ rust_replace f.relative_path "agents/" "")
        ∉ section_paths "skills/" ".claude/skills/" p.skills ++ (if p.settings.isEmpty then [] else [".claude/settings.local.json"]) := fun h => hdisj6 hqm h
    simp only [List.mem_append, not_or] at hnot
    obtain ⟨hn7, hn8⟩ := hnot
    rw [← hfs1, hfr8 _ hn8, hfr7 _ hn7]
    exact hl
  -- skills posts
  have hP7 : ∀ f ∈ p.skills, ∃ e,
      fs1.lookup (".claude/skills/" ++ rust_replace f.relative_path "skills/" "")
        = some e ∧ norm_fc e = norm_fc (.text f.content) := by
    intro f hf
    obtain ⟨e, hl, he⟩ := apply_section_files_force_post "skills/"
      ".claude/skills/" p.skills (apply_agents p.agents (apply_hooks p.hooks st4)) hnd7 hm6 f hf
    refine ⟨e, ?_, he⟩
    have hqm : (".claude/skills/" ++ rust_replace f.relative_path "skills/" "")
        ∈ section_paths "skills/" ".claude/skills/" p.skills := List.mem_map_of_mem _ hf
    have hn8 : (".claude/skills/" ++ rust_replace f.relative_path "skills/" "")
        ∉ (if p.settings.isEmpty then [] else [".claude/settings.local.json"]) := fun h => hdisj7 hqm h
    rw [← hfs1, hfr8 _ hn8]
    exact hl
  -- hooks post
  have hPhooks : p.hooks = [] ∨
      fs1.lookup ".claude/hooks.json" = some (.json (build_hooks p.hooks)) := by
    by_cases hme : p.hooks.isEmpty
    · exact Or.inl (List.isEmpty_iff.mp hme)
    · right
      have hh5 : apply_hooks p.hooks st4 = write_st st4 ".claude/hooks.json"
          (.json (build_hooks p.hooks)) ".claude/hooks.json" := by
        rw [apply_hooks, if_neg hme]
      have hlook5 : (apply_hooks p.hooks st4).fs.lookup ".claude/hooks.json"
          = some (.json (build_hooks p.hooks)) := by
        rw [hh5]
        exact write_st_force_post_json st4 ".claude/hooks.json" _ hm4
      have hqm : ".claude/hooks.json" ∈ (if p.hooks.isEmpty then [] else [".claude/hooks.json"]) := by
        rw [if_neg hme]
        exact List.mem_singleton.mpr rfl
      have hnot : ".claude/hooks.json" ∉ section_paths "agents/" ".claude/agents/" p.agents ++ (section_paths "skills/" ".claude/skills/" p.skills ++ (if p.settings.isEmpty then [] else [".claude/settings.local.json"])) :=
        fun h => hdisj5 hqm h
      simp only [List.mem_append, not_or] at hnot
      obtain ⟨hn6, hn7, hn8⟩ := hnot
      rw [← hfs1, hfr8 _ hn8, hfr7 _ hn7, hfr6 _ hn6]
      exact hlook5
  -- mcp posts and run-2 data
  have hPmcp : ∃ s0m s1m s2m : Json, p.mcp = [] ∨
      (read_settings fs1 ".claude/settings.local.json" p.mcp_strategy
        = some s0m ∧
       ensure_key s0m "mcpServers" = some s1m ∧
       insert_entries s1m "mcpServers" (p.mcp.map fun f =>
         (rust_replace (rust_replace f.relative_path "mcp/" "") ".json" "",
          f.content)) = some s2m ∧
       fs1.lookup ".claude/settings.local.json" = some (.json s2m)) := by
    by_cases hme : p.mcp.isEmpty
    · exact ⟨.objNil, .objNil, .objNil, Or.inl (List.isEmpty_iff.mp hme)⟩
    · obtain ⟨s0, s1, s2, h0, h1r, h2r, hst4⟩ := apply_mcp_force_dec p.mcp
        p.mcp_strategy (apply_commands p.commands stm) st4 hme hmcpEq
      have hlook4 : st4.fs.lookup ".claude/settings.local.json"
          = some (.json s2) := by
        rw [hst4]
        exact write_st_force_post_json (apply_commands p.commands stm) ".claude/settings.local.json" s2 hm3
      have hsf4 : ".claude/settings.local.json" ∈ (if p.mcp.isEmpty then [] else [".claude/settings.local.json"]) := by
        rw [if_neg hme]
        exact List.mem_singleton.mpr rfl
      have hnot : ".claude/settings.local.json"
          ∉ (if p.hooks.isEmpty then [] else [".claude/hooks.json"]) ++ (section_paths "agents/" ".claude/agents/" p.agents ++ (section_paths "skills/" ".claude/skills/" p.skills ++ (if p.settings.isEmpty then [] else [".claude/settings.local.json"]))) := fun h => hdisj4 hsf4 h
      simp only [List.mem_append, not_or] at hnot
      obtain ⟨hn5, hn6, hn7, hn8⟩ := hnot
      have hlook1 : fs1.lookup ".claude/settings.local.json"
          = some (.json s2) := by
        rw [← hfs1, hfr8 _ hn8, hfr7 _ hn7, hfr6 _ hn6, hfr5 _ hn5]
        exact hlook4
      have hn1 : ".claude/settings.local.json" ∉ section_paths "rules/" ".claude/rules/" p.rules := fun h => hdisj1 h
        (List.mem_append_right _ (List.mem_append_right _
          (List.mem_append_left _ hsf4)))
      have hn2 : ".claude/settings.local.json" ∉ (if p.memory.isEmpty then [] else [".claude/CLAUDE.md"]) := fun h => hdisj2 h
        (List.mem_append_right _ (List.mem_append_left _ hsf4))
      have hn3 : ".claude/settings.local.json" ∉ section_paths "commands/" ".claude/commands/" p.commands := fun h => hdisj3 h
        (List.mem_append_left _ hsf4)
      have hsfC : ".claude/settings.local.json" ∈ claude_paths p := by
        rw [claude_paths]
        exact List.mem_append_right _ (List.mem_append_right _
          (List.mem_append_right _ (List.mem_append_left _ hsf4)))
      have hnR : ".claude/settings.local.json"
          ∉ p.root.map (fun f => f.relative_path) := fun h => hdisjRC h hsfC
      have hback : (apply_commands p.commands stm).fs.lookup ".claude/settings.local.json"
          = fs.lookup ".claude/settings.local.json" := by
        rw [hfr3 _ hn3, hfr2 _ hn2, hfr1 _ hn1, hrootFrame _ hnR]
      have h0fs : read_settings fs ".claude/settings.local.json" p.mcp_strategy
          = some s0 := by
        rw [← read_settings_congr p.mcp_strategy hback]
        exact h0
      have hwfr := config_wf_of_read fs p.mcp_strategy s0 hwfs h0fs
      have hkeys : ((p.mcp.map fun f =>
          (rust_replace (rust_replace f.relative_path "mcp/" "") ".json" "",
           f.content)).map Prod.fst).Nodup := by
        rw [List.map_map]
        exact hmcpk
      have hents : (p.mcp.map fun f =>
          (rust_replace (rust_replace f.relative_path "mcp/" "") ".json" "",
           f.content)) ≠ [] := by
        intro h
        rw [List.map_eq_nil_iff] at h
        exact hme (h ▸ rfl)
      cases hstrat : p.mcp_strategy with
      | replace =>
        rw [hstrat, read_settings] at h0fs
        injection h0fs with h0fs
        refine ⟨.objNil, s1, s2, Or.inr ⟨rfl, ?_, ?_, hlook1⟩⟩
        · rw [h0fs]; exact h1r
        · exact h2r
      | concat =>
        obtain ⟨hens, hins⟩ := mcp_fixpoint _ s0 s1 s2 "mcpServers" hwfr.1
          hkeys hents h1r h2r
        exact ⟨s2, s2, s2, Or.inr ⟨read_settings_concat_json hlook1, hens,
          hins, hlook1⟩⟩
  obtain ⟨s0m, s1m, s2m, hmcpCase⟩ := hPmcp
  -- settings posts and run-2 data
  have hPset : ∃ s0s : Json, p.settings = [] ∨
      (read_settings fs1 ".claude/settings.local.json" p.settings_strategy
        = some s0s ∧
       fs1.lookup ".claude/settings.local.json"
         = some (.json (p.settings.foldl
             (fun s f => merge_flat s f.content) s0s))) := by
    by_cases hme : p.settings.isEmpty
    · exact ⟨.objNil, Or.inl (List.isEmpty_iff.mp hme)⟩
    · obtain ⟨s0, h0, hstcEq⟩ := apply_settings_force_dec p.settings
        p.settings_strategy (apply_skills p.skills (apply_agents p.agents (apply_hooks p.hooks st4))) stc hme hcaChain
      have hlookC : fs1.lookup ".claude/settings.local.json"
          = some (.json (p.settings.foldl
              (fun s f => merge_flat s f.content) s0)) := by
        rw [← hfs1, hstcEq]
        exact write_st_force_post_json (apply_skills p.skills (apply_agents p.agents (apply_hooks p.hooks st4))) ".claude/settings.local.json" _ hm7
      have hsf8 : ".claude/settings.local.json" ∈ (if p.settings.isEmpty then [] else [".claude/settings.local.json"]) := by
        rw [if_neg hme]
        exact List.mem_singleton.mpr rfl
      have hn1 : ".claude/settings.local.json" ∉ section_paths "rules/" ".claude/rules/" p.rules := fun h => hdisj1 h
        (List.mem_append_right _ (List.mem_append_right _
          (List.mem_append_right _ (List.mem_append_right _
            (List.mem_append_right _ (List.mem_append_right _ hsf8))))))
      have hn2 : ".claude/settings.local.json" ∉ (if p.memory.isEmpty then [] else [".claude/CLAUDE.md"]) := fun h => hdisj2 h
        (List.mem_append_right _ (List.mem_append_right _
          (List.mem_append_right _ (List.mem_append_right _
            (List.mem_append_right _ hsf8)))))
      have hn3 : ".claude/settings.local.json" ∉ section_paths "commands/" ".claude/commands/" p.commands := fun h => hdisj3 h
        (List.mem_append_right _ (List.mem_append_right _
          (List.mem_append_right _ (List.mem_append_right _ hsf8))))
      have hn4 : ".claude/settings.local.json" ∉ (if p.mcp.isEmpty then [] else [".claude/settings.local.json"]) := fun h => hdisj4 h
        (List.mem_append_right _ (List.mem_append_right _
          (List.mem_append_right _ hsf8)))
      have hn5 : ".claude/settings.local.json" ∉ (if p.hooks.isEmpty then [] else [".claude/hooks.json"]) := fun h => hdisj5 h
        (List.mem_append_right _ (List.mem_append_right _ hsf8))
      have hn6 : ".claude/settings.local.json" ∉ section_paths "agents/" ".claude/agents/" p.agents := fun h => hdisj6 h
        (List.mem_append_right _ hsf8)
      have hn7 : ".claude/settings.local.json" ∉ section_paths "skills/" ".claude/skills/" p.skills := fun h => hdisj7 h hsf8
      have hsfC : ".claude/settings.local.json" ∈ claude_paths p := by
        rw [claude_paths]
        exact List.mem_append_right _ (List.mem_append_right _
          (List.mem_append_right _ (List.mem_append_right _
            (List.mem_append_right _ (List.mem_append_right _
              (List.mem_append_right _ hsf8))))))
      have hnR : ".claude/settings.local.json"
          ∉ p.root.map (fun f => f.relative_path) := fun h => hdisjRC h hsfC
      have hback : (apply_skills p.skills (apply_agents p.agents (apply_hooks p.hooks st4))).fs.lookup ".claude/settings.local.json"
          = fs.lookup ".claude/settings.local.json" := by
        rw [hfr7 _ hn7, hfr6 _ hn6, hfr5 _ hn5, hfr4 _ hn4, hfr3 _ hn3,
          hfr2 _ hn2, hfr1 _ hn1, hrootFrame _ hnR]
      have h0fs : read_settings fs ".claude/settings.local.json"
          p.settings_strategy = some s0 := by
        rw [← read_settings_congr p.settings_strategy hback]
        exact h0
      have hwfr := config_wf_of_read fs p.settings_strategy s0 hwfs h0fs
      cases hstrat : p.settings_strategy with
      | replace =>
        rw [hstrat, read_settings] at h0fs
        injection h0fs with h0fs
        refine ⟨.objNil, Or.inr ⟨rfl, ?_⟩⟩
        rw [h0fs]
        exact hlookC
      | concat =>
        refine ⟨p.settings.foldl (fun s f => merge_flat s f.content) s0,
          Or.inr ⟨read_settings_concat_json hlookC, ?_⟩⟩
        rw [settings_fold_fixpoint p.settings s0 hwfr.2 hsetk]
        exact hlookC
  obtain ⟨s0s, hsetCase⟩ := hPset
  -- root posts
  have hProot : ∀ f ∈ p.root, ∃ e,
      fs1.lookup f.relative_path = some e ∧
      norm_fc e = norm_fc (.text f.content) := by
    intro f hf
    obtain ⟨e, hl, he⟩ := apply_root_fold_force_post p.root
      ⟨fs, ApplyResult.new, ConflictMode.force, stdin⟩ hndR rfl f hf
    refine ⟨e, ?_, he⟩
    have hmemR : f.relative_path ∈ p.root.map (fun f => f.relative_path) :=
      List.mem_map_of_mem _ hf
    have hnC : f.relative_path ∉ claude_paths p := fun h => hdisjRC hmemR h
    rw [← hfs1,
      (claude_apply_existence p (apply_root_files p.root fs ConflictMode.force stdin).fs ConflictMode.force (apply_root_files p.root fs ConflictMode.force stdin).stdin stc
        hndC0 hca).2.2 _ hnC]
    exact hl
  -- run 2
  have hroot2 : apply_root_files p.root fs1 ConflictMode.force stdin1
      = ⟨fs1, ⟨[], [], [], p.root.map fun f => f.relative_path⟩,
         ConflictMode.force, stdin1⟩ :=
    apply_root_fold_unchanged p.root
      ⟨fs1, ApplyResult.new, ConflictMode.force, stdin1⟩ hProot
  have hcl2 : claude_apply p fs1 ConflictMode.force stdin1
      = some ⟨fs1, ⟨[], [], [], claude_paths p⟩, ConflictMode.force, stdin1⟩ :=
    claude_apply_unchanged p fs1 ConflictMode.force stdin1 s0m s1m s2m s0s
      hP1 hP2 hP3 hmcpCase hPhooks hP6 hP7 hsetCase
  rw [pull_apply_eq_chain, hroot2]
  dsimp only
  rw [hcl2]
  rfl

theorem pull_apply_idempotent_witness :
    ((pull_paths { rules := [PresetFile.mk "rules/a.md" "R"], memory := [PresetFile.mk "memory/m.md" "M"], commands := [], mcp := [JsonPresetFile.mk "mcp/s.json" (.objCons "cmd" (.str "x") .objNil)], hooks := [JsonPresetFile.mk "hooks/h.json" (.num 1)], agents := [], skills := [], settings := [], root := [], memory_strategy := .replace, mcp_strategy := .concat, settings_strategy := .concat }).Nodup ∧
     settings_wf ([] : FS) = true ∧
     pull_apply { rules := [PresetFile.mk "rules/a.md" "R"], memory := [PresetFile.mk "memory/m.md" "M"], commands := [], mcp := [JsonPresetFile.mk "mcp/s.json" (.objCons "cmd" (.str "x") .objNil)], hooks := [JsonPresetFile.mk "hooks/h.json" (.num 1)], agents := [], skills := [], settings := [], root := [], memory_strategy := .replace, mcp_strategy := .concat, settings_strategy := .concat } [] .force []
       = some ([(".claude/rules/a.md", .text "R"), (".claude/CLAUDE.md", .text "M"), (".claude/settings.local.json", .json (.objCons "mcpServers" (.objCons "s" (.objCons "cmd" (.str "x") .objNil) .objNil) .objNil)), (".claude/hooks.json", .json (.objCons "h" (.num 1) .objNil))], ⟨[], [], [], []⟩,
           ⟨[".claude/rules/a.md", ".claude/CLAUDE.md",
             ".claude/settings.local.json", ".claude/hooks.json"],
            [], [], []⟩, [])) ∧
    pull_apply { rules := [PresetFile.mk "rules/a.md" "R"], memory := [PresetFile.mk "memory/m.md" "M"], commands := [], mcp := [JsonPresetFile.mk "mcp/s.json" (.objCons "cmd" (.str "x") .objNil)], hooks := [JsonPresetFile.mk "hooks/h.json" (.num 1)], agents := [], skills := [], settings := [], root := [], memory_strategy := .replace, mcp_strategy := .concat, settings_strategy := .concat } [(".claude/rules/a.md", .text "R"), (".claude/CLAUDE.md", .text "M"), (".claude/settings.local.json", .json (.objCons "mcpServers" (.objCons "s" (.objCons "cmd" (.str "x") .objNil) .objNil) .objNil)), (".claude/hooks.json", .json (.objCons "h" (.num 1) .objNil))] .force []
      = some ([(".claude/rules/a.md", .text "R"), (".claude/CLAUDE.md", .text "M"), (".claude/settings.local.json", .json (.objCons "mcpServers" (.objCons "s" (.objCons "cmd" (.str "x") .objNil) .objNil) .objNil)), (".claude/hooks.json", .json (.objCons "h" (.num 1) .objNil))],
          ⟨[], [], [], (({ rules := [PresetFile.mk "rules/a.md" "R"], memory := [PresetFile.mk "memory/m.md" "M"], commands := [], mcp := [JsonPresetFile.mk "mcp/s.json" (.objCons "cmd" (.str "x") .objNil)], hooks := [JsonPresetFile.mk "hooks/h.json" (.num 1)], agents := [], skills := [], settings := [], root := [], memory_strategy := .replace, mcp_strategy := .concat, settings_strategy := .concat } : Preset).root.map fun f => f.relative_path)⟩,
          ⟨[], [], [], claude_paths { rules := [PresetFile.mk "rules/a.md" "R"], memory := [PresetFile.mk "memory/m.md" "M"], commands := [], mcp := [JsonPresetFile.mk "mcp/s.json" (.objCons "cmd" (.str "x") .objNil)], hooks := [JsonPresetFile.mk "hooks/h.json" (.num 1)], agents := [], skills := [], settings := [], root := [], memory_strategy := .replace, mcp_strategy := .concat, settings_strategy := .concat }⟩, []) := by
  refine ⟨⟨by decide, by decide, by decide⟩, ?_⟩
  exact pull_apply_idempotent { rules := [PresetFile.mk "rules/a.md" "R"], memory := [PresetFile.mk "memory/m.md" "M"], commands := [], mcp := [JsonPresetFile.mk "mcp/s.json" (.objCons "cmd" (.str "x") .objNil)], hooks := [JsonPresetFile.mk "hooks/h.json" (.num 1)], agents := [], skills := [], settings := [], root := [], memory_strategy := .replace, mcp_strategy := .concat, settings_strategy := .concat } [] [] [(".claude/rules/a.md", .text "R"), (".claude/CLAUDE.md", .text "M"), (".claude/settings.local.json", .json (.objCons "mcpServers" (.objCons "s" (.objCons "cmd" (.str "x") .objNil) .objNil) .objNil)), (".claude/hooks.json", .json (.objCons "h" (.num 1) .objNil))] ⟨[], [], [], []⟩
    ⟨[".claude/rules/a.md", ".claude/CLAUDE.md",
      ".claude/settings.local.json", ".claude/hooks.json"], [], [], []⟩
    [] (Or.inr rfl) (by decide) (by decide) (by decide) (by decide) (by decide)

/-- C2 counterexample: a concat-strategy memory section grows the
destination on every run, so the second Force run reports the file
updated, not unchanged: re-applying the same preset is not
idempotent. -/
theorem pull_apply_idempotent_counterexample :
    pull_apply { rules := [], memory := [PresetFile.mk "memory/a.md" "# A"], commands := [], mcp := [], hooks := [], agents := [], skills := [], settings := [], root := [], memory_strategy := .concat, mcp_strategy := .concat, settings_strategy := .concat } [] .force []
      = some ([(".claude/CLAUDE.md", .text "# A")], ⟨[], [], [], []⟩,
          ⟨[".claude/CLAUDE.md"], [], [], []⟩, []) ∧
    pull_apply { rules := [], memory := [PresetFile.mk "memory/a.md" "# A"], commands := [], mcp := [], hooks := [], agents := [], skills := [], settings := [], root := [], memory_strategy := .concat, mcp_strategy := .concat, settings_strategy := .concat } [(".claude/CLAUDE.md", .text "# A")] .force []
      = some ([(".claude/CLAUDE.md", .text "# A\n\n---\n\n# A")],
          ⟨[], [], [], []⟩, ⟨[], [".claude/CLAUDE.md"], [], []⟩, []) :=
  ⟨by decide, by decide⟩

theorem claudeStep_frozen {R : ApplyState → Option ApplyState}
    (hR : ClaudeStep R) :
    ∀ st st', (st.mode = .force ∨ st.mode = .skip) → R st = some st' →
      st'.mode = st.mode ∧ st'.stdin = st.stdin := by
  induction hR with
  | one_to_one sp dir files =>
    intro st st' h hA
    replace hA : some (apply_section_files sp dir files st) = some st' := hA
    injection hA with hA
    subst hA
    exact apply_section_files_frozen sp dir files st h
  | memory files strategy =>
    intro st st' h hA
    exact apply_memory_frozen files strategy st st' h hA
  | mcp files strategy =>
    intro st st' h hA
    exact apply_mcp_frozen files strategy st st' h hA
  | hooks files =>
    intro st st' h hA
    replace hA : some (apply_hooks files st) = some st' := hA
    injection hA with hA
    subst hA
    exact apply_hooks_frozen files st h
  | settings files strategy =>
    intro st st' h hA
    exact apply_settings_frozen files strategy st st' h hA
  | @comp A B hA hB ihA ihB =>
    intro st st' h hAB
    replace hAB : (A st).bind B = some st' := hAB
    cases hAs : A st with
    | none => rw [hAs] at hAB; cases hAB
    | some st1 =>
      rw [hAs] at hAB
      have hB1 : B st1 = some st' := hAB
      obtain ⟨hm1, hs1⟩ := ihA st st1 h hAs
      obtain ⟨hm2, hs2⟩ := ihB st1 st' (by rw [hm1]; exact h) hB1
      exact ⟨hm2.trans hm1, hs2.trans hs1⟩

theorem claude_apply_is_claudeStep (p : Preset) :
    ∃ R, ClaudeStep R ∧ ∀ fs mode stdin,
      claude_apply p fs mode stdin = R ⟨fs, ApplyResult.new, mode, stdin⟩ := by
  refine ⟨_, ClaudeStep.comp
    (ClaudeStep.one_to_one "rules/" ".claude/rules/" p.rules)
    (ClaudeStep.comp (ClaudeStep.memory p.memory p.memory_strategy)
      (ClaudeStep.comp
        (ClaudeStep.one_to_one "commands/" ".claude/commands/" p.commands)
        (ClaudeStep.comp (ClaudeStep.mcp p.mcp p.mcp_strategy)
          (ClaudeStep.comp (ClaudeStep.hooks p.hooks)
            (ClaudeStep.comp
              (ClaudeStep.one_to_one "agents/" ".claude/agents/" p.agents)
              (ClaudeStep.comp
                (ClaudeStep.one_to_one "skills/" ".claude/skills/" p.skills)
                (ClaudeStep.settings p.settings p.settings_strategy))))))),
    fun fs mode stdin => rfl⟩

theorem claudeStep_resume (sp dir : String) (f : PresetFile)
    (files : List PresetFile) (st : ApplyState) :
    apply_section_files sp dir (f :: files) st
      = apply_section_files sp dir files
          (write_st st (dir ++ rust_replace f.relative_path sp "")
            (.text f.content) (dir ++ rust_replace f.relative_path sp "")) :=
  rfl

/-- C3 amended, intra-invocation half: when a conflicting write of one
ClaudeCodeAdapter invocation prompts in Ask mode and the user answers
overwrite-all (resp. skip-all), that write consumes exactly that one
answer, overwrites (resp. skips) the file, and escalates the threaded
mode to Force (resp. Skip); the remainder of the invocation — the
current section's remaining files and every later section, that is,
any composite of the adapter's section steps — then finishes with the
mode still Force (resp. Skip) and the input stream left exactly at
rest: the user is never prompted again in that invocation.  The
decision does not cross the invocation boundary, because pull_preset
passes the decided mode by value to the root phase and to each adapter
(counterexample). -/
theorem claude_mid_invocation_all_decision (st : ApplyState) (t : String)
    (c : FileContent) (d : String) (e : FileContent) (ans : String)
    (rest : Stdin) (R : ApplyState → Option ApplyState) (st' : ApplyState)
    (hR : ClaudeStep R)
    (hmode : st.mode = .ask)
    (hl : st.fs.lookup t = some e)
    (hne : ¬norm_fc e = norm_fc c)
    (hstdin : st.stdin = some ans :: rest)
    (hcont : R (write_st st t c d) = some st') :
    (interpret_answer ans true = some .overwriteAll →
      write_st st t c d
        = ⟨fs_write st.fs t c, st.result.add_updated d, .force, rest⟩ ∧
      st'.mode = .force ∧ st'.stdin = rest) ∧
    (interpret_answer ans true = some .skipAll →
      write_st st t c d = ⟨st.fs, st.result.add_skipped d, .skip, rest⟩ ∧
      st'.mode = .skip ∧ st'.stdin = rest) := by
  constructor
  · intro hans
    have hres : resolve_conflict st.mode d (some e.diffText) (some c.diffText)
        st.stdin = (true, .force, rest) := by
      rw [hmode, hstdin]
      simp only [resolve_conflict, Option.isSome_some, Bool.and_self]
      rw [ask_phase]
      simp only [hans]
    have hw := write_st_write hl hne hres
    refine ⟨hw, ?_, ?_⟩
    · obtain ⟨hm, _⟩ := claudeStep_frozen hR (write_st st t c d) st'
        (by rw [hw]; exact Or.inl rfl) hcont
      rw [hm, hw]
    · obtain ⟨_, hs⟩ := claudeStep_frozen hR (write_st st t c d) st'
        (by rw [hw]; exact Or.inl rfl) hcont
      rw [hs, hw]
  · intro hans
    have hres : resolve_conflict st.mode d (some e.diffText) (some c.diffText)
        st.stdin = (false, .skip, rest) := by
      rw [hmode, hstdin]
      simp only [resolve_conflict, Option.isSome_some, Bool.and_self]
      rw [ask_phase]
      simp only [hans]
    have hw := write_st_skipped hl hne hres
    refine ⟨hw, ?_, ?_⟩
    · obtain ⟨hm, _⟩ := claudeStep_frozen hR (write_st st t c d) st'
        (by rw [hw]; exact Or.inr rfl) hcont
      rw [hm, hw]
    · obtain ⟨_, hs⟩ := claudeStep_frozen hR (write_st st t c d) st'
        (by rw [hw]; exact Or.inr rfl) hcont
      rw [hs, hw]

theorem claude_mid_invocation_all_decision_witness :
    ((⟨[(".claude/rules/a.md", .text "old1"),
        (".claude/rules/b.md", .text "old2")],
       ApplyResult.new, .ask, [some "S", some "o"]⟩ : ApplyState).mode = .ask ∧
     (⟨[(".claude/rules/a.md", .text "old1"),
        (".claude/rules/b.md", .text "old2")],
       ApplyResult.new, .ask, [some "S", some "o"]⟩ : ApplyState).fs.lookup ".claude/rules/a.md" = some (.text "old1") ∧
     ¬norm_fc (FileContent.text "old1") = norm_fc (.text "new1") ∧
     interpret_answer "S" true = some .skipAll ∧
     (fun st => some (apply_section_files "rules/" ".claude/rules/"
         [PresetFile.mk "rules/b.md" "new2"] st))
       (write_st (⟨[(".claude/rules/a.md", .text "old1"),
        (".claude/rules/b.md", .text "old2")],
       ApplyResult.new, .ask, [some "S", some "o"]⟩ : ApplyState) ".claude/rules/a.md" (.text "new1")
         ".claude/rules/a.md")
       = some (⟨[(".claude/rules/a.md", .text "old1"),
        (".claude/rules/b.md", .text "old2")],
       ⟨[], [], [".claude/rules/a.md", ".claude/rules/b.md"], []⟩,
       .skip, [some "o"]⟩ : ApplyState)) ∧
    (⟨[(".claude/rules/a.md", .text "old1"),
        (".claude/rules/b.md", .text "old2")],
       ⟨[], [], [".claude/rules/a.md", ".claude/rules/b.md"], []⟩,
       .skip, [some "o"]⟩ : ApplyState).mode = .skip ∧
    (⟨[(".claude/rules/a.md", .text "old1"),
        (".claude/rules/b.md", .text "old2")],
       ⟨[], [], [".claude/rules/a.md", ".claude/rules/b.md"], []⟩,
       .skip, [some "o"]⟩ : ApplyState).stdin = [some "o"] := by
  refine ⟨⟨rfl, by decide, by decide, by decide, by decide⟩, ?_, ?_⟩
  all_goals
    have h := (claude_mid_invocation_all_decision
      (⟨[(".claude/rules/a.md", .text "old1"),
        (".claude/rules/b.md", .text "old2")],
       ApplyResult.new, .ask, [some "S", some "o"]⟩ : ApplyState)
      ".claude/rules/a.md" (.text "new1") ".claude/rules/a.md"
      (.text "old1") "S" [some "o"]
      (fun st => some (apply_section_files "rules/" ".claude/rules/"
        [PresetFile.mk "rules/b.md" "new2"] st))
      (⟨[(".claude/rules/a.md", .text "old1"),
        (".claude/rules/b.md", .text "old2")],
       ⟨[], [], [".claude/rules/a.md", ".claude/rules/b.md"], []⟩,
       .skip, [some "o"]⟩ : ApplyState)
      (ClaudeStep.one_to_one "rules/" ".claude/rules/"
        [PresetFile.mk "rules/b.md" "new2"])
      rfl (by decide) (by decide) rfl (by decide)).2 (by decide)
  · exact h.2.1
  · exact h.2.2

end Aidot
